import Mathlib

/-!
# Distributed worm automaton on a toroidal hexagonal-edge grid

A shallow embedding of `main.cpp`, `chess-board-region.h`, `state.h` and `utils.h`.

Conventions of the embedding.

* `size_t` quantities (grid sizes, band sizes, positions, the visited-state counter) are `Nat`;
  `int` quantities that can be negative (worm coordinates, heading with the `-1` sentinel,
  table entries with the `-1` sentinel, local tile coordinates) are `Int`.  All of them are
  bounded by the grid dimensions or by the 32-entry table, so no machine wraparound is modelled.
* `std::vector` and C arrays are `List`s, read with `List.getD` and written with `List.set`.
  The default of `getD` only gives a value to reads outside a vector; the hypotheses of the
  theorems below (6-bit states, a 32-entry table, cells on the grid) keep every index in range.
* The MPI processes are the entries of a list indexed by rank.  Every `MPI_Recv` names its source,
  so the result of a pass does not depend on the interleaving; a pass is executed in the order
  forced by the message dependencies (the sender of a message runs before its receiver).
-/

namespace WormSim

/-! ## utils.h -/

/-- GETBIT of utils.h: `(num >> bit) & 1`. -/
def GETBIT (num bit : Nat) : Nat := (num >>> bit) &&& 1

/-- The template `rotate_right` of utils.h at `T = int`, for a non-negative `num`.
`shift %= size` is the truncating remainder of C++. -/
def rotate_right (num size : Nat) (shift : Int) : Nat :=
  let shift1 : Int := Int.tmod shift (size : Int)
  let shift2 : Int := if shift1 < 0 then shift1 + (size : Int) else shift1
  let all_up : Nat := (1 <<< size) - 1
  let num1 : Nat := num &&& all_up
  let u : Nat := num1 >>> shift2.toNat
  let v : Nat := (num1 <<< (size - shift2.toNat)) &&& all_up
  u ||| v

/-! ## state.h -/

/-- Worm of state.h; `dir = -1` is the halted sentinel. -/
structure Worm where
  row : Int
  col : Int
  dir : Int
deriving DecidableEq

/-- GameInfo of state.h.  The field `iteration_count` is only the counter of the main loop and
is represented by the recursion argument of `main_loop`. -/
structure GameInfo where
  width : Nat
  height : Nat
  worm : Worm
deriving DecidableEq

/-- Row offsets `dr[] = {0, 1, 1, 0, -1, -1}`. -/
def dr (d : Nat) : Int := [0, 1, 1, 0, -1, -1].getD d 0

/-- Column offsets `dc[] = {1, 1, 0, -1, -1, 0}`. -/
def dc (d : Nat) : Int := [1, 1, 0, -1, -1, 0].getD d 0

/-- Table `opposite_dir[] = {3, 4, 5, 0, 1, 2}`. -/
def opposite_dir (d : Nat) : Nat := [3, 4, 5, 0, 1, 2].getD d 0

/-! ## chess-board-region.h -/

/-- ChessBoardRegion: `cell_state` has `height + 1` rows of `width + 1` chars; row 0 and
column 0 of the vector are the halo (indices `-1` of `operator()`). -/
structure ChessBoardRegion where
  width : Nat
  height : Nat
  cell_state : List (List Nat)
deriving DecidableEq

namespace ChessBoardRegion

/-- The constructor `ChessBoardRegion(height_, width_)`: all cells zero. -/
def new (height_ width_ : Nat) : ChessBoardRegion :=
  { width := width_, height := height_,
    cell_state := List.replicate (height_ + 1) (List.replicate (width_ + 1) 0) }

/-- Method `get_width()`, an `int`. -/
def get_width (reg : ChessBoardRegion) : Int := (reg.width : Int)

/-- Method `get_height()`, an `int`. -/
def get_height (reg : ChessBoardRegion) : Int := (reg.height : Int)

/-- Method `area()`. -/
def area (reg : ChessBoardRegion) : Nat := reg.width * reg.height

/-- The const `operator()(row, col)`: reads `cell_state[row + 1][col + 1]`. -/
def cell (reg : ChessBoardRegion) (row col : Int) : Nat :=
  (reg.cell_state.getD (row + 1).toNat []).getD (col + 1).toNat 0

/-- Assignment through the reference `operator()(row, col)`. -/
def set_cell (reg : ChessBoardRegion) (row col : Int) (v : Nat) : ChessBoardRegion :=
  { reg with
    cell_state := reg.cell_state.set (row + 1).toNat
      ((reg.cell_state.getD (row + 1).toNat []).set (col + 1).toNat v) }

/-- Method `get_state(row, col)`: the 6-bit sensed state. -/
def get_state (reg : ChessBoardRegion) (row col : Int) : Nat :=
  let res := reg.cell row col
  let res := if GETBIT (reg.cell row (col - 1)) 0 ≠ 0 then res ||| (1 <<< 3) else res
  let res := if GETBIT (reg.cell (row - 1) (col - 1)) 1 ≠ 0 then res ||| (1 <<< 4) else res
  let res := if GETBIT (reg.cell (row - 1) col) 2 ≠ 0 then res ||| (1 <<< 5) else res
  res

/-- Method `upd_state(row, col, dir)` with the recursion depth made explicit: `none` when the
depth `fuel` does not suffice. -/
def upd_state_fuel : Nat → ChessBoardRegion → Int → Int → Nat → Option ChessBoardRegion
  | 0, _, _, _, _ => none
  | fuel + 1, reg, row, col, dir =>
    if dir ≥ 3 then
      upd_state_fuel fuel reg (row + dr dir) (col + dc dir) (opposite_dir dir)
    else
      some (reg.set_cell row col (reg.cell row col ||| (1 <<< dir)))

/-- Method `upd_state(row, col, dir)`: depth 2 always suffices (`upd_state_fuel_two`). -/
def upd_state (reg : ChessBoardRegion) (row col : Int) (dir : Nat) : ChessBoardRegion :=
  (upd_state_fuel 2 reg row col dir).getD reg

end ChessBoardRegion

/-! ## main.cpp: the partition -/

/-- The four partition vectors `row_size`, `col_size`, `row_pos`, `col_pos`. -/
structure Partition where
  row_size : List Nat
  col_size : List Nat
  row_pos : List Nat
  col_pos : List Nat
deriving DecidableEq

/-- One iteration of the first loop of `divide_regions` (index `i`). -/
def divide_regions_step (height width world_size : Nat) (p : Partition) (i : Nat) : Partition :=
  let row_size := p.row_size.set i (height / world_size + (if i < height % world_size then 1 else 0))
  let col_size := p.col_size.set i (width / world_size + (if i < width % world_size then 1 else 0))
  let row_pos := p.row_pos.set i
    (if i ≠ 0 then p.row_pos.getD (i - 1) 0 + row_size.getD (i - 1) 0 else 0)
  let col_pos := p.col_pos.set i
    (if i ≠ 0 then p.col_pos.getD (i - 1) 0 + col_size.getD (i - 1) 0 else 0)
  { row_size := row_size, col_size := col_size, row_pos := row_pos, col_pos := col_pos }

/-- The `resize` calls and the first loop of `divide_regions`: the partition vectors. -/
def divide_regions_tables (height width world_size : Nat) : Partition :=
  (List.range world_size).foldl (divide_regions_step height width world_size)
    { row_size := List.replicate world_size 0, col_size := List.replicate world_size 0,
      row_pos := List.replicate world_size 0, col_pos := List.replicate world_size 0 }

/-- The column band of region `i` of worker `world_rank`: `(i + world_rank) % world_size`. -/
def col_band (world_size world_rank i : Nat) : Nat := (i + world_rank) % world_size

/-- The second loop of `divide_regions` on worker `world_rank`: its regions. -/
def divide_regions_regions (p : Partition) (world_size world_rank : Nat) : List ChessBoardRegion :=
  (List.range world_size).map fun i =>
    ChessBoardRegion.new (p.row_size.getD i 0) (p.col_size.getD (col_band world_size world_rank i) 0)

/-- The value of `total_area` after `divide_regions` on worker `world_rank`. -/
def total_area (p : Partition) (world_size world_rank : Nat) : Nat :=
  ((divide_regions_regions p world_size world_rank).map ChessBoardRegion.area).sum

/-! ## main.cpp: the parsed input and the distribution of the board -/

/-- The content of a state file after `parse_state` has validated it. -/
structure Config where
  height : Nat
  width : Nat
  worm : Worm
  rule : List Nat
  visited : List Nat
  board_ascii : List (List Char)
deriving DecidableEq

/-- The leader-only globals `total_visited_state`, `visited_state` and `rule`. -/
structure Automaton where
  total_visited_state : Nat
  visited_state : List Int
  rule : List Nat
deriving DecidableEq

/-- The table part of `parse_state`: all 32 entries `-1`, then `visited_state[cur_state] = i`
for the pre-seeded states in file order. -/
def parse_visited (visited : List Nat) : List Int :=
  visited.enum.foldl (fun vs (x : Nat × Nat) => vs.set x.2 (x.1 : Int)) (List.replicate 32 (-1))

/-- The automaton globals after `parse_state`. -/
def parse_state (cfg : Config) : Automaton :=
  { total_visited_state := cfg.visited.length, visited_state := parse_visited cfg.visited,
    rule := cfg.rule }

/-- Character `board_ascii[r][c]`. -/
def board_char (board : List (List Char)) (r c : Nat) : Char := (board.getD r []).getD c ' '

/-- Assignment `board_ascii[r][c] = ch`. -/
def set_board_char (board : List (List Char)) (r c : Nat) (ch : Char) : List (List Char) :=
  board.set r ((board.getD r []).set c ch)

/-- The backslash, the marker of a diagonal edge. -/
def backslash : Char := Char.ofNat 92

/-- The three stored bits of the cell at ASCII position `(ascii_r, ascii_c)`, as `divide_states`
reads them. -/
def encode_cell (board : List (List Char)) (ascii_r ascii_c : Nat) : Nat :=
  let cur := 0
  let cur := (cur <<< 1) ||| (if board_char board (ascii_r + 1) ascii_c = '|' then 1 else 0)
  let cur := (cur <<< 1) ||| (if board_char board (ascii_r + 1) (ascii_c + 1) = backslash then 1 else 0)
  let cur := (cur <<< 1) ||| (if board_char board ascii_r (ascii_c + 1) = '=' then 1 else 0)
  cur

/-- The message the leader builds for worker `other` in `divide_states`. -/
def divide_states_data (p : Partition) (world_size other : Nat) (board : List (List Char)) :
    List Nat :=
  (List.range world_size).flatMap fun reg =>
    let col_reg := col_band world_size other reg
    (List.range (p.row_size.getD reg 0)).flatMap fun r =>
      (List.range (p.col_size.getD col_reg 0)).map fun c =>
        encode_cell board ((r + p.row_pos.getD reg 0) * 2) ((c + p.col_pos.getD col_reg 0) * 2)

/-- Writes `*it++` into the cells `ps` of one region, in order; returns the advanced iterator. -/
def fill_cells (reg : ChessBoardRegion) :
    List (Int × Int) → List Nat → ChessBoardRegion × List Nat
  | [], data => (reg, data)
  | p :: ps, data => fill_cells (reg.set_cell p.1 p.2 (data.headD 0)) ps data.tail

/-- The loop `for (auto& reg: regions)` around `fill_cells`, with one iterator for all regions. -/
def fill_regions (pos : ChessBoardRegion → List (Int × Int)) :
    List ChessBoardRegion → List Nat → List ChessBoardRegion
  | [], _ => []
  | reg :: rest, data =>
    (fill_cells reg (pos reg) data).1 :: fill_regions pos rest (fill_cells reg (pos reg) data).2

/-- The cells `(r, c)`, `r < height`, `c < width`, in row-major order. -/
def inner_cells (reg : ChessBoardRegion) : List (Int × Int) :=
  (List.range reg.height).flatMap fun r : Nat =>
    (List.range reg.width).map fun c : Nat => ((r : Int), (c : Int))

/-- The receiving half of `divide_states` on one worker. -/
def divide_states_recv (regions : List ChessBoardRegion) (board_data : List Nat) :
    List ChessBoardRegion :=
  fill_regions inner_cells regions board_data

/-! ## main.cpp: the halo exchange -/

/-- Function `extract_received_vertical`: fills the halo column `-1` of every region. -/
def extract_received_vertical (data : List Nat) (regions : List ChessBoardRegion) :
    List ChessBoardRegion :=
  fill_regions (fun reg => (List.range reg.height).map fun i : Nat => ((i : Int), (-1 : Int)))
    regions data

/-- Function `extract_received_horizontal`: fills the halo row `-1` of every region. -/
def extract_received_horizontal (data : List Nat) (regions : List ChessBoardRegion) :
    List ChessBoardRegion :=
  fill_regions (fun reg => (List.range reg.width).map fun i : Nat => ((-1 : Int), (i : Int)))
    regions data

/-- The message built in `send_state_to_neighbor_vertical`: column `get_width() - 1` of every
region, regions in order. -/
def vertical_data (regions : List ChessBoardRegion) : List Nat :=
  regions.flatMap fun reg =>
    (List.range reg.height).map fun i : Nat => reg.cell (i : Int) (reg.get_width - 1)

/-- The index `prv` of the loops `for (prv = world_size - 1, id = 0; ...; prv = id++)`. -/
def prv_index (world_size id : Nat) : Nat := if id = 0 then world_size - 1 else id - 1

/-- The message built in `send_state_to_neighbor_horizontal`: row `get_height() - 1` of the
regions `world_size - 1, 0, 1, ..., world_size - 2`. -/
def horizontal_data (world_size : Nat) (regions : List ChessBoardRegion) : List Nat :=
  (List.range world_size).flatMap fun id =>
    let reg := regions.getD (prv_index world_size id) (ChessBoardRegion.new 0 0)
    (List.range reg.width).map fun i : Nat => reg.cell (reg.get_height - 1) (i : Int)

/-- One worker `k ≠ 0` of a ring pass: receive `msg`, extract it, then build the next message. -/
def ring_step (extract : List Nat → List ChessBoardRegion → List ChessBoardRegion)
    (data : List ChessBoardRegion → List Nat)
    (st : List (List ChessBoardRegion) × List Nat) (k : Nat) :
    List (List ChessBoardRegion) × List Nat :=
  let mine := extract st.2 (st.1.getD k [])
  (st.1.set k mine, data mine)

/-- Function `send_state_to_neighbor_vertical` on all workers: worker 0 sends first, workers
`1, ..., world_size - 1` each receive from `world_rank - 1` and then send to
`(world_rank + 1) % world_size`, and worker 0 finally receives from worker `world_size - 1`. -/
def send_state_to_neighbor_vertical (world_size : Nat) (regions : List (List ChessBoardRegion)) :
    List (List ChessBoardRegion) :=
  let msg0 := vertical_data (regions.getD 0 [])
  let st := ((List.range world_size).tail).foldl
    (ring_step extract_received_vertical vertical_data) (regions, msg0)
  st.1.set 0 (extract_received_vertical st.2 (st.1.getD 0 []))

/-- Function `send_state_to_neighbor_horizontal` on all workers: worker 0 sends first, workers
`world_size - 1, ..., 1` each receive from `(world_rank + 1) % world_size` and then send to
`world_rank - 1`, and worker 0 finally receives from worker `1 % world_size`. -/
def send_state_to_neighbor_horizontal (world_size : Nat) (regions : List (List ChessBoardRegion)) :
    List (List ChessBoardRegion) :=
  let msg0 := horizontal_data world_size (regions.getD 0 [])
  let st := ((List.range world_size).tail.reverse).foldl
    (ring_step extract_received_horizontal (horizontal_data world_size)) (regions, msg0)
  st.1.set 0 (extract_received_horizontal st.2 (st.1.getD 0 []))

/-- The body of the inner loop of `send_inner` at index `cur`. -/
def send_inner_step (world_size : Nat) (regions : List ChessBoardRegion) (cur : Nat) :
    List ChessBoardRegion :=
  let prv := regions.getD (prv_index world_size cur) (ChessBoardRegion.new 0 0)
  let v := prv.cell (prv.get_height - 1) (prv.get_width - 1)
  regions.set cur ((regions.getD cur (ChessBoardRegion.new 0 0)).set_cell (-1) (-1) v)

/-- Function `send_inner` on one worker: the inner loop, twice. -/
def send_inner (world_size : Nat) (regions : List ChessBoardRegion) : List ChessBoardRegion :=
  (List.range 2).foldl
    (fun regs _ => (List.range world_size).foldl (send_inner_step world_size) regs) regions

/-- The three passes that open `game_step`, on all workers. -/
def halo_exchange (world_size : Nat) (regions : List (List ChessBoardRegion)) :
    List (List ChessBoardRegion) :=
  (send_state_to_neighbor_horizontal world_size
    (send_state_to_neighbor_vertical world_size regions)).map (send_inner world_size)

/-! ## main.cpp: the automaton -/

/-- The canonical key `reduced_state` computed at the head of `query_state`. -/
def reduced_state (state : Nat) : Nat :=
  (state &&& ((1 <<< 3) - 1)) ||| ((state >>> 4) <<< 3)

/-- The learn-on-first-sight part of `query_state`:
`if (visited_state[reduced_state] == -1) visited_state[reduced_state] = total_visited_state++`. -/
def learn_state (a : Automaton) (key : Nat) : Automaton :=
  if a.visited_state.getD key (-1) = -1 then
    { a with visited_state := a.visited_state.set key (a.total_visited_state : Int),
             total_visited_state := a.total_visited_state + 1 }
  else a

/-- Function `query_state(state)`: the returned decision (`-1` for "no decision") and the
globals after the call. -/
def query_state (a : Automaton) (state : Nat) : Int × Automaton :=
  let a1 := learn_state a (reduced_state state)
  let rule_id : Int := a1.visited_state.getD (reduced_state state) (-1)
  if rule_id ≥ (a1.rule.length : Int) then (-1, a1)
  else
    let choice : Nat := a1.rule.getD rule_id.toNat 0
    if GETBIT state choice ≠ 0 then (-1, a1)
    else ((choice : Int), a1)

/-- The leader's update of `game.worm` for a decision `new_dir` (lines 318-329 of main.cpp). -/
def move_worm (game : GameInfo) (new_dir : Int) : GameInfo :=
  if new_dir = -1 then { game with worm := { game.worm with dir := -1 } }
  else
    let dir := game.worm.dir + new_dir
    let dir := if dir ≥ 6 then dir - 6 else dir
    let row := game.worm.row + dr dir.toNat
    let col := game.worm.col + dc dir.toNat
    let row := if row < 0 then row + (game.height : Int) else row
    let row := if row ≥ (game.height : Int) then row - (game.height : Int) else row
    let col := if col < 0 then col + (game.width : Int) else col
    let col := if col ≥ (game.width : Int) then col - (game.width : Int) else col
    { game with worm := { row := row, col := col, dir := dir } }

/-- The body of the leader's loop over the received states. -/
def leader_step (st : GameInfo × Automaton) (state : Int) : GameInfo × Automaton :=
  if state = -1 then st
  else
    let rotated_state := rotate_right state.toNat 6 st.1.worm.dir
    let res := query_state st.2 rotated_state
    (move_worm st.1 res.1, res.2)

/-! ## main.cpp: ownership and one tick -/

/-- The test of one iteration `i` of the ownership scan of `game_step`: none of the four
`continue` conditions holds for `r = i`, `c = (i + world_rank) % world_size`. -/
def owns_cell (p : Partition) (world_size world_rank : Nat) (row col : Int) (i : Nat) : Bool :=
  let r := i
  let c := col_band world_size world_rank i
  !(decide ((p.row_pos.getD r 0 : Int) > row)) &&
  !(decide ((p.col_pos.getD c 0 : Int) > col)) &&
  !(decide ((p.row_pos.getD r 0 : Int) + (p.row_size.getD r 0 : Int) ≤ row)) &&
  !(decide ((p.col_pos.getD c 0 : Int) + (p.col_size.getD c 0 : Int) ≤ col))

/-- The ownership scan of `game_step` on worker `world_rank` for the global cell `(row, col)`:
the first region index `i` that no `continue` skips, or `none`. -/
def owned_region (p : Partition) (world_size world_rank : Nat) (row col : Int) : Option Nat :=
  (List.range world_size).find? (owns_cell p world_size world_rank row col)

/-- The local row `game.worm.row - row_pos[r]` passed to `get_state` / `upd_state`. -/
def local_row (p : Partition) (i : Nat) (row : Int) : Int := row - (p.row_pos.getD i 0 : Int)

/-- The local column `game.worm.col - col_pos[c]` passed to `get_state` / `upd_state`. -/
def local_col (p : Partition) (world_size world_rank i : Nat) (col : Int) : Int :=
  col - (p.col_pos.getD (col_band world_size world_rank i) 0 : Int)

/-- The value of `state` that worker `world_rank` sends to the leader: `-1` or the sensed state. -/
def sense (p : Partition) (world_size world_rank : Nat) (regions : List ChessBoardRegion)
    (row col : Int) : Int :=
  match owned_region p world_size world_rank row col with
  | none => -1
  | some i =>
    (((regions.getD i (ChessBoardRegion.new 0 0)).get_state (local_row p i row)
      (local_col p world_size world_rank i col) : Nat) : Int)

/-- The second and third scans of `game_step` on worker `world_rank`: `upd_state` on the region
that owns `(row, col)`, if any. -/
def mark_edge (p : Partition) (world_size world_rank : Nat) (regions : List ChessBoardRegion)
    (row col : Int) (dir : Nat) : List ChessBoardRegion :=
  match owned_region p world_size world_rank row col with
  | none => regions
  | some i =>
    regions.set i ((regions.getD i (ChessBoardRegion.new 0 0)).upd_state (local_row p i row)
      (local_col p world_size world_rank i col) dir)

/-- The state of the whole run: the broadcast `game`, the partition (equal on every worker),
the regions of every worker by rank, and the leader's automaton and ASCII board. -/
structure World where
  world_size : Nat
  game : GameInfo
  part : Partition
  regions : List (List ChessBoardRegion)
  auto : Automaton
  board_ascii : List (List Char)
deriving DecidableEq

/-- Function `game_step` on all workers; the Boolean is its return value. -/
def game_step (w : World) : Bool × World :=
  let regions := halo_exchange w.world_size w.regions
  let states := (List.range w.world_size).map fun rank =>
    sense w.part w.world_size rank (regions.getD rank []) w.game.worm.row w.game.worm.col
  let old_game := w.game
  let led := states.foldl leader_step (w.game, w.auto)
  let game := led.1
  if game.worm.dir = -1 then
    (false, { w with game := game, regions := regions, auto := led.2 })
  else
    let regions := (List.range w.world_size).map fun rank =>
      let mine := mark_edge w.part w.world_size rank (regions.getD rank [])
        game.worm.row game.worm.col (opposite_dir game.worm.dir.toNat)
      mark_edge w.part w.world_size rank mine old_game.worm.row old_game.worm.col
        game.worm.dir.toNat
    (true, { w with game := game, regions := regions, auto := led.2 })

/-- The loop `while (game.iteration_count-- > 0)` of `main`: the final state and `step_count`. -/
def main_loop : Nat → World → World × Nat
  | 0, w => (w, 0)
  | iteration_count + 1, w =>
    if (game_step w).1 then
      ((main_loop iteration_count (game_step w).2).1,
        (main_loop iteration_count (game_step w).2).2 + 1)
    else ((game_step w).2, 0)

/-! ## main.cpp: start-up, recombination and output -/

/-- The state after `parse_state`, `divide_regions` and `divide_states` on `world_size` workers. -/
def init_world (world_size : Nat) (cfg : Config) : World :=
  let p := divide_regions_tables cfg.height cfg.width world_size
  { world_size := world_size,
    game := { width := cfg.width, height := cfg.height, worm := cfg.worm },
    part := p,
    regions := (List.range world_size).map fun rank =>
      divide_states_recv (divide_regions_regions p world_size rank)
        (divide_states_data p world_size rank cfg.board_ascii),
    auto := parse_state cfg,
    board_ascii := cfg.board_ascii }

/-- The message every worker sends in `combine_states`: its cells, region by region. -/
def combine_states_data (regions : List ChessBoardRegion) : List Nat :=
  regions.flatMap fun reg => (inner_cells reg).map fun x => reg.cell x.1 x.2

/-- The four character writes of `combine_states` for one received cell value `cur`. -/
def write_cell (board : List (List Char)) (ascii_r ascii_c cur : Nat) : List (List Char) :=
  let board := set_board_char board ascii_r ascii_c '*'
  let board := set_board_char board (ascii_r + 1) ascii_c (if GETBIT cur 2 ≠ 0 then '|' else ' ')
  let board := set_board_char board (ascii_r + 1) (ascii_c + 1)
    (if GETBIT cur 1 ≠ 0 then backslash else ' ')
  set_board_char board ascii_r (ascii_c + 1) (if GETBIT cur 0 ≠ 0 then '=' else ' ')

/-- The ASCII positions `(ascii_r, ascii_c)` the leader visits for worker `other`, in order. -/
def ascii_positions (p : Partition) (world_size other : Nat) : List (Nat × Nat) :=
  (List.range world_size).flatMap fun reg =>
    let col_reg := col_band world_size other reg
    (List.range (p.row_size.getD reg 0)).flatMap fun r =>
      (List.range (p.col_size.getD col_reg 0)).map fun c =>
        ((r + p.row_pos.getD reg 0) * 2, (c + p.col_pos.getD col_reg 0) * 2)

/-- The leader's writes for the message `data` of worker `other`. -/
def write_worker (p : Partition) (world_size : Nat) (board : List (List Char)) (other : Nat)
    (data : List Nat) : List (List Char) :=
  ((ascii_positions p world_size other).zip data).foldl
    (fun b x => write_cell b x.1.1 x.1.2 x.2) board

/-- Function `combine_states`: the leader's `board_ascii` afterwards. -/
def combine_states (w : World) : List (List Char) :=
  (List.range w.world_size).foldl
    (fun b other => write_worker w.part w.world_size b other
      (combine_states_data (w.regions.getD other []))) w.board_ascii

/-- The vector `state` that `print_state` prints as the visited-state list. -/
def print_state_list (a : Automaton) : List Nat :=
  (List.range 32).foldl
    (fun state i =>
      if a.visited_state.getD i (-1) = -1 then state
      else state.set (a.visited_state.getD i (-1)).toNat i)
    (List.replicate a.total_visited_state 0)

/-- What the leader prints at the end of `main`. -/
structure Output where
  game : GameInfo
  rule : List Nat
  total_visited_state : Nat
  state : List Nat
  board_ascii : List (List Char)
  step_count : Nat
deriving DecidableEq

/-- Function `main` after argument handling, on `world_size` workers. -/
def run (world_size : Nat) (cfg : Config) (iteration_count : Nat) : Output :=
  let fin := main_loop iteration_count (init_world world_size cfg)
  { game := fin.1.game, rule := fin.1.auto.rule,
    total_visited_state := fin.1.auto.total_visited_state,
    state := print_state_list fin.1.auto,
    board_ascii := combine_states fin.1,
    step_count := fin.2 }

/-! ## Auxiliary definitions used by the statements -/

/-- The size the even division gives band `i`: `len / world_size`, plus one for the first
`len % world_size` bands. -/
def band_size (len world_size i : Nat) : Nat :=
  len / world_size + (if i < len % world_size then 1 else 0)

/-- The loop invariant of the first loop of `divide_regions` after `k` iterations. -/
def tables_inv (height width world_size k : Nat) (p : Partition) : Prop :=
  p.row_size.length = world_size ∧ p.col_size.length = world_size ∧
  p.row_pos.length = world_size ∧ p.col_pos.length = world_size ∧
  ∀ i, i < k →
    p.row_size.getD i 0 = band_size height world_size i ∧
    p.col_size.getD i 0 = band_size width world_size i ∧
    p.row_pos.getD i 0 = ((List.range i).map (band_size height world_size)).sum ∧
    p.col_pos.getD i 0 = ((List.range i).map (band_size width world_size)).sum

/-- The stored (non-halo) bits of the global cell `(row, col)`: the cell of the tile of the first
worker whose ownership scan finds it (`0` if no worker owns it). -/
def stored_bits (w : World) (row col : Int) : Nat :=
  ((List.range w.world_size).findSome? fun rank =>
    (owned_region w.part w.world_size rank row col).map fun i =>
      ((w.regions.getD rank []).getD i (ChessBoardRegion.new 0 0)).cell
        (local_row w.part i row) (local_col w.part w.world_size rank i col)).getD 0

/-- The 6-bit neighbourhood of a cell read from the global toroidal board, in the words of the
specification: the cell's own bits 0-2, bit 3 = bit 0 of the cell at `(row, col - 1)`,
bit 4 = bit 1 of `(row - 1, col - 1)`, bit 5 = bit 2 of `(row - 1, col)`, with wraparound. -/
def global_neighbourhood (height width : Nat) (cells : Int → Int → Nat) (row col : Int) : Nat :=
  cells row col
    ||| (GETBIT (cells row ((col - 1) % (width : Int))) 0 <<< 3)
    ||| (GETBIT (cells ((row - 1) % (height : Int)) ((col - 1) % (width : Int))) 1 <<< 4)
    ||| (GETBIT (cells ((row - 1) % (height : Int)) col) 2 <<< 5)

/-- The world after the three halo passes of a tick. -/
def after_exchange (w : World) : World :=
  { w with regions := halo_exchange w.world_size w.regions }

/-- A state file with a 2 x 1 grid whose cell `(1, 0)` has its direction-0 edge set (`=`), the
worm on `(1, 0)` heading 1, the rule list `[2]` and no pre-seeded state; `.` fills the positions
without an edge. -/
def stale_cfg : Config :=
  { height := 2, width := 1, worm := { row := 1, col := 0, dir := 1 }, rule := [2],
    visited := [],
    board_ascii := [['*', '.'], ['.', '.'], ['*', '='], ['.', '.']] }

/-- A state file with a 3 x 2 grid whose cell `(2, 1)` has its direction-0 edge set (the edge
to `(2, 0)` across the wraparound), the worm on `(2, 0)` heading 1, the rule list `[2]` and no
pre-seeded state. -/
def stale_cfg3 : Config :=
  { height := 3, width := 2, worm := { row := 2, col := 0, dir := 1 }, rule := [2],
    visited := [],
    board_ascii := [['*', '.', '*', '.'], ['.', '.', '.', '.'], ['*', '.', '*', '.'],
      ['.', '.', '.', '.'], ['*', '.', '*', '='], ['.', '.', '.', '.']] }

/-- The automaton globals after `parse_state` on a file without pre-seeded states. -/
def empty_table (rule : List Nat) : Automaton :=
  { total_visited_state := 0, visited_state := List.replicate 32 (-1), rule := rule }

/-- Calls `query_state` on the (rotated) states `xs` in order and keeps the globals. -/
def replay (a : Automaton) (xs : List Nat) : Automaton :=
  xs.foldl (fun a x => (query_state a x).2) a

/-- The number of distinct canonical states that occur in `keys` before the first occurrence
of `key`. -/
def distinct_before (keys : List Nat) (key : Nat) : Nat :=
  (keys.take (keys.indexOf key)).toFinset.card

/-- The invariant of `replay` from the empty table, after the canonical states `keys`. -/
def replay_inv (keys : List Nat) (a : Automaton) : Prop :=
  a.visited_state.length = 32 ∧ a.total_visited_state = keys.toFinset.card ∧
  ∀ k, k < 32 →
    a.visited_state.getD k (-1) = if k ∈ keys then (distinct_before keys k : Int) else -1

/-- Calls `query_state` on the states `xs` in order and stops after the first call that returns
`-1`, as the main loop does. -/
def query_until_halt (a : Automaton) : List Nat → Automaton
  | [] => a
  | x :: xs =>
    if (query_state a x).1 = -1 then (query_state a x).2
    else query_until_halt (query_state a x).2 xs

/-- The vector `cell_state` of a region has `height + 1` rows of `width + 1` entries, as the
constructor builds it. -/
def ChessBoardRegion.well_shaped (reg : ChessBoardRegion) : Prop :=
  reg.cell_state.length = reg.height + 1 ∧
  ∀ row, row ∈ reg.cell_state → row.length = reg.width + 1

/-- A state file with a 1 x 2 grid whose horizontal-edge position right of cell `(0, 0)` holds
the character `ch`; the worm is on `(0, 0)` heading 1, the rule list is `[0]`. -/
def dash_cfg (ch : Char) : Config :=
  { height := 1, width := 2, worm := { row := 0, col := 0, dir := 1 }, rule := [0],
    visited := [],
    board_ascii := [['*', ch, '*', '.'], ['.', '.', '.', '.']] }

instance (reg : ChessBoardRegion) : Decidable reg.well_shaped := by
  unfold ChessBoardRegion.well_shaped
  infer_instance

/-- Every entry of `cell_state` (halo included) is a 3-bit value. -/
def ChessBoardRegion.three_bit (reg : ChessBoardRegion) : Prop :=
  ∀ row, row ∈ reg.cell_state → ∀ x, x ∈ row → x < 8

instance (reg : ChessBoardRegion) : Decidable reg.three_bit := by
  unfold ChessBoardRegion.three_bit
  infer_instance

/-- The state after `k` calls of `game_step`. -/
def ticks : Nat → World → World
  | 0, w => w
  | k + 1, w => ticks k (game_step w).2

/-- A state file with a 2 x 2 grid whose cell `(0, 1)` has its direction-2 edge set (`|`), the
worm on `(0, 0)` heading 0, the rule list `[0]` and no pre-seeded state: the second tick senses
a canonical state that was not seen before, and no rule is left for it. -/
def halt2_cfg : Config :=
  { height := 2, width := 2, worm := { row := 0, col := 0, dir := 0 }, rule := [0],
    visited := [],
    board_ascii := [['*', '.', '*', '.'], ['.', '.', '|', '.'], ['*', '.', '*', '.'],
      ['.', '.', '.', '.']] }

/-- The end-to-end scenario of the specification: an empty 2 x 2 grid, the worm on `(0, 0)`
heading 0, the rule list `[0]` and no pre-seeded state. -/
def empty2_cfg : Config :=
  { height := 2, width := 2, worm := { row := 0, col := 0, dir := 0 }, rule := [0],
    visited := [],
    board_ascii := [['*', '.', '*', '.'], ['.', '.', '.', '.'], ['*', '.', '*', '.'],
      ['.', '.', '.', '.']] }

/-- The row of the cell whose stored bit represents the edge `dir` of the cell in row `row`. -/
def edge_row (row : Int) (dir : Nat) : Int := if dir < 3 then row else row + dr dir

/-- The column of the cell whose stored bit represents the edge `dir` of the cell in column
`col`. -/
def edge_col (col : Int) (dir : Nat) : Int := if dir < 3 then col else col + dc dir

/-- The stored bit that represents the edge `dir`. -/
def edge_bit (dir : Nat) : Nat := if dir < 3 then dir else dir - 3

/-- Region `b` has the dimensions of `a` and a `cell_state` of the same shape. -/
def same_shape (a b : ChessBoardRegion) : Prop :=
  b.width = a.width ∧ b.height = a.height ∧ b.cell_state.length = a.cell_state.length ∧
  ∀ i, (b.cell_state.getD i []).length = (a.cell_state.getD i []).length

/-- Region `b` differs from `a` in halo cells only: same shape, and every cell `(r, c)` with
`r, c ≥ 0` holds the same value. -/
def halo_update (a b : ChessBoardRegion) : Prop :=
  same_shape a b ∧ ∀ r c : Int, 0 ≤ r → 0 ≤ c → b.cell r c = a.cell r c

/-- The relation `Rel` holds between the regions of two region lists of equal length, index by
index. -/
def regions_rel (Rel : ChessBoardRegion → ChessBoardRegion → Prop)
    (regs regs' : List ChessBoardRegion) : Prop :=
  regs'.length = regs.length ∧
  ∀ i, Rel (regs.getD i (ChessBoardRegion.new 0 0)) (regs'.getD i (ChessBoardRegion.new 0 0))

/-- The relation `Rel` holds between the regions of all workers, rank by rank. -/
def world_rel (Rel : ChessBoardRegion → ChessBoardRegion → Prop)
    (ws ws' : List (List ChessBoardRegion)) : Prop :=
  ws'.length = ws.length ∧ ∀ k, regions_rel Rel (ws.getD k []) (ws'.getD k [])

/-- A region with the dimensions `h x w` and a well-shaped `cell_state`. -/
def region_fits (reg : ChessBoardRegion) (h w : Nat) : Prop :=
  reg.height = h ∧ reg.width = w ∧ reg.well_shaped

/-- The regions of worker `world_rank` are the `world_size` tiles `divide_regions` gives it. -/
def regions_fit (p : Partition) (world_size world_rank : Nat) (regs : List ChessBoardRegion) :
    Prop :=
  regs.length = world_size ∧
  ∀ i, i < world_size →
    region_fits (regs.getD i (ChessBoardRegion.new 0 0)) (p.row_size.getD i 0)
      (p.col_size.getD (col_band world_size world_rank i) 0)

/-- The facts `parse_state`, `divide_regions` and `divide_states` establish and every tick
keeps: at least one worker, the partition of `divide_regions`, the worm on the grid with a heading
in `0..5`, rules in `0..5`, and for every worker its `world_size` well-shaped tiles. -/
def World.wf (w : World) : Prop :=
  1 ≤ w.world_size ∧
  w.part = divide_regions_tables w.game.height w.game.width w.world_size ∧
  0 ≤ w.game.worm.row ∧ w.game.worm.row < (w.game.height : Int) ∧
  0 ≤ w.game.worm.col ∧ w.game.worm.col < (w.game.width : Int) ∧
  0 ≤ w.game.worm.dir ∧ w.game.worm.dir < 6 ∧
  (∀ c, c ∈ w.auto.rule → c < 6) ∧
  w.regions.length = w.world_size ∧
  ∀ rank, rank < w.world_size → regions_fit w.part w.world_size rank (w.regions.getD rank [])

instance (w : World) : Decidable w.wf := by
  unfold World.wf regions_fit region_fits
  infer_instance

/-- The value of `state` worker `rank` sends to the leader in the tick that starts in `w`. -/
def sensed (w : World) (rank : Nat) : Int :=
  sense w.part w.world_size rank ((after_exchange w).regions.getD rank [])
    w.game.worm.row w.game.worm.col

/-- The leader's `game` and automaton after its loop over the received states in the tick that
starts in `w`. -/
def tick_led (w : World) : GameInfo × Automaton :=
  ((List.range w.world_size).map (sensed w)).foldl leader_step (w.game, w.auto)

/-- The board has at least `2 * height` rows, the first `2 * height` of them with at least
`2 * width` characters, as `parse_state` asserts. -/
def board_ok (board : List (List Char)) (height width : Nat) : Prop :=
  2 * height ≤ board.length ∧ ∀ i, i < 2 * height → 2 * width ≤ (board.getD i []).length

instance (board : List (List Char)) (height width : Nat) :
    Decidable (board_ok board height width) := by
  unfold board_ok
  infer_instance

/-- The leader's writes in `combine_states` for one cell position, when the cell holds the bits
parsed from `board0`. -/
def rewrite_cell (board0 : List (List Char)) (board : List (List Char)) (pos : Nat × Nat) :
    List (List Char) :=
  write_cell board pos.1 pos.2 (encode_cell board0 pos.1 pos.2)

/-! ## The point-to-point calls of the two ring passes -/

/-- One point-to-point call of a pass: `MPI_Send` to worker `dst`, or `MPI_Recv` from worker
`src`. -/
inductive Call where
  | send (dst : Nat)
  | recv (src : Nat)
deriving DecidableEq

/-- The calls of `send_state_to_neighbor_vertical` on worker `world_rank`, in program order. -/
def vertical_calls (world_size world_rank : Nat) : List Call :=
  (if world_rank ≠ 0 then [Call.recv (world_rank - 1)] else []) ++
  [Call.send ((world_rank + 1) % world_size)] ++
  (if world_rank = 0 then [Call.recv ((world_size - 1 + world_size) % world_size)] else [])

/-- The calls of `send_state_to_neighbor_horizontal` on worker `world_rank`, in program order.
The destination `(world_rank - 1 + world_size) % world_size` is computed on `int` in the source;
on `Nat` the sum is taken before the subtraction. -/
def horizontal_calls (world_size world_rank : Nat) : List Call :=
  (if world_rank ≠ 0 then [Call.recv ((world_rank + 1) % world_size)] else []) ++
  [Call.send ((world_rank + world_size - 1) % world_size)] ++
  (if world_rank = 0 then [Call.recv (1 % world_size)] else [])

/-- The calls of worker `world_rank` in the two passes; `game_step` runs the vertical pass
first. -/
def pass_calls (world_size world_rank : Nat) : List Call :=
  vertical_calls world_size world_rank ++ horizontal_calls world_size world_rank

/-- The call worker `r` is in when worker `i` has returned from `pc i` calls (`none` once `r`
has returned from all of them). -/
def next_call (world_size : Nat) (pc : Nat → Nat) (r : Nat) : Option Call :=
  (pass_calls world_size r)[pc r]?

/-- Every worker has returned from all the calls of both passes. -/
def finished (world_size : Nat) (pc : Nat → Nat) : Prop :=
  ∀ r, r < world_size → pc r = (pass_calls world_size r).length

instance (world_size : Nat) (pc : Nat → Nat) : Decidable (finished world_size pc) := by
  unfold finished
  infer_instance

/-- The sends to `d` worker `s` has returned from. -/
def sends_done (world_size : Nat) (pc : Nat → Nat) (s d : Nat) : Nat :=
  ((pass_calls world_size s).take (pc s)).count (Call.send d)

/-- The receives from `s` worker `d` has returned from. -/
def recvs_done (world_size : Nat) (pc : Nat → Nat) (d s : Nat) : Nat :=
  ((pass_calls world_size d).take (pc d)).count (Call.recv s)

/-- The workers when a send is buffered: the calls each has returned from and the messages sent
from `s` to `d` that `d` has not yet received. -/
structure Buffered where
  pc : Nat → Nat
  in_flight : Nat → Nat → Nat

/-- Worker `r` returns from its current call when sends are buffered: a send always returns, a
receive returns when a message of the awaited sender is in flight; `none` when `r` has to wait
or has no call left. -/
def buffered_call (world_size : Nat) (st : Buffered) (r : Nat) : Option Buffered :=
  match next_call world_size st.pc r with
  | some (Call.send d) =>
    some
      { pc := fun i => if i = r then st.pc i + 1 else st.pc i,
        in_flight := fun a b => if a = r ∧ b = d then st.in_flight a b + 1 else st.in_flight a b }
  | some (Call.recv s) =>
    if 0 < st.in_flight s r then
      some
        { pc := fun i => if i = r then st.pc i + 1 else st.pc i,
          in_flight := fun a b =>
            if a = s ∧ b = r then st.in_flight a b - 1 else st.in_flight a b }
    else none
  | none => none

/-- The state before any call of the passes. -/
def buffered_start : Buffered := { pc := fun _ => 0, in_flight := fun _ _ => 0 }

/-- The workers named in `schedule` return from their current call one after the other, with
buffered sends; `none` if one of them has to wait. -/
def buffered_schedule (world_size : Nat) : List Nat → Buffered → Option Buffered
  | [], st => some st
  | r :: schedule, st =>
    match buffered_call world_size st r with
    | some st1 => buffered_schedule world_size schedule st1
    | none => none

/-- The states the workers can be in after `k` calls have returned, with buffered sends: from
the start, any worker that can return from its current call may do so. -/
inductive buffered_reach (world_size : Nat) : Nat → Buffered → Prop
  | start : buffered_reach world_size 0 buffered_start
  | step (k : Nat) (st st1 : Buffered) (r : Nat) :
      buffered_reach world_size k st → r < world_size →
      buffered_call world_size st r = some st1 → buffered_reach world_size (k + 1) st1

/-- The worker that sends the `j`-th message of the two passes: `0, 1, ..., world_size - 1` in
the vertical pass, then `0, world_size - 1, ..., 1` in the horizontal pass. -/
def sender (world_size j : Nat) : Nat :=
  if j < world_size then j else if j = world_size then 0 else 2 * world_size - j

/-- The worker that receives the `j`-th message of the two passes. -/
def receiver (world_size j : Nat) : Nat :=
  if j + 1 < world_size then j + 1 else if j < world_size then 0 else 2 * world_size - j - 1

/-- The number of calls worker `r` has returned from when the first `k` messages of the two
passes have been sent and received. -/
def progress (world_size k r : Nat) : Nat :=
  if r = 0 then
    (if 0 < k then 1 else 0) + (if world_size ≤ k then 1 else 0)
      + (if world_size < k then 1 else 0) + (if 2 * world_size ≤ k then 1 else 0)
  else
    (if r ≤ k then 1 else 0) + (if r < k then 1 else 0)
      + (if 2 * world_size - r ≤ k then 1 else 0) + (if 2 * world_size - r < k then 1 else 0)

/-- The number of calls worker `r` has returned from after `k` calls in all: `k / 2` messages
sent and received and, for odd `k`, one more sent. -/
def returned (world_size k r : Nat) : Nat :=
  progress world_size (k / 2) r + (if k % 2 = 1 ∧ r = sender world_size (k / 2) then 1 else 0)

/-- The state after `k` calls of the two passes: every worker has returned from its calls among
the first `k` of the chain send, receive, send, ..., and only the message sent last is in
flight. -/
def chain_state (world_size k : Nat) (st : Buffered) : Prop :=
  k ≤ 4 * world_size ∧
  (∀ r, r < world_size → st.pc r = returned world_size k r) ∧
  ∀ s d, st.in_flight s d
    = if k % 2 = 1 ∧ s = sender world_size (k / 2) ∧ d = receiver world_size (k / 2) then 1
      else 0

/-! ## The corner pass -/

/-- One round of `send_inner`: the inner loop over `cur = 0, ..., world_size - 1`. -/
def send_inner_round (world_size : Nat) (regions : List ChessBoardRegion) :
    List ChessBoardRegion :=
  (List.range world_size).foldl (send_inner_step world_size) regions

/-- The value `reg(reg.get_height() - 1, reg.get_width() - 1)` that `send_inner` reads. -/
def bottom_right (reg : ChessBoardRegion) : Nat :=
  reg.cell (reg.get_height - 1) (reg.get_width - 1)

instance (reg : ChessBoardRegion) (h w : Nat) : Decidable (region_fits reg h w) := by
  unfold region_fits
  infer_instance

instance (p : Partition) (world_size world_rank : Nat) (regs : List ChessBoardRegion) :
    Decidable (regions_fit p world_size world_rank regs) := by
  unfold regions_fit
  infer_instance

/-- A state file with a 2 x 2 grid on which cell `(0, 0)` has its direction-0 edge set, cell
`(0, 1)` its direction-1 edge, cell `(1, 0)` its direction-2 edge and cell `(1, 1)` the edges 0
and 2; the worm is on `(0, 0)` heading 0, the rule list is `[0]`. -/
def corner_cfg : Config :=
  { height := 2, width := 2, worm := { row := 0, col := 0, dir := 0 }, rule := [0],
    visited := [],
    board_ascii := [['*', '=', '*', '.'], ['.', '.', '.', backslash],
      ['*', '.', '*', '='], ['|', '.', '|', '.']] }

/-! ## The table of visited states -/

/-- The table `visited_state` with the counter `total`: 32 entries, every entry other than `-1`
is an id in `[0, total)`, no id is held by two canonical states, and every id below `total` is
held by some canonical state. -/
def ids_bijective (visited_state : List Int) (total : Nat) : Prop :=
  visited_state.length = 32 ∧
  (∀ key, key < 32 → visited_state.getD key (-1) ≠ -1 →
    0 ≤ visited_state.getD key (-1) ∧ visited_state.getD key (-1) < (total : Int)) ∧
  (∀ k1, k1 < 32 → ∀ k2, k2 < 32 → visited_state.getD k1 (-1) ≠ -1 →
    visited_state.getD k1 (-1) = visited_state.getD k2 (-1) → k1 = k2) ∧
  (∀ id, id < total → ∃ key, key < 32 ∧ visited_state.getD key (-1) = (id : Int))

instance (visited_state : List Int) (total : Nat) :
    Decidable (ids_bijective visited_state total) := by
  unfold ids_bijective
  infer_instance

/-- The map from the seen canonical states to their rule ids is a bijection onto
`[0, total_visited_state)`. -/
def table_bijective (a : Automaton) : Prop :=
  ids_bijective a.visited_state a.total_visited_state

instance (a : Automaton) : Decidable (table_bijective a) := by
  unfold table_bijective
  infer_instance

/-- The loop of `print_state` over the canonical states `0, ..., k - 1`. -/
def print_state_loop (a : Automaton) (k : Nat) : List Nat :=
  (List.range k).foldl
    (fun state i =>
      if a.visited_state.getD i (-1) = -1 then state
      else state.set (a.visited_state.getD i (-1)).toNat i)
    (List.replicate a.total_visited_state 0)

/-- A state file with the pre-seeded canonical states 3 and 17 (ids 0 and 1) on an empty
2 x 2 grid; the rule list is `[0, 1, 2]`. -/
def seeded_cfg : Config :=
  { height := 2, width := 2, worm := { row := 0, col := 0, dir := 0 }, rule := [0, 1, 2],
    visited := [3, 17],
    board_ascii := [['*', '.', '*', '.'], ['.', '.', '.', '.'], ['*', '.', '*', '.'],
      ['.', '.', '.', '.']] }

/-! ## The recursion of `upd_state` -/

theorem opposite_dir_lt (dir : Nat) (h : dir ≥ 3) : opposite_dir dir < 3 := by
  by_cases h6 : dir < 6
  · interval_cases dir <;> decide
  · have : opposite_dir dir = 0 := by
      unfold opposite_dir
      exact List.getD_eq_default _ _ (by simpa using h6)
    omega

theorem upd_state_fuel_two (reg : ChessBoardRegion) (row col : Int) (dir : Nat) :
    ∃ r, ChessBoardRegion.upd_state_fuel 2 reg row col dir = some r := by
  by_cases h : dir ≥ 3
  · have h3 : ¬ opposite_dir dir ≥ 3 := Nat.not_le.mpr (opposite_dir_lt dir h)
    refine ⟨reg.set_cell (row + dr dir) (col + dc dir)
      (reg.cell (row + dr dir) (col + dc dir) ||| (1 <<< opposite_dir dir)), ?_⟩
    simp only [ChessBoardRegion.upd_state_fuel, if_pos h, if_neg h3]
  · refine ⟨reg.set_cell row col (reg.cell row col ||| (1 <<< dir)), ?_⟩
    simp only [ChessBoardRegion.upd_state_fuel, if_neg h]

/-! ## C1: the even split of `divide_regions` -/

theorem getD_set_eq {α : Type} (l : List α) (i j : Nat) (v d : α) :
    (l.set i v).getD j d = if i = j ∧ i < l.length then v else l.getD j d := by
  simp only [List.getD_eq_getElem?_getD, List.getElem?_set]
  by_cases h : i = j
  · subst h
    by_cases h2 : i < l.length
    · simp [h2]
    · have h3 : l.length ≤ i := Nat.le_of_not_lt h2
      simp [h2, List.getElem?_eq_none h3]
  · simp [h]

theorem sum_band_size (len world_size : Nat) (k : Nat) :
    ((List.range k).map (band_size len world_size)).sum
      = k * (len / world_size) + min k (len % world_size) := by
  induction k with
  | zero => simp
  | succ k ih =>
    rw [List.range_succ, List.map_append, List.sum_append, ih]
    simp only [List.map_cons, List.map_nil, List.sum_cons, List.sum_nil, band_size]
    split_ifs with h
    · rw [Nat.min_eq_left (Nat.le_of_lt h), Nat.min_eq_left (Nat.succ_le_of_lt h),
        Nat.add_mul]
      omega
    · rw [Nat.min_eq_right (Nat.le_of_not_lt h), Nat.min_eq_right (by omega), Nat.add_mul]
      omega

theorem sum_band_size_all (len world_size : Nat) (hN : 1 ≤ world_size) :
    ((List.range world_size).map (band_size len world_size)).sum = len := by
  rw [sum_band_size, Nat.min_eq_right (Nat.le_of_lt (Nat.mod_lt _ hN))]
  exact Nat.div_add_mod len world_size

theorem tables_inv_step (height width world_size k : Nat) (p : Partition)
    (hk : k < world_size) (h : tables_inv height width world_size k p) :
    tables_inv height width world_size (k + 1)
      (divide_regions_step height width world_size p k) := by
  obtain ⟨h1, h2, h3, h4, h5⟩ := h
  refine ⟨by simp [divide_regions_step, h1], by simp [divide_regions_step, h2],
    by simp [divide_regions_step, h3], by simp [divide_regions_step, h4], ?_⟩
  intro i hi
  simp only [divide_regions_step, getD_set_eq, h1, h2, h3, h4]
  by_cases hik : k = i
  · subst hik
    simp only [true_and, hk, if_true]
    refine ⟨rfl, rfl, ?_, ?_⟩
    · by_cases h0 : k = 0
      · subst h0; simp
      · obtain ⟨m, rfl⟩ := Nat.exists_eq_succ_of_ne_zero h0
        have hm := h5 m (Nat.lt_succ_self m)
        simp only [Nat.succ_eq_add_one, ne_eq, Nat.add_one_ne_zero, not_false_eq_true, if_true,
          Nat.add_sub_cancel]
        rw [if_neg (by omega), hm.2.2.1, hm.1, List.range_succ, List.map_append, List.sum_append]
        simp
    · by_cases h0 : k = 0
      · subst h0; simp
      · obtain ⟨m, rfl⟩ := Nat.exists_eq_succ_of_ne_zero h0
        have hm := h5 m (Nat.lt_succ_self m)
        simp only [Nat.succ_eq_add_one, ne_eq, Nat.add_one_ne_zero, not_false_eq_true, if_true,
          Nat.add_sub_cancel]
        rw [if_neg (by omega), hm.2.2.2, hm.2.1, List.range_succ, List.map_append, List.sum_append]
        simp
  · have hi2 : i < k := by omega
    simp only [hik, false_and, if_false]
    exact h5 i hi2

theorem tables_inv_foldl (height width world_size : Nat) (k : Nat) (hk : k ≤ world_size) :
    tables_inv height width world_size k
      ((List.range k).foldl (divide_regions_step height width world_size)
        { row_size := List.replicate world_size 0, col_size := List.replicate world_size 0,
          row_pos := List.replicate world_size 0, col_pos := List.replicate world_size 0 }) := by
  induction k with
  | zero =>
    refine ⟨by simp, by simp, by simp, by simp, ?_⟩
    intro i hi; omega
  | succ k ih =>
    rw [List.range_succ, List.foldl_append]
    exact tables_inv_step height width world_size k _ (by omega) (ih (by omega))

theorem tables_inv_final (height width world_size : Nat) :
    tables_inv height width world_size world_size
      (divide_regions_tables height width world_size) :=
  tables_inv_foldl height width world_size world_size (Nat.le_refl _)

theorem list_eq_map_range (l : List Nat) (n : Nat) (f : Nat → Nat) (hl : l.length = n)
    (h : ∀ i, i < n → l.getD i 0 = f i) : l = (List.range n).map f := by
  apply List.ext_getElem
  · simp [hl]
  · intro i h1 h2
    have := h i (by omega)
    simp only [List.getD_eq_getElem?_getD, List.getElem?_eq_getElem h1, Option.getD_some] at this
    simp [this]

theorem row_size_eq (height width world_size : Nat) :
    (divide_regions_tables height width world_size).row_size
      = (List.range world_size).map (band_size height world_size) := by
  obtain ⟨h1, -, -, -, h5⟩ := tables_inv_final height width world_size
  exact list_eq_map_range _ _ _ h1 (fun i hi => (h5 i hi).1)

theorem col_size_eq (height width world_size : Nat) :
    (divide_regions_tables height width world_size).col_size
      = (List.range world_size).map (band_size width world_size) := by
  obtain ⟨-, h2, -, -, h5⟩ := tables_inv_final height width world_size
  exact list_eq_map_range _ _ _ h2 (fun i hi => (h5 i hi).2.1)

theorem take_map_range (n i : Nat) (f : Nat → Nat) (hi : i ≤ n) :
    ((List.range n).map f).take i = (List.range i).map f := by
  rw [← List.map_take, List.take_range, Nat.min_eq_left hi]

/-- C1. For every grid and every worker count `world_size ≥ 1`, `divide_regions` gives band `i`
the size `len / N + (1 if i < len % N else 0)` (rows from `height`, columns from `width`),
`row_pos[i]` and `col_pos[i]` are the sums of the sizes of the bands before `i`, and the row
sizes sum to `height`, the column sizes to `width`. -/
theorem divide_regions_even_split (height width world_size : Nat) (hN : 1 ≤ world_size) :
    (divide_regions_tables height width world_size).row_size.length = world_size ∧
    (divide_regions_tables height width world_size).col_size.length = world_size ∧
    (divide_regions_tables height width world_size).row_pos.length = world_size ∧
    (divide_regions_tables height width world_size).col_pos.length = world_size ∧
    (∀ i, i < world_size →
      (divide_regions_tables height width world_size).row_size.getD i 0
        = height / world_size + (if i < height % world_size then 1 else 0) ∧
      (divide_regions_tables height width world_size).col_size.getD i 0
        = width / world_size + (if i < width % world_size then 1 else 0) ∧
      (divide_regions_tables height width world_size).row_pos.getD i 0
        = ((divide_regions_tables height width world_size).row_size.take i).sum ∧
      (divide_regions_tables height width world_size).col_pos.getD i 0
        = ((divide_regions_tables height width world_size).col_size.take i).sum) ∧
    (divide_regions_tables height width world_size).row_size.sum = height ∧
    (divide_regions_tables height width world_size).col_size.sum = width := by
  obtain ⟨h1, h2, h3, h4, h5⟩ := tables_inv_final height width world_size
  refine ⟨h1, h2, h3, h4, ?_, ?_, ?_⟩
  · intro i hi
    obtain ⟨a, b, c, d⟩ := h5 i hi
    refine ⟨a, b, ?_, ?_⟩
    · rw [c, row_size_eq, take_map_range _ _ _ (Nat.le_of_lt hi)]
    · rw [d, col_size_eq, take_map_range _ _ _ (Nat.le_of_lt hi)]
  · rw [row_size_eq]; exact sum_band_size_all height world_size hN
  · rw [col_size_eq]; exact sum_band_size_all width world_size hN

/-- Witness of C1 on a 7 x 5 grid with 3 workers. -/
theorem divide_regions_even_split_witness :
    1 ≤ 3 ∧ divide_regions_tables 7 5 3
      = { row_size := [3, 2, 2], col_size := [2, 2, 1], row_pos := [0, 3, 5],
          col_pos := [0, 2, 4] } ∧
    (divide_regions_tables 7 5 3).row_size.sum = 7 ∧
    (divide_regions_tables 7 5 3).col_size.sum = 5 :=
  ⟨by decide, by decide, (divide_regions_even_split 7 5 3 (by decide)).2.2.2.2.2⟩
/-! ## C2: the diagonal assignment -/

theorem col_band_eq (world_size r i : Nat) (hr : r < world_size) (hi : i < world_size) :
    col_band world_size r i = if i + r < world_size then i + r else i + r - world_size := by
  unfold col_band
  split_ifs with h
  · exact Nat.mod_eq_of_lt h
  · rw [Nat.mod_eq_sub_mod (Nat.le_of_not_lt h)]
    exact Nat.mod_eq_of_lt (by omega)

theorem int_sub_emod (world_size i j : Nat) (hi : i < world_size) (hj : j < world_size) :
    ((j : Int) - (i : Int)) % (world_size : Int)
      = if i ≤ j then (j : Int) - (i : Int) else (j : Int) - (i : Int) + (world_size : Int) := by
  split_ifs with h
  · exact Int.emod_eq_of_lt (by omega) (by omega)
  · rw [← Int.add_emod_self]
    exact Int.emod_eq_of_lt (by omega) (by omega)

theorem col_band_lt (world_size r i : Nat) (hN : 1 ≤ world_size) :
    col_band world_size r i < world_size :=
  Nat.mod_lt _ hN

theorem col_band_eq_iff (world_size r i j : Nat) (hr : r < world_size) (hi : i < world_size)
    (hj : j < world_size) :
    col_band world_size r i = j ↔ (r : Int) = ((j : Int) - (i : Int)) % (world_size : Int) := by
  rw [col_band_eq world_size r i hr hi, int_sub_emod world_size i j hi hj]
  split_ifs <;> omega

theorem col_band_unique_worker (world_size i j : Nat) (hi : i < world_size)
    (hj : j < world_size) : ∃! r, r < world_size ∧ col_band world_size r i = j := by
  refine ⟨if i ≤ j then j - i else j + world_size - i, ⟨?_, ?_⟩, ?_⟩
  · split_ifs <;> omega
  · rw [col_band_eq world_size _ i (by split_ifs <;> omega) hi]
    split_ifs <;> omega
  · rintro r ⟨hr, hrj⟩
    rw [col_band_eq world_size r i hr hi] at hrj
    split_ifs at hrj ⊢ <;> omega

theorem col_band_unique_region (world_size r j : Nat) (hr : r < world_size)
    (hj : j < world_size) : ∃! i, i < world_size ∧ col_band world_size r i = j := by
  refine ⟨if r ≤ j then j - r else j + world_size - r, ⟨?_, ?_⟩, ?_⟩
  · split_ifs <;> omega
  · rw [col_band_eq world_size r _ hr (by split_ifs <;> omega)]
    split_ifs <;> omega
  · rintro i ⟨hi, hij⟩
    rw [col_band_eq world_size r i hr hi] at hij
    split_ifs at hij ⊢ <;> omega

theorem region_dims (p : Partition) (world_size r i : Nat) (hi : i < world_size) :
    ((divide_regions_regions p world_size r).getD i (ChessBoardRegion.new 0 0)).height
        = p.row_size.getD i 0 ∧
    ((divide_regions_regions p world_size r).getD i (ChessBoardRegion.new 0 0)).width
        = p.col_size.getD (col_band world_size r i) 0 := by
  simp [divide_regions_regions, List.getD_eq_getElem?_getD, List.getElem?_map,
    List.getElem?_range hi, ChessBoardRegion.new]

/-- C2. For every `world_size ≥ 1` the diagonal assignment "region `i` of worker `r` is the tile
(row band `i`, column band `(i + r) % world_size`)" is a bijection between (worker, region) pairs
and (row band, column band) pairs: the column band is in range, tile `(i, j)` belongs to worker
`r` exactly when `r = (j - i) mod world_size` (so to exactly one worker), every worker has
exactly one region in every column band (and, its regions being indexed by the row band, exactly
one in every row band, of the sizes `row_size[i]` by `col_size[(i + r) % world_size]`), and for
two workers worker `r` owns the tiles `(0, r)` and `(1, (1 + r) % 2)`. -/
theorem diagonal_assignment_bijective (world_size : Nat) (hN : 1 ≤ world_size) :
    (∀ r i, r < world_size → i < world_size → col_band world_size r i < world_size) ∧
    (∀ i j, i < world_size → j < world_size → ∀ r, r < world_size →
      (col_band world_size r i = j ↔
        (r : Int) = ((j : Int) - (i : Int)) % (world_size : Int))) ∧
    (∀ i j, i < world_size → j < world_size →
      ∃! r, r < world_size ∧ col_band world_size r i = j) ∧
    (∀ r j, r < world_size → j < world_size →
      ∃! i, i < world_size ∧ col_band world_size r i = j) ∧
    (∀ (p : Partition) r i, r < world_size → i < world_size →
      ((divide_regions_regions p world_size r).getD i (ChessBoardRegion.new 0 0)).height
          = p.row_size.getD i 0 ∧
      ((divide_regions_regions p world_size r).getD i (ChessBoardRegion.new 0 0)).width
          = p.col_size.getD (col_band world_size r i) 0) ∧
    (∀ r, r < 2 → col_band 2 r 0 = r ∧ col_band 2 r 1 = (1 + r) % 2) ∧
    Function.Bijective (fun x : Fin world_size × Fin world_size =>
      ((x.2, ⟨col_band world_size x.1.val x.2.val,
          col_band_lt world_size x.1.val x.2.val hN⟩) : Fin world_size × Fin world_size)) := by
  refine ⟨fun r i _ _ => col_band_lt world_size r i hN,
    fun i j hi hj r hr => col_band_eq_iff world_size r i j hr hi hj,
    fun i j hi hj => col_band_unique_worker world_size i j hi hj,
    fun r j hr hj => col_band_unique_region world_size r j hr hj,
    fun p r i _ hi => region_dims p world_size r i hi, ?_, ?_, ?_⟩
  · intro r hr
    interval_cases r <;> decide
  · rintro ⟨r, i⟩ ⟨r', i'⟩ h
    simp only [Prod.mk.injEq, Fin.mk.injEq] at h
    obtain ⟨h1, h2⟩ := h
    subst h1
    obtain ⟨_, _, huniq⟩ := col_band_unique_worker world_size i.val
      (col_band world_size r.val i.val) i.isLt (col_band_lt world_size r.val i.val hN)
    have e1 := huniq r.val ⟨r.isLt, rfl⟩
    have e2 := huniq r'.val ⟨r'.isLt, h2.symm⟩
    have : r = r' := Fin.ext (e1.trans e2.symm)
    rw [this]
  · rintro ⟨i, j⟩
    obtain ⟨r, ⟨hr, hrj⟩, -⟩ := col_band_unique_worker world_size i.val j.val i.isLt j.isLt
    exact ⟨(⟨r, hr⟩, i), by simp only [Prod.mk.injEq, true_and]; exact Fin.ext hrj⟩

/-- Witness of C2 for three workers: tile `(2, 0)` belongs to worker `(0 - 2) mod 3 = 1`. -/
theorem diagonal_assignment_bijective_witness :
    1 ≤ 3 ∧ (col_band 3 1 2 = 0 ↔
      ((1 : Nat) : Int) = (((0 : Nat) : Int) - ((2 : Nat) : Int)) % ((3 : Nat) : Int)) :=
  ⟨by decide,
    (diagonal_assignment_bijective 3 (by decide)).2.1 2 0 (by decide) (by decide) 1 (by decide)⟩

/-! ## C3: exactly one worker owns a cell -/

theorem band_pos_succ (len world_size i : Nat) :
    ((List.range (i + 1)).map (band_size len world_size)).sum
      = ((List.range i).map (band_size len world_size)).sum + band_size len world_size i := by
  rw [List.range_succ, List.map_append, List.sum_append]
  simp

theorem band_pos_mono (len world_size i k : Nat) (h : i ≤ k) :
    ((List.range i).map (band_size len world_size)).sum
      ≤ ((List.range k).map (band_size len world_size)).sum := by
  induction k with
  | zero =>
    have : i = 0 := by omega
    subst this
    exact Nat.le_refl _
  | succ k ih =>
    by_cases hik : i = k + 1
    · subst hik; exact Nat.le_refl _
    · rw [band_pos_succ]
      exact Nat.le_trans (ih (by omega)) (Nat.le_add_right _ _)

theorem exists_band (len world_size n k : Nat)
    (h : n < ((List.range k).map (band_size len world_size)).sum) :
    ∃ i, i < k ∧ ((List.range i).map (band_size len world_size)).sum ≤ n ∧
      n < ((List.range i).map (band_size len world_size)).sum + band_size len world_size i := by
  induction k with
  | zero => simp at h
  | succ k ih =>
    by_cases hk : n < ((List.range k).map (band_size len world_size)).sum
    · obtain ⟨i, hi, h1, h2⟩ := ih hk
      exact ⟨i, by omega, h1, h2⟩
    · rw [band_pos_succ] at h
      exact ⟨k, by omega, by omega, h⟩

theorem band_unique (len world_size n i k : Nat)
    (hi1 : ((List.range i).map (band_size len world_size)).sum ≤ n)
    (hi2 : n < ((List.range i).map (band_size len world_size)).sum + band_size len world_size i)
    (hk1 : ((List.range k).map (band_size len world_size)).sum ≤ n)
    (hk2 : n < ((List.range k).map (band_size len world_size)).sum + band_size len world_size k) :
    i = k := by
  rcases Nat.lt_trichotomy i k with h | h | h
  · have := band_pos_mono len world_size (i + 1) k h
    rw [band_pos_succ] at this
    omega
  · exact h
  · have := band_pos_mono len world_size (k + 1) i h
    rw [band_pos_succ] at this
    omega

theorem owns_cell_iff (height width world_size rank i n m : Nat) (hN : 1 ≤ world_size)
    (hi : i < world_size) :
    owns_cell (divide_regions_tables height width world_size) world_size rank (n : Int) (m : Int) i
      = true ↔
    (((List.range i).map (band_size height world_size)).sum ≤ n ∧
      n < ((List.range i).map (band_size height world_size)).sum + band_size height world_size i) ∧
    (((List.range (col_band world_size rank i)).map (band_size width world_size)).sum ≤ m ∧
      m < ((List.range (col_band world_size rank i)).map (band_size width world_size)).sum
        + band_size width world_size (col_band world_size rank i)) := by
  obtain ⟨-, -, -, -, h5⟩ := tables_inv_final height width world_size
  obtain ⟨a1, -, a3, -⟩ := h5 i hi
  obtain ⟨-, b2, -, b4⟩ := h5 (col_band world_size rank i) (col_band_lt world_size rank i hN)
  simp only [owns_cell, a1, a3, b2, b4, Bool.and_eq_true, Bool.not_eq_true',
    decide_eq_false_iff_not, gt_iff_lt, not_lt, not_le]
  omega

theorem find_unique (l : List Nat) (f : Nat → Bool) (x : Nat) (hx : x ∈ l) (hf : f x = true)
    (hu : ∀ y, y ∈ l → f y = true → y = x) : l.find? f = some x := by
  induction l with
  | nil => simp at hx
  | cons a t ih =>
    by_cases ha : f a = true
    · have := hu a (List.mem_cons_self a t) ha
      subst this
      simp [List.find?, ha]
    · have hax : x ≠ a := fun h => ha (h ▸ hf)
      have hxt : x ∈ t := by
        rcases List.mem_cons.mp hx with h | h
        · exact absurd h hax
        · exact h
      have hfa : f a = false := by simpa using ha
      simp only [List.find?, hfa]
      exact ih hxt (fun y hy hfy => hu y (List.mem_cons_of_mem a hy) hfy)

theorem owner_scan (height width world_size : Nat) (hN : 1 ≤ world_size)
    (row col : Int) (hr0 : 0 ≤ row) (hr1 : row < (height : Int))
    (hc0 : 0 ≤ col) (hc1 : col < (width : Int)) :
    ∃ rank i, rank < world_size ∧ i < world_size ∧
      owned_region (divide_regions_tables height width world_size) world_size rank row col
        = some i ∧
      0 ≤ local_row (divide_regions_tables height width world_size) i row ∧
      local_row (divide_regions_tables height width world_size) i row
        < ((divide_regions_tables height width world_size).row_size.getD i 0 : Int) ∧
      0 ≤ local_col (divide_regions_tables height width world_size) world_size rank i col ∧
      local_col (divide_regions_tables height width world_size) world_size rank i col
        < ((divide_regions_tables height width world_size).col_size.getD
            (col_band world_size rank i) 0 : Int) ∧
      ∀ rank', rank' < world_size → rank' ≠ rank →
        owned_region (divide_regions_tables height width world_size) world_size rank' row col
          = none := by
  obtain ⟨n, rfl⟩ := Int.eq_ofNat_of_zero_le hr0
  obtain ⟨m, rfl⟩ := Int.eq_ofNat_of_zero_le hc0
  have hn : n < height := by exact_mod_cast hr1
  have hm : m < width := by exact_mod_cast hc1
  obtain ⟨r, hr, r1, r2⟩ := exists_band height world_size n world_size
    (by rw [sum_band_size_all height world_size hN]; exact hn)
  obtain ⟨c, hc, c1, c2⟩ := exists_band width world_size m world_size
    (by rw [sum_band_size_all width world_size hN]; exact hm)
  obtain ⟨rank, ⟨hrank, hband⟩, huniq⟩ := col_band_unique_worker world_size r c hr hc
  obtain ⟨-, -, -, -, h5⟩ := tables_inv_final height width world_size
  obtain ⟨a1, -, a3, -⟩ := h5 r hr
  obtain ⟨-, b2, -, b4⟩ := h5 c hc
  have hown : owned_region (divide_regions_tables height width world_size) world_size rank
      (n : Int) (m : Int) = some r := by
    apply find_unique
    · exact List.mem_range.mpr hr
    · rw [owns_cell_iff height width world_size rank r n m hN hr, hband]
      exact ⟨⟨r1, r2⟩, ⟨c1, c2⟩⟩
    · intro y hy hfy
      rw [owns_cell_iff height width world_size rank y n m hN (List.mem_range.mp hy)] at hfy
      exact band_unique height world_size n y r hfy.1.1 hfy.1.2 r1 r2
  refine ⟨rank, r, hrank, hr, hown, ?_, ?_, ?_, ?_, ?_⟩
  · simp only [local_row, a3]; omega
  · simp only [local_row, a3, a1]; omega
  · simp only [local_col, hband, b4]; omega
  · simp only [local_col, hband, b4, b2]; omega
  · intro rank' hrank' hne
    unfold owned_region
    rw [List.find?_eq_none]
    intro y hy hfy
    have hy' := List.mem_range.mp hy
    rw [owns_cell_iff height width world_size rank' y n m hN hy'] at hfy
    have hyr := band_unique height world_size n y r hfy.1.1 hfy.1.2 r1 r2
    subst hyr
    have hcc := band_unique width world_size m _ c hfy.2.1 hfy.2.2 c1 c2
    exact hne (huniq rank' ⟨hrank', hcc⟩)

/-- C3. For every `world_size ≥ 1` and every global cell `(row, col)` of the grid
(`0 ≤ row < height`, `0 ≤ col < width`, hence `height, width ≥ 1`), exactly one worker's ownership
scan in `game_step` finds a region: there are a worker `rank` and a region index `i` with
`owned_region = some i`, the local coordinates passed to `get_state` / `upd_state` lie inside
that tile (`0 ≤ row - row_pos[r] < height of the tile`, `0 ≤ col - col_pos[c] < width of the
tile`), this worker reports the sensed state of that region, and every other worker finds no
region and reports the sentinel `-1`. -/
theorem exactly_one_owner (height width world_size : Nat) (hN : 1 ≤ world_size)
    (row col : Int) (hr0 : 0 ≤ row) (hr1 : row < (height : Int))
    (hc0 : 0 ≤ col) (hc1 : col < (width : Int)) :
    ∃ rank i, rank < world_size ∧ i < world_size ∧
      owned_region (divide_regions_tables height width world_size) world_size rank row col
        = some i ∧
      0 ≤ local_row (divide_regions_tables height width world_size) i row ∧
      local_row (divide_regions_tables height width world_size) i row
        < ((divide_regions_regions (divide_regions_tables height width world_size) world_size
            rank).getD i (ChessBoardRegion.new 0 0)).get_height ∧
      0 ≤ local_col (divide_regions_tables height width world_size) world_size rank i col ∧
      local_col (divide_regions_tables height width world_size) world_size rank i col
        < ((divide_regions_regions (divide_regions_tables height width world_size) world_size
            rank).getD i (ChessBoardRegion.new 0 0)).get_width ∧
      (∀ regions : List ChessBoardRegion,
        sense (divide_regions_tables height width world_size) world_size rank regions row col
          = (((regions.getD i (ChessBoardRegion.new 0 0)).get_state
              (local_row (divide_regions_tables height width world_size) i row)
              (local_col (divide_regions_tables height width world_size) world_size rank i col)
              : Nat) : Int) ∧
        sense (divide_regions_tables height width world_size) world_size rank regions row col
          ≠ -1) ∧
      ∀ rank', rank' < world_size → rank' ≠ rank →
        owned_region (divide_regions_tables height width world_size) world_size rank' row col
          = none ∧
        ∀ regions : List ChessBoardRegion,
          sense (divide_regions_tables height width world_size) world_size rank' regions row col
            = -1 := by
  obtain ⟨rank, i, hrank, hi, hown, l1, l2, l3, l4, hothers⟩ :=
    owner_scan height width world_size hN row col hr0 hr1 hc0 hc1
  have hdims := region_dims (divide_regions_tables height width world_size) world_size rank i hi
  refine ⟨rank, i, hrank, hi, hown, l1, ?_, l3, ?_, ?_, ?_⟩
  · rw [ChessBoardRegion.get_height, hdims.1]; exact l2
  · rw [ChessBoardRegion.get_width, hdims.2]; exact l4
  · intro regions
    simp only [sense, hown]
    exact ⟨trivial, by omega⟩
  · intro rank' hrank' hne
    have hnone := hothers rank' hrank' hne
    refine ⟨hnone, ?_⟩
    intro regions
    simp only [sense, hnone]

/-- Witness of C3 on the 2 x 1 grid with two workers, for the cell `(1, 0)`. -/
theorem exactly_one_owner_witness :
    (1 ≤ 2 ∧ (0 : Int) ≤ 1 ∧ (1 : Int) < ((2 : Nat) : Int) ∧ (0 : Int) ≤ 0 ∧
      (0 : Int) < ((1 : Nat) : Int)) ∧
    ∃ rank i, rank < 2 ∧ i < 2 ∧
      owned_region (divide_regions_tables 2 1 2) 2 rank 1 0 = some i :=
  ⟨by decide,
    (exactly_one_owner 2 1 2 (by decide) 1 0 (by decide) (by decide) (by decide)
      (by decide)).imp fun _ h => h.imp fun _ h => ⟨h.1, h.2.1, h.2.2.1⟩⟩
/-! ## C4 and C5: the halo relayed through an empty tile of worker 0 is one tick old -/

/-- C4 (evaluation at the failing input). Two workers on the 2 x 1 grid of `stale_cfg`: column
band 1 is empty, so the left neighbour of cell `(1, 0)` is the cell itself, whose bit 0 is set.
After the three passes of the first tick worker 1, the owner of `(1, 0)`, senses `1` (bit 3
clear), while the 6-bit neighbourhood read from the global toroidal board is `9` (bit 3 set),
which is also what the single worker senses.  The same happens for three workers on the 3 x 2
grid of `stale_cfg3` at the cell `(2, 0)`: sensed `0`, neighbourhood `8`. -/
theorem halo_stale_through_empty_tile :
    (divide_regions_tables 2 1 2).col_size = [1, 0] ∧
    owned_region (init_world 2 stale_cfg).part 2 1 1 0 = some 1 ∧
    sense (init_world 2 stale_cfg).part 2 1
        ((after_exchange (init_world 2 stale_cfg)).regions.getD 1 []) 1 0 = 1 ∧
    global_neighbourhood 2 1 (stored_bits (after_exchange (init_world 2 stale_cfg))) 1 0 = 9 ∧
    sense (init_world 1 stale_cfg).part 1 0
        ((after_exchange (init_world 1 stale_cfg)).regions.getD 0 []) 1 0 = 9 ∧
    sense (init_world 3 stale_cfg3).part 3 1
        ((after_exchange (init_world 3 stale_cfg3)).regions.getD 1 []) 2 0 = 0 ∧
    global_neighbourhood 3 2 (stored_bits (after_exchange (init_world 3 stale_cfg3))) 2 0 = 8 := by
  decide

/-- C5 (evaluation at the failing input). On `stale_cfg` with a budget of one tick the single
worker halts at once (the edge chosen by rule 2 is already used): 0 completed ticks, heading
`-1`, visited-state list `[20]`; two workers complete the tick: heading 3, visited-state list
`[16]`, 1 completed tick.  On `stale_cfg3` one worker and three workers differ likewise. -/
theorem two_workers_differ_from_one :
    run 1 stale_cfg 1
      = { game := { width := 1, height := 2, worm := { row := 1, col := 0, dir := -1 } },
          rule := [2], total_visited_state := 1, state := [20],
          board_ascii := [['*', ' '], [' ', ' '], ['*', '='], [' ', ' ']], step_count := 0 } ∧
    run 2 stale_cfg 1
      = { game := { width := 1, height := 2, worm := { row := 1, col := 0, dir := 3 } },
          rule := [2], total_visited_state := 1, state := [16],
          board_ascii := [['*', ' '], [' ', ' '], ['*', '='], [' ', ' ']], step_count := 1 } ∧
    (run 1 stale_cfg3 1).step_count = 0 ∧ (run 1 stale_cfg3 1).game.worm.dir = -1 ∧
    (run 3 stale_cfg3 1).step_count = 1 ∧ (run 3 stale_cfg3 1).game.worm = ⟨2, 1, 3⟩ := by
  decide
/-! ## C6 and C7: the canonical key and the decision -/

theorem rotate_right_bit :
    ∀ h : Nat, h < 6 → ∀ s : Nat, s < 64 → ∀ k : Nat, k < 6 →
      GETBIT (rotate_right s 6 (h : Int)) k = GETBIT s ((h + k) % 6) := by
  decide

theorem rotate_right_lt :
    ∀ h : Nat, h < 6 → ∀ s : Nat, s < 64 → rotate_right s 6 (h : Int) < 64 := by
  decide

theorem reduced_state_bits :
    ∀ x : Nat, x < 64 →
      reduced_state x = GETBIT x 0 ||| (GETBIT x 1 <<< 1) ||| (GETBIT x 2 <<< 2)
        ||| (GETBIT x 4 <<< 3) ||| (GETBIT x 5 <<< 4) ∧
      GETBIT x 0 = GETBIT (reduced_state x) 0 ∧ GETBIT x 1 = GETBIT (reduced_state x) 1 ∧
      GETBIT x 2 = GETBIT (reduced_state x) 2 ∧ GETBIT x 4 = GETBIT (reduced_state x) 3 ∧
      GETBIT x 5 = GETBIT (reduced_state x) 4 := by
  decide

theorem reduced_state_lt : ∀ x : Nat, x < 64 → reduced_state x < 32 := by
  decide

/-- C6. For every heading `h` in `0..5` and all raw 6-bit states `s`, `s'`, the canonical key
`reduced_state (rotate_right s 6 h)` is the same for `s` and `s'` if and only if `s` and `s'`
agree on every direction bit except the straight-back direction `(h + 3) % 6`. -/
theorem canonical_key_eq_iff (h s s' : Nat) (hh : h < 6) (hs : s < 64) (hs' : s' < 64) :
    reduced_state (rotate_right s 6 (h : Int)) = reduced_state (rotate_right s' 6 (h : Int)) ↔
      ∀ d, d < 6 → d ≠ (h + 3) % 6 → GETBIT s d = GETBIT s' d := by
  have rs := rotate_right_lt h hh s hs
  have rs' := rotate_right_lt h hh s' hs'
  have bs := reduced_state_bits _ rs
  have bs' := reduced_state_bits _ rs'
  have rb := rotate_right_bit h hh s hs
  have rb' := rotate_right_bit h hh s' hs'
  constructor
  · intro heq d hd hne
    -- the position `k` of direction `d` after the rotation
    have hk : ∃ k, k < 6 ∧ k ≠ 3 ∧ (h + k) % 6 = d := by
      refine ⟨(d + 6 - h) % 6, ?_, ?_, ?_⟩ <;> omega
    obtain ⟨k, hk6, hk3, rfl⟩ := hk
    rw [← rb k hk6, ← rb' k hk6]
    have h0 := bs.2.1; have h1 := bs.2.2.1; have h2 := bs.2.2.2.1
    have h4 := bs.2.2.2.2.1; have h5 := bs.2.2.2.2.2
    have h0' := bs'.2.1; have h1' := bs'.2.2.1; have h2' := bs'.2.2.2.1
    have h4' := bs'.2.2.2.2.1; have h5' := bs'.2.2.2.2.2
    rw [heq] at h0 h1 h2 h4 h5
    interval_cases k
    · exact h0.trans h0'.symm
    · exact h1.trans h1'.symm
    · exact h2.trans h2'.symm
    · exact absurd rfl hk3
    · exact h4.trans h4'.symm
    · exact h5.trans h5'.symm
  · intro hbits
    have e : ∀ k, k < 6 → k ≠ 3 →
        GETBIT (rotate_right s 6 (h : Int)) k = GETBIT (rotate_right s' 6 (h : Int)) k := by
      intro k hk6 hk3
      rw [rb k hk6, rb' k hk6]
      exact hbits _ (Nat.mod_lt _ (show 0 < 6 by decide)) (by omega)
    rw [bs.1, bs'.1, e 0 (by decide) (by decide), e 1 (by decide) (by decide),
      e 2 (by decide) (by decide), e 4 (by decide) (by decide), e 5 (by decide) (by decide)]

/-- Witness of C6: heading 1, the states `9` and `1` differ in direction 3 only, which is not
the straight-back direction 4, so their keys differ. -/
theorem canonical_key_eq_iff_witness :
    (1 < 6 ∧ 9 < 64 ∧ 1 < 64) ∧
    (reduced_state (rotate_right 9 6 ((1 : Nat) : Int))
        = reduced_state (rotate_right 1 6 ((1 : Nat) : Int)) ↔
      ∀ d, d < 6 → d ≠ (1 + 3) % 6 → GETBIT 9 d = GETBIT 1 d) :=
  ⟨by decide, canonical_key_eq_iff 1 9 1 (by decide) (by decide) (by decide)⟩

/-- C7. For every raw 6-bit state `s`, heading `h` in `0..5` and rule table in which the
canonical key of `(s, h)` resolves (after learn-on-first-sight) to a rule id `0 ≤ id < rule.size()`
whose configured relative turn is `c` (in `0..5`, as `parse_state` validates): the decision
`query_state(rotate_right(s, 6, h))` is `-1` when the absolute direction bit `(h + c) % 6` of the
raw state `s` is set, and `c` when that bit is clear. -/
theorem query_state_decision (a : Automaton) (s h c : Nat) (hs : s < 64) (hh : h < 6)
    (hc : c < 6)
    (_hid0 : 0 ≤ (learn_state a (reduced_state (rotate_right s 6 (h : Int)))).visited_state.getD
      (reduced_state (rotate_right s 6 (h : Int))) (-1))
    (hid1 : (learn_state a (reduced_state (rotate_right s 6 (h : Int)))).visited_state.getD
      (reduced_state (rotate_right s 6 (h : Int))) (-1) < (a.rule.length : Int))
    (hrule : a.rule.getD ((learn_state a (reduced_state (rotate_right s 6 (h : Int)))).visited_state.getD
      (reduced_state (rotate_right s 6 (h : Int))) (-1)).toNat 0 = c) :
    (query_state a (rotate_right s 6 (h : Int))).1
      = if GETBIT s ((h + c) % 6) ≠ 0 then -1 else (c : Int) := by
  have hr : (learn_state a (reduced_state (rotate_right s 6 (h : Int)))).rule = a.rule := by
    unfold learn_state; split_ifs <;> rfl
  unfold query_state
  simp only [hr, hrule]
  rw [if_neg (by omega), rotate_right_bit h hh s hs c hc]
  by_cases hb : GETBIT s ((h + c) % 6) = 0 <;> simp [hb]

/-- Witness of C7: empty table, rule list `[2]`, raw state `9`, heading `1`: the bit of
direction `(1 + 2) % 6 = 3` is set, so the decision is `-1`. -/
theorem query_state_decision_witness :
    (query_state (empty_table [2]) (rotate_right 9 6 ((1 : Nat) : Int))).1
      = if GETBIT 9 ((1 + 2) % 6) ≠ 0 then -1 else ((2 : Nat) : Int) :=
  query_state_decision (empty_table [2]) 9 1 2 (by decide) (by decide) (by decide) (by decide)
    (by decide) (by decide)
/-! ## C8: learn on first sight -/

theorem query_state_snd (a : Automaton) (state : Nat) :
    (query_state a state).2 = learn_state a (reduced_state state) := by
  unfold query_state
  simp only
  split_ifs <;> rfl

theorem learn_state_new (a : Automaton) (key : Nat) (hk : key < a.visited_state.length)
    (hnew : a.visited_state.getD key (-1) = -1) :
    (learn_state a key).visited_state.getD key (-1) = (a.total_visited_state : Int) ∧
    (learn_state a key).total_visited_state = a.total_visited_state + 1 ∧
    (∀ k, k ≠ key → (learn_state a key).visited_state.getD k (-1) = a.visited_state.getD k (-1)) ∧
    (learn_state a key).rule = a.rule ∧
    (learn_state a key).visited_state.length = a.visited_state.length := by
  unfold learn_state
  rw [if_pos hnew]
  refine ⟨?_, rfl, ?_, rfl, ?_⟩
  · simp only [getD_set_eq, hk, and_self, if_true]
  · intro k hne
    simp only [getD_set_eq]
    rw [if_neg]
    intro h
    exact hne h.1.symm
  · simp

theorem learn_state_seen (a : Automaton) (key : Nat)
    (hseen : a.visited_state.getD key (-1) ≠ -1) : learn_state a key = a := by
  unfold learn_state
  rw [if_neg hseen]

theorem distinct_before_append_mem (keys : List Nat) (k0 k : Nat) (hk : k ∈ keys) :
    distinct_before (keys ++ [k0]) k = distinct_before keys k := by
  unfold distinct_before
  rw [List.indexOf_append_of_mem hk,
    List.take_append_of_le_length (Nat.le_of_lt (List.indexOf_lt_length.mpr hk))]

theorem distinct_before_append_new (keys : List Nat) (k0 : Nat) (hk : k0 ∉ keys) :
    distinct_before (keys ++ [k0]) k0 = keys.toFinset.card := by
  unfold distinct_before
  rw [List.indexOf_append_of_not_mem hk]
  simp

theorem card_append_singleton (keys : List Nat) (k0 : Nat) :
    (keys ++ [k0]).toFinset.card
      = if k0 ∈ keys then keys.toFinset.card else keys.toFinset.card + 1 := by
  have : (keys ++ [k0]).toFinset = insert k0 keys.toFinset := by
    ext x; simp [or_comm]
  rw [this]
  split_ifs with h
  · exact Finset.card_insert_of_mem (List.mem_toFinset.mpr h)
  · exact Finset.card_insert_of_not_mem (fun hm => h (List.mem_toFinset.mp hm))

theorem replay_inv_step (keys : List Nat) (a : Automaton) (x : Nat) (hx : x < 64)
    (h : replay_inv keys a) :
    replay_inv (keys ++ [reduced_state x]) (query_state a x).2 := by
  obtain ⟨hlen, htot, htab⟩ := h
  have hkey : reduced_state x < 32 := reduced_state_lt x hx
  rw [query_state_snd]
  by_cases hmem : reduced_state x ∈ keys
  · have hseen : a.visited_state.getD (reduced_state x) (-1) ≠ -1 := by
      rw [htab _ hkey, if_pos hmem]; omega
    rw [learn_state_seen a _ hseen]
    refine ⟨hlen, ?_, ?_⟩
    · rw [card_append_singleton, if_pos hmem]; exact htot
    · intro k hk
      rw [htab k hk]
      by_cases hkm : k ∈ keys
      · rw [if_pos hkm, if_pos (List.mem_append_left _ hkm), distinct_before_append_mem _ _ _ hkm]
      · have : k ∉ keys ++ [reduced_state x] := by
          intro hc
          rcases List.mem_append.mp hc with h1 | h1
          · exact hkm h1
          · rw [List.mem_singleton] at h1; exact hkm (h1 ▸ hmem)
        rw [if_neg hkm, if_neg this]
  · have hnew : a.visited_state.getD (reduced_state x) (-1) = -1 := by
      rw [htab _ hkey, if_neg hmem]
    obtain ⟨g1, g2, g3, -, g5⟩ := learn_state_new a (reduced_state x) (by omega) hnew
    refine ⟨by rw [g5]; exact hlen, ?_, ?_⟩
    · rw [g2, card_append_singleton, if_neg hmem, htot]
    · intro k hk
      by_cases hkx : k = reduced_state x
      · subst hkx
        rw [g1, if_pos (List.mem_append_right _ (List.mem_singleton_self _)),
          distinct_before_append_new _ _ hmem, htot]
      · rw [g3 k hkx, htab k hk]
        by_cases hkm : k ∈ keys
        · rw [if_pos hkm, if_pos (List.mem_append_left _ hkm),
            distinct_before_append_mem _ _ _ hkm]
        · have : k ∉ keys ++ [reduced_state x] := by
            intro hc
            rcases List.mem_append.mp hc with h1 | h1
            · exact hkm h1
            · rw [List.mem_singleton] at h1; exact hkx h1
          rw [if_neg hkm, if_neg this]

theorem replay_inv_replay (xs : List Nat) :
    ∀ (keys : List Nat) (a : Automaton), (∀ x, x ∈ xs → x < 64) → replay_inv keys a →
      replay_inv (keys ++ xs.map reduced_state) (replay a xs) := by
  induction xs with
  | nil => intro keys a _ h; simpa [replay] using h
  | cons x xs ih =>
    intro keys a hxs h
    have h1 := replay_inv_step keys a x (hxs x (List.mem_cons_self x xs)) h
    have h2 := ih (keys ++ [reduced_state x]) (query_state a x).2
      (fun y hy => hxs y (List.mem_cons_of_mem x hy)) h1
    simpa [replay, List.append_assoc] using h2

theorem replay_inv_empty (rule : List Nat) : replay_inv [] (empty_table rule) := by
  refine ⟨by simp [empty_table], by simp [empty_table], ?_⟩
  intro k hk
  show (List.replicate 32 (-1 : Int)).getD k (-1) = _
  rw [List.getD_eq_getElem?_getD, List.getElem?_replicate]
  simp [hk]

/-- C8. `query_state` on a canonical state that is not yet in `visited_state` gives it the id
`total_visited_state`, increases the counter by exactly one and leaves every other table entry
(and the rule list) unchanged; on an already-seen state it changes neither the table nor the
counter.  Consequently, replaying any sequence `xs` of (6-bit) states on the empty table gives the
canonical state of every element the id equal to the number of distinct canonical states that
occurred before its first occurrence, and the counter is the number of distinct canonical states. -/
theorem query_state_learns_once (a : Automaton) (state : Nat) (rule xs : List Nat)
    (hlen : a.visited_state.length = 32) (hstate : state < 64)
    (hxs : ∀ x, x ∈ xs → x < 64) :
    (a.visited_state.getD (reduced_state state) (-1) = -1 →
      (query_state a state).2.visited_state.getD (reduced_state state) (-1)
        = (a.total_visited_state : Int) ∧
      (query_state a state).2.total_visited_state = a.total_visited_state + 1 ∧
      (∀ k, k ≠ reduced_state state →
        (query_state a state).2.visited_state.getD k (-1) = a.visited_state.getD k (-1)) ∧
      (query_state a state).2.rule = a.rule) ∧
    (a.visited_state.getD (reduced_state state) (-1) ≠ -1 → (query_state a state).2 = a) ∧
    (∀ x, x ∈ xs →
      (replay (empty_table rule) xs).visited_state.getD (reduced_state x) (-1)
        = (distinct_before (xs.map reduced_state) (reduced_state x) : Int)) ∧
    (replay (empty_table rule) xs).total_visited_state = (xs.map reduced_state).toFinset.card := by
  have hkey : reduced_state state < 32 := reduced_state_lt state hstate
  have hinv := replay_inv_replay xs [] (empty_table rule) hxs (replay_inv_empty rule)
  rw [List.nil_append] at hinv
  refine ⟨?_, ?_, ?_, hinv.2.1⟩
  · intro hnew
    rw [query_state_snd]
    obtain ⟨g1, g2, g3, g4, -⟩ := learn_state_new a (reduced_state state) (by omega) hnew
    exact ⟨g1, g2, g3, g4⟩
  · intro hseen
    rw [query_state_snd, learn_state_seen a _ hseen]
  · intro x hx
    rw [hinv.2.2 _ (reduced_state_lt x (hxs x hx)), if_pos (List.mem_map_of_mem _ hx)]

/-- Witness of C8: the states `0, 9, 8, 9` have the canonical states `0, 1, 0, 1`; replayed on the
empty table they get the ids `0` and `1`. -/
theorem query_state_learns_once_witness :
    (replay (empty_table [0]) [0, 9, 8, 9]).visited_state.getD (reduced_state 9) (-1)
        = (distinct_before ([0, 9, 8, 9].map reduced_state) (reduced_state 9) : Int) ∧
    distinct_before ([0, 9, 8, 9].map reduced_state) (reduced_state 9) = 1 ∧
    (replay (empty_table [0]) [0, 9, 8, 9]).total_visited_state = 2 :=
  ⟨(query_state_learns_once (empty_table [0]) 0 [0] [0, 9, 8, 9] (by decide) (by decide)
      (by decide)).2.2.1 9 (by decide), by decide, by decide⟩
/-! ## C9: the entry count and the rule list -/

theorem learn_state_frame (a : Automaton) (key : Nat) :
    (learn_state a key).rule = a.rule ∧
    (learn_state a key).visited_state.length = a.visited_state.length ∧
    (learn_state a key).total_visited_state ≤ a.total_visited_state + 1 := by
  unfold learn_state
  split_ifs
  · exact ⟨rfl, by simp, Nat.le_refl _⟩
  · exact ⟨rfl, rfl, Nat.le_succ _⟩

theorem query_state_decided (a : Automaton) (x : Nat) (hlen : a.visited_state.length = 32)
    (hx : x < 64) (htot : a.total_visited_state ≤ a.rule.length)
    (hdec : (query_state a x).1 ≠ -1) :
    (query_state a x).2.total_visited_state ≤ a.rule.length := by
  have hkey : reduced_state x < 32 := reduced_state_lt x hx
  have hid : (learn_state a (reduced_state x)).visited_state.getD (reduced_state x) (-1)
      < ((learn_state a (reduced_state x)).rule.length : Int) := by
    by_contra hcon
    apply hdec
    unfold query_state
    simp only
    rw [if_pos (by omega)]
  rw [query_state_snd]
  by_cases hnew : a.visited_state.getD (reduced_state x) (-1) = -1
  · obtain ⟨g1, g2, -, g4, -⟩ := learn_state_new a (reduced_state x) (by omega) hnew
    rw [g1, g4] at hid
    rw [g2]
    omega
  · rw [learn_state_seen a _ hnew]
    exact htot

/-- C9 (counterexample). The rule list `[0]` and the empty table satisfy
`total_visited_state ≤ rule.size()`; after the calls of `query_state` on the states `0`, `8`, `9`
(the states the worm senses on an empty 2 x 2 grid, canonical states `0`, `0`, `1`; only the last
call returns `-1`) the counter is `2` while `rule.size()` is still `1`. -/
theorem entry_count_exceeds_rules :
    (empty_table [0]).total_visited_state ≤ (empty_table [0]).rule.length ∧
    (replay (empty_table [0]) [0, 8, 9]).rule.length = 1 ∧
    (replay (empty_table [0]) [0, 8, 9]).total_visited_state = 2 ∧
    (query_until_halt (empty_table [0]) [0, 8, 9]).total_visited_state = 2 ∧
    ¬ ((replay (empty_table [0]) [0, 8, 9]).total_visited_state
        ≤ (replay (empty_table [0]) [0, 8, 9]).rule.length) := by
  decide

/-- C9 (amended). Starting from a 32-entry table with `total_visited_state ≤ rule.size()`: a call
of `query_state` (on a 6-bit state) that returns a decision leaves
`total_visited_state ≤ rule.size()`, and after any sequence of calls that stops at the first `-1`,
as a run does, `total_visited_state ≤ rule.size() + 1`, the rule list being unchanged. -/
theorem entry_count_bound (a : Automaton) (x : Nat) (xs : List Nat)
    (hlen : a.visited_state.length = 32) (hx : x < 64) (hxs : ∀ y, y ∈ xs → y < 64)
    (htot : a.total_visited_state ≤ a.rule.length) :
    ((query_state a x).1 ≠ -1 → (query_state a x).2.total_visited_state ≤ a.rule.length) ∧
    (query_until_halt a xs).total_visited_state ≤ a.rule.length + 1 ∧
    (query_until_halt a xs).rule = a.rule := by
  refine ⟨query_state_decided a x hlen hx htot, ?_⟩
  clear hx x
  induction xs generalizing a with
  | nil => exact ⟨Nat.le_succ_of_le htot, rfl⟩
  | cons y ys ih =>
    have hy := hxs y (List.mem_cons_self y ys)
    obtain ⟨f1, f2, f3⟩ := learn_state_frame a (reduced_state y)
    rw [← query_state_snd] at f1 f2 f3
    unfold query_until_halt
    split_ifs with hd
    · exact ⟨by omega, f1⟩
    · have h1 := query_state_decided a y hlen hy htot hd
      have h2 := ih (query_state a y).2 (by rw [f2]; exact hlen)
        (fun z hz => hxs z (List.mem_cons_of_mem y hz)) (by rw [f1]; exact h1)
      rw [f1] at h2
      exact h2

/-- Witness of C9 (amended) on the run of an empty 2 x 2 grid with the rule list `[0]`. -/
theorem entry_count_bound_witness :
    (query_until_halt (empty_table [0]) [0, 8, 9]).total_visited_state
      ≤ (empty_table [0]).rule.length + 1 :=
  (entry_count_bound (empty_table [0]) 0 [0, 8, 9] (by decide) (by decide) (by decide)
    (by decide)).2.1

/-! ## C10: the move of the worm -/

theorem wrap_emod (len y : Int) (h1 : -len ≤ y) (h2 : y < 2 * len) :
    (if (if y < 0 then y + len else y) ≥ len then (if y < 0 then y + len else y) - len
      else (if y < 0 then y + len else y)) = y % len := by
  by_cases hneg : y < 0
  · rw [if_pos hneg, if_neg (by omega), ← Int.add_emod_self (a := y) (b := len)]
    exact (Int.emod_eq_of_lt (by omega) (by omega)).symm
  · rw [if_neg hneg]
    by_cases hbig : y ≥ len
    · rw [if_pos hbig]
      have : y % len = (y - len) % len := by
        conv_lhs => rw [show y = (y - len) + len by ring]
        exact Int.add_emod_self
      rw [this]
      exact (Int.emod_eq_of_lt (by omega) (by omega)).symm
    · rw [if_neg hbig]
      exact (Int.emod_eq_of_lt (by omega) (by omega)).symm

theorem dr_dc_bounds (k : Nat) (hk : k < 6) :
    -1 ≤ dr k ∧ dr k ≤ 1 ∧ -1 ≤ dc k ∧ dc k ≤ 1 := by
  interval_cases k <;> decide

theorem move_worm_spec (game : GameInfo) (choice : Nat)
    (hh : 1 ≤ game.height) (hw : 1 ≤ game.width)
    (hr0 : 0 ≤ game.worm.row) (hr1 : game.worm.row < (game.height : Int))
    (hc0 : 0 ≤ game.worm.col) (hc1 : game.worm.col < (game.width : Int))
    (hd0 : 0 ≤ game.worm.dir) (hd1 : game.worm.dir < 6) (hch : choice < 6) :
    (move_worm game (choice : Int)).worm.dir = (game.worm.dir + (choice : Int)) % 6 ∧
    (move_worm game (choice : Int)).worm.row
      = (game.worm.row + dr ((game.worm.dir + (choice : Int)) % 6).toNat) % (game.height : Int) ∧
    (move_worm game (choice : Int)).worm.col
      = (game.worm.col + dc ((game.worm.dir + (choice : Int)) % 6).toNat) % (game.width : Int) ∧
    0 ≤ (move_worm game (choice : Int)).worm.row ∧
    (move_worm game (choice : Int)).worm.row < (game.height : Int) ∧
    0 ≤ (move_worm game (choice : Int)).worm.col ∧
    (move_worm game (choice : Int)).worm.col < (game.width : Int) ∧
    (move_worm game (choice : Int)).height = game.height ∧
    (move_worm game (choice : Int)).width = game.width := by
  have hdir : (if game.worm.dir + (choice : Int) ≥ 6 then game.worm.dir + (choice : Int) - 6
      else game.worm.dir + (choice : Int)) = (game.worm.dir + (choice : Int)) % 6 := by
    split_ifs <;> omega
  have hk : ((game.worm.dir + (choice : Int)) % 6).toNat < 6 := by omega
  obtain ⟨b1, b2, b3, b4⟩ := dr_dc_bounds _ hk
  have hhp : (0 : Int) < (game.height : Int) := by omega
  have hwp : (0 : Int) < (game.width : Int) := by omega
  have hne : ((choice : Int) = -1) = False := by
    apply eq_false; omega
  have e1 : (move_worm game (choice : Int)).worm.dir = (game.worm.dir + (choice : Int)) % 6 := by
    simp only [move_worm, hne, if_false, hdir]
  have e2 : (move_worm game (choice : Int)).worm.row
      = (game.worm.row + dr ((game.worm.dir + (choice : Int)) % 6).toNat)
          % (game.height : Int) := by
    simp only [move_worm, hne, if_false, hdir]
    exact wrap_emod _ _ (by omega) (by omega)
  have e3 : (move_worm game (choice : Int)).worm.col
      = (game.worm.col + dc ((game.worm.dir + (choice : Int)) % 6).toNat)
          % (game.width : Int) := by
    simp only [move_worm, hne, if_false, hdir]
    exact wrap_emod _ _ (by omega) (by omega)
  refine ⟨e1, e2, e3, ?_, ?_, ?_, ?_, ?_, ?_⟩
  · rw [e2]; exact Int.emod_nonneg _ (by omega)
  · rw [e2]; exact Int.emod_lt_of_pos _ hhp
  · rw [e3]; exact Int.emod_nonneg _ (by omega)
  · rw [e3]; exact Int.emod_lt_of_pos _ hwp
  · simp only [move_worm, hne, if_false]
  · simp only [move_worm, hne, if_false]

/-- C10. For every `height, width ≥ 1`, every worm position with `0 ≤ row < height` and
`0 ≤ col < width`, every heading in `0..5` and every decision `choice` in `0..5`, the leader's
move sets the new heading to `(heading + choice) mod 6` and the new position to
`((row + dr[newDir]) mod height, (col + dc[newDir]) mod width)`, so `0 ≤ row < height` and
`0 ≤ col < width` hold after the move (the grid sizes are unchanged). -/
theorem move_worm_toroidal (game : GameInfo) (choice : Nat)
    (hh : 1 ≤ game.height) (hw : 1 ≤ game.width)
    (hr0 : 0 ≤ game.worm.row) (hr1 : game.worm.row < (game.height : Int))
    (hc0 : 0 ≤ game.worm.col) (hc1 : game.worm.col < (game.width : Int))
    (hd0 : 0 ≤ game.worm.dir) (hd1 : game.worm.dir < 6) (hch : choice < 6) :
    (move_worm game (choice : Int)).worm.dir = (game.worm.dir + (choice : Int)) % 6 ∧
    (move_worm game (choice : Int)).worm.row
      = (game.worm.row + dr ((game.worm.dir + (choice : Int)) % 6).toNat) % (game.height : Int) ∧
    (move_worm game (choice : Int)).worm.col
      = (game.worm.col + dc ((game.worm.dir + (choice : Int)) % 6).toNat) % (game.width : Int) ∧
    0 ≤ (move_worm game (choice : Int)).worm.row ∧
    (move_worm game (choice : Int)).worm.row < (game.height : Int) ∧
    0 ≤ (move_worm game (choice : Int)).worm.col ∧
    (move_worm game (choice : Int)).worm.col < (game.width : Int) ∧
    (move_worm game (choice : Int)).height = game.height ∧
    (move_worm game (choice : Int)).width = game.width :=
  move_worm_spec game choice hh hw hr0 hr1 hc0 hc1 hd0 hd1 hch

/-- Witness of C10 on a 1 x 1 grid: heading 5, choice 2, the worm stays on `(0, 0)` with
heading 1. -/
theorem move_worm_toroidal_witness :
    (move_worm { width := 1, height := 1, worm := { row := 0, col := 0, dir := 5 } }
        ((2 : Nat) : Int)).worm = { row := 0, col := 0, dir := 1 } ∧
    (move_worm { width := 1, height := 1, worm := { row := 0, col := 0, dir := 5 } }
        ((2 : Nat) : Int)).worm.dir = ((5 : Int) + ((2 : Nat) : Int)) % 6 :=
  ⟨by decide,
    (move_worm_toroidal { width := 1, height := 1, worm := { row := 0, col := 0, dir := 5 } } 2
      (by decide) (by decide) (by decide) (by decide) (by decide) (by decide) (by decide)
      (by decide) (by decide)).1⟩
/-! ## Bits and cells -/

theorem GETBIT_eq_testBit (n k : Nat) : GETBIT n k = (n.testBit k).toNat := by
  unfold GETBIT
  rw [Nat.toNat_testBit, Nat.and_one_is_mod, Nat.shiftRight_eq_div_pow]

theorem GETBIT_lt_two (n k : Nat) : GETBIT n k < 2 := by
  unfold GETBIT
  exact Nat.lt_succ_of_le Nat.and_le_right

theorem GETBIT_or_bit_self (x b : Nat) : GETBIT (x ||| (1 <<< b)) b = 1 := by
  rw [GETBIT_eq_testBit, Nat.testBit_or, Nat.one_shiftLeft, Nat.testBit_two_pow_self]
  simp

theorem GETBIT_or_bit_ne (x b k : Nat) (h : k ≠ b) :
    GETBIT (x ||| (1 <<< b)) k = GETBIT x k := by
  rw [GETBIT_eq_testBit, GETBIT_eq_testBit, Nat.testBit_or, Nat.one_shiftLeft,
    Nat.testBit_two_pow_of_ne (Ne.symm h)]
  simp

theorem GETBIT_or_mono (x y k : Nat) (h : GETBIT x k = 1) : GETBIT (x ||| y) k = 1 := by
  rw [GETBIT_eq_testBit] at h ⊢
  rw [Nat.testBit_or]
  cases hx : x.testBit k
  · rw [hx] at h; simp at h
  · simp

theorem cell_set_cell_eq (reg : ChessBoardRegion) (r c : Int) (v : Nat)
    (hs : reg.well_shaped) (hr1 : r < (reg.height : Int)) (hc1 : c < (reg.width : Int)) :
    (reg.set_cell r c v).cell r c = v := by
  obtain ⟨h1, h2⟩ := hs
  have hi : (r + 1).toNat < reg.cell_state.length := by omega
  have hrow : (reg.cell_state.getD (r + 1).toNat []).length = reg.width + 1 := by
    apply h2
    rw [List.getD_eq_getElem?_getD, List.getElem?_eq_getElem hi]
    exact List.getElem_mem _
  have hj : (c + 1).toNat < (reg.cell_state.getD (r + 1).toNat []).length := by omega
  simp only [ChessBoardRegion.cell, ChessBoardRegion.set_cell, getD_set_eq, hi, hj, and_self,
    if_true]

theorem cell_set_cell_ne (reg : ChessBoardRegion) (r c r' c' : Int) (v : Nat)
    (hr0 : -1 ≤ r) (hc0 : -1 ≤ c) (hr0' : -1 ≤ r') (hc0' : -1 ≤ c')
    (hne : ¬ (r' = r ∧ c' = c)) :
    (reg.set_cell r c v).cell r' c' = reg.cell r' c' := by
  simp only [ChessBoardRegion.cell, ChessBoardRegion.set_cell, getD_set_eq]
  by_cases hrr : (r + 1).toNat = (r' + 1).toNat ∧ (r + 1).toNat < reg.cell_state.length
  · rw [if_pos hrr, getD_set_eq]
    have hr : r' = r := by omega
    have hcc : ¬ ((c + 1).toNat = (c' + 1).toNat ∧
        (c + 1).toNat < (reg.cell_state.getD (r + 1).toNat []).length) := by
      intro h
      apply hne
      exact ⟨hr, by omega⟩
    rw [if_neg hcc, hrr.1]
  · rw [if_neg hrr]

theorem set_cell_well_shaped (reg : ChessBoardRegion) (r c : Int) (v : Nat)
    (hs : reg.well_shaped) : (reg.set_cell r c v).well_shaped := by
  obtain ⟨h1, h2⟩ := hs
  refine ⟨by simp [ChessBoardRegion.set_cell, h1], ?_⟩
  intro row hrow
  simp only [ChessBoardRegion.set_cell] at hrow
  rcases List.mem_or_eq_of_mem_set hrow with h | h
  · exact h2 row h
  · subst h
    rw [List.length_set]
    by_cases hi : (r + 1).toNat < reg.cell_state.length
    · apply h2
      rw [List.getD_eq_getElem?_getD, List.getElem?_eq_getElem hi]
      exact List.getElem_mem _
    · exfalso
      rw [List.set_eq_of_length_le (Nat.le_of_not_lt hi)] at hrow
      have := h2 _ hrow
      rw [List.length_set, List.getD_eq_default _ _ (Nat.le_of_not_lt hi)] at this
      simp at this
/-! ## C15: the frame of `upd_state` -/

/-- C15. For every well-shaped tile of `h x w` cells, every cell `(row, col)` with
`0 ≤ row < h`, `0 ≤ col < w` and every direction `dir` in `0..5`, `upd_state` finishes after at
most one recursive call (depth 2 suffices, depth 1 when `dir < 3`) and sets exactly one stored
bit: bit `dir` of the cell itself when `dir < 3`, otherwise bit `dir - 3` of the paired cell
`(row + dr[dir], col + dc[dir])`; the written index lies inside `[-1, h) x [-1, w)`, every other
bit of that cell and every other cell is unchanged, and so are the dimensions. -/
theorem upd_state_sets_one_bit (reg : ChessBoardRegion) (row col : Int) (dir : Nat)
    (hs : reg.well_shaped) (hr0 : 0 ≤ row) (hr1 : row < (reg.height : Int))
    (hc0 : 0 ≤ col) (hc1 : col < (reg.width : Int)) (hd : dir < 6) :
    ChessBoardRegion.upd_state_fuel 2 reg row col dir = some (reg.upd_state row col dir) ∧
    (dir < 3 →
      ChessBoardRegion.upd_state_fuel 1 reg row col dir = some (reg.upd_state row col dir)) ∧
    (3 ≤ dir → ChessBoardRegion.upd_state_fuel 1 reg row col dir = none ∧
      opposite_dir dir = dir - 3) ∧
    -1 ≤ (if dir < 3 then row else row + dr dir) ∧
    (if dir < 3 then row else row + dr dir) < (reg.height : Int) ∧
    -1 ≤ (if dir < 3 then col else col + dc dir) ∧
    (if dir < 3 then col else col + dc dir) < (reg.width : Int) ∧
    (reg.upd_state row col dir).cell (if dir < 3 then row else row + dr dir)
        (if dir < 3 then col else col + dc dir)
      = reg.cell (if dir < 3 then row else row + dr dir) (if dir < 3 then col else col + dc dir)
          ||| (1 <<< (if dir < 3 then dir else dir - 3)) ∧
    GETBIT ((reg.upd_state row col dir).cell (if dir < 3 then row else row + dr dir)
        (if dir < 3 then col else col + dc dir)) (if dir < 3 then dir else dir - 3) = 1 ∧
    (∀ k, k ≠ (if dir < 3 then dir else dir - 3) →
      GETBIT ((reg.upd_state row col dir).cell (if dir < 3 then row else row + dr dir)
          (if dir < 3 then col else col + dc dir)) k
        = GETBIT (reg.cell (if dir < 3 then row else row + dr dir)
          (if dir < 3 then col else col + dc dir)) k) ∧
    (∀ r c : Int, -1 ≤ r → -1 ≤ c →
      ¬ (r = (if dir < 3 then row else row + dr dir) ∧
          c = (if dir < 3 then col else col + dc dir)) →
      (reg.upd_state row col dir).cell r c = reg.cell r c) ∧
    (reg.upd_state row col dir).height = reg.height ∧
    (reg.upd_state row col dir).width = reg.width ∧
    (reg.upd_state row col dir).well_shaped := by
  obtain ⟨b1, b2, b3, b4⟩ := dr_dc_bounds dir hd
  by_cases h3 : dir < 3
  · have hn : ¬ dir ≥ 3 := Nat.not_le.mpr h3
    have hu : reg.upd_state row col dir
        = reg.set_cell row col (reg.cell row col ||| (1 <<< dir)) := by
      simp only [ChessBoardRegion.upd_state, ChessBoardRegion.upd_state_fuel, if_neg hn,
        Option.getD_some]
    simp only [if_pos h3]
    rw [hu]
    have hcell := cell_set_cell_eq reg row col (reg.cell row col ||| (1 <<< dir)) hs hr1 hc1
    refine ⟨by simp only [ChessBoardRegion.upd_state_fuel, if_neg hn],
      fun _ => by simp only [ChessBoardRegion.upd_state_fuel, if_neg hn],
      fun h => absurd h hn, by omega, hr1, by omega, hc1, hcell, ?_, ?_, ?_, rfl, rfl,
      set_cell_well_shaped reg row col _ hs⟩
    · rw [hcell]; exact GETBIT_or_bit_self _ _
    · intro k hk
      rw [hcell]; exact GETBIT_or_bit_ne _ _ _ hk
    · intro r c hr hc hne
      exact cell_set_cell_ne reg row col r c _ (by omega) (by omega) hr hc hne
  · have hp : dir ≥ 3 := Nat.le_of_not_lt h3
    have ho : opposite_dir dir = dir - 3 := by
      interval_cases dir <;> first | omega | decide
    have hn : ¬ dir - 3 ≥ 3 := by omega
    have hu : reg.upd_state row col dir
        = reg.set_cell (row + dr dir) (col + dc dir)
            (reg.cell (row + dr dir) (col + dc dir) ||| (1 <<< (dir - 3))) := by
      simp only [ChessBoardRegion.upd_state, ChessBoardRegion.upd_state_fuel, if_pos hp, ho,
        if_neg hn, Option.getD_some]
    have hdr : dr dir ≤ 0 ∧ dc dir ≤ 0 := by
      interval_cases dir <;> first | omega | decide
    simp only [if_neg h3]
    rw [hu]
    have hcell := cell_set_cell_eq reg (row + dr dir) (col + dc dir)
      (reg.cell (row + dr dir) (col + dc dir) ||| (1 <<< (dir - 3))) hs (by omega) (by omega)
    refine ⟨by simp only [ChessBoardRegion.upd_state_fuel, if_pos hp, ho, if_neg hn],
      fun h => absurd h h3,
      fun _ => ⟨by simp only [ChessBoardRegion.upd_state_fuel, if_pos hp], ho⟩,
      by omega, by omega, by omega, by omega, hcell, ?_, ?_, ?_, rfl, rfl,
      set_cell_well_shaped reg _ _ _ hs⟩
    · rw [hcell]; exact GETBIT_or_bit_self _ _
    · intro k hk
      rw [hcell]; exact GETBIT_or_bit_ne _ _ _ hk
    · intro r c hr hc hne
      exact cell_set_cell_ne reg _ _ r c _ (by omega) (by omega) hr hc hne

/-- Witness of C15: on a fresh 2 x 2 tile, `upd_state(0, 0, 4)` sets bit 1 of the halo corner
`(-1, -1)`. -/
theorem upd_state_sets_one_bit_witness :
    ((ChessBoardRegion.new 2 2).upd_state 0 0 4).cell (-1) (-1) = 2 ∧
    ChessBoardRegion.upd_state_fuel 2 (ChessBoardRegion.new 2 2) 0 0 4
      = some ((ChessBoardRegion.new 2 2).upd_state 0 0 4) :=
  ⟨by decide,
    (upd_state_sets_one_bit (ChessBoardRegion.new 2 2) 0 0 4 (by decide) (by decide)
      (by decide) (by decide) (by decide) (by decide)).1⟩
/-! ## C16: the sensed state -/

theorem compose_bits :
    ∀ c : Nat, c < 8 → ∀ f3 f4 f5 : Bool,
      (∀ k : Nat, k < 3 →
        GETBIT (((if f3 = true then c ||| (1 <<< 3) else c)
          |> fun r => if f4 = true then r ||| (1 <<< 4) else r)
          |> fun r => if f5 = true then r ||| (1 <<< 5) else r) k = GETBIT c k) ∧
      GETBIT (((if f3 = true then c ||| (1 <<< 3) else c)
          |> fun r => if f4 = true then r ||| (1 <<< 4) else r)
          |> fun r => if f5 = true then r ||| (1 <<< 5) else r) 3 = f3.toNat ∧
      GETBIT (((if f3 = true then c ||| (1 <<< 3) else c)
          |> fun r => if f4 = true then r ||| (1 <<< 4) else r)
          |> fun r => if f5 = true then r ||| (1 <<< 5) else r) 4 = f4.toNat ∧
      GETBIT (((if f3 = true then c ||| (1 <<< 3) else c)
          |> fun r => if f4 = true then r ||| (1 <<< 4) else r)
          |> fun r => if f5 = true then r ||| (1 <<< 5) else r) 5 = f5.toNat ∧
      (((if f3 = true then c ||| (1 <<< 3) else c)
          |> fun r => if f4 = true then r ||| (1 <<< 4) else r)
          |> fun r => if f5 = true then r ||| (1 <<< 5) else r) < 64 := by
  decide

theorem GETBIT_flag (n k : Nat) : (decide (GETBIT n k ≠ 0)).toNat = GETBIT n k := by
  have := GETBIT_lt_two n k
  by_cases h : GETBIT n k = 0
  · simp [h]
  · have h1 : GETBIT n k = 1 := by omega
    simp [h1]

theorem get_state_eq (reg : ChessBoardRegion) (row col : Int) :
    reg.get_state row col
      = (((if decide (GETBIT (reg.cell row (col - 1)) 0 ≠ 0) = true
            then reg.cell row col ||| (1 <<< 3) else reg.cell row col)
          |> fun r => if decide (GETBIT (reg.cell (row - 1) (col - 1)) 1 ≠ 0) = true
            then r ||| (1 <<< 4) else r)
          |> fun r => if decide (GETBIT (reg.cell (row - 1) col) 2 ≠ 0) = true
            then r ||| (1 <<< 5) else r) := by
  simp only [ChessBoardRegion.get_state, decide_eq_true_eq]

theorem get_state_bits_aux (reg : ChessBoardRegion) (row col : Int)
    (hc : reg.cell row col < 8) :
    (∀ k : Nat, k < 3 → GETBIT (reg.get_state row col) k = GETBIT (reg.cell row col) k) ∧
    GETBIT (reg.get_state row col) 3 = GETBIT (reg.cell row (col - 1)) 0 ∧
    GETBIT (reg.get_state row col) 4 = GETBIT (reg.cell (row - 1) (col - 1)) 1 ∧
    GETBIT (reg.get_state row col) 5 = GETBIT (reg.cell (row - 1) col) 2 ∧
    reg.get_state row col < 64 := by
  have h := compose_bits (reg.cell row col) hc
    (decide (GETBIT (reg.cell row (col - 1)) 0 ≠ 0))
    (decide (GETBIT (reg.cell (row - 1) (col - 1)) 1 ≠ 0))
    (decide (GETBIT (reg.cell (row - 1) col) 2 ≠ 0))
  rw [← get_state_eq, GETBIT_flag, GETBIT_flag, GETBIT_flag] at h
  exact h

theorem cell_lt_eight (reg : ChessBoardRegion) (hbits : reg.three_bit) (r c : Int) :
    reg.cell r c < 8 := by
  unfold ChessBoardRegion.cell
  rw [List.getD_eq_getElem?_getD, List.getD_eq_getElem?_getD]
  cases hi : reg.cell_state[(r + 1).toNat]? with
  | none => simp
  | some x =>
    cases hj : x[(c + 1).toNat]? with
    | none => simp [hj]
    | some y =>
      simp only [Option.getD_some, hj]
      exact hbits x (List.getElem?_mem hi) y (List.getElem?_mem hj)

/-- C16. For every tile whose cells hold 3-bit values and every cell `(row, col)`, `get_state`
returns the cell's own bits in positions 0-2, bit 3 = bit 0 of `(row, col - 1)`, bit 4 = bit 1 of
`(row - 1, col - 1)` and bit 5 = bit 2 of `(row - 1, col)`; that is, for `d` in `{3, 4, 5}` bit
`d` is bit `d - 3` of the cell at `(row + dr[d], col + dc[d])`, so for `d < 3` bit `d` of
`get_state(p)` equals bit `d + 3` of `get_state(q)` at `q = p + (dr[d], dc[d])`; the result is a
6-bit value. -/
theorem get_state_bits (reg : ChessBoardRegion) (row col : Int) (hbits : reg.three_bit) :
    (∀ k : Nat, k < 3 → GETBIT (reg.get_state row col) k = GETBIT (reg.cell row col) k) ∧
    GETBIT (reg.get_state row col) 3 = GETBIT (reg.cell row (col - 1)) 0 ∧
    GETBIT (reg.get_state row col) 4 = GETBIT (reg.cell (row - 1) (col - 1)) 1 ∧
    GETBIT (reg.get_state row col) 5 = GETBIT (reg.cell (row - 1) col) 2 ∧
    (∀ d : Nat, 3 ≤ d → d < 6 →
      GETBIT (reg.get_state row col) d
        = GETBIT (reg.cell (row + dr d) (col + dc d)) (d - 3)) ∧
    (∀ d : Nat, d < 3 →
      GETBIT (reg.get_state row col) d
        = GETBIT (reg.get_state (row + dr d) (col + dc d)) (d + 3)) ∧
    reg.get_state row col < 64 := by
  have h3 := cell_lt_eight reg hbits
  obtain ⟨a0, a3, a4, a5, a6⟩ := get_state_bits_aux reg row col (h3 row col)
  have hdir : ∀ (r c : Int) (d : Nat), 3 ≤ d → d < 6 →
      GETBIT (reg.get_state r c) d = GETBIT (reg.cell (r + dr d) (c + dc d)) (d - 3) := by
    intro r c d hd1 hd2
    obtain ⟨-, e3, e4, e5, -⟩ := get_state_bits_aux reg r c (h3 r c)
    interval_cases d
    · rw [e3]; simp [dr, dc, Int.sub_eq_add_neg]
    · rw [e4]; simp [dr, dc, Int.sub_eq_add_neg]
    · rw [e5]; simp [dr, dc, Int.sub_eq_add_neg]
  refine ⟨a0, a3, a4, a5, hdir row col, ?_, a6⟩
  intro d hd
  rw [a0 d hd, hdir _ _ (d + 3) (by omega) (by omega), Nat.add_sub_cancel]
  have hback : row + dr d + dr (d + 3) = row ∧ col + dc d + dc (d + 3) = col := by
    interval_cases d <;> simp [dr, dc]
  rw [hback.1, hback.2]

/-- Witness of C16 on a fresh 2 x 2 tile whose cell `(0, 0)` has bit 0 set: the cell `(0, 1)`
senses it as bit 3. -/
theorem get_state_bits_witness :
    GETBIT (((ChessBoardRegion.new 2 2).set_cell 0 0 1).get_state 0 0) 0
      = GETBIT (((ChessBoardRegion.new 2 2).set_cell 0 0 1).get_state (0 + dr 0) (0 + dc 0))
          (0 + 3) ∧
    ((ChessBoardRegion.new 2 2).set_cell 0 0 1).get_state 0 1 = 8 :=
  ⟨(get_state_bits ((ChessBoardRegion.new 2 2).set_cell 0 0 1) 0 0
      (by decide)).2.2.2.2.2.1 0 (by decide), by decide⟩
/-! ## C17: rotating back -/

theorem rotate_right_back :
    ∀ d : Nat, d < 6 → ∀ x : Nat, x < 64 →
      rotate_right (rotate_right x 6 (d : Int)) 6 (-(d : Int)) = x ∧
      rotate_right (rotate_right x 6 (d : Int)) 6 (6 - (d : Int)) = x := by
  decide

/-- C17. For every 6-bit state `x` and every heading `d` in `0..5`, rotating by the heading and
then reversing the rotation returns the original state, with the shift `-d` as well as with the
shift `6 - d`, and bit `k` of `rotate_right(x, 6, d)` is bit `(k + d) mod 6` of `x`. -/
theorem rotate_right_round_trip (x d : Nat) (hx : x < 64) (hd : d < 6) :
    rotate_right (rotate_right x 6 (d : Int)) 6 (-(d : Int)) = x ∧
    rotate_right (rotate_right x 6 (d : Int)) 6 (6 - (d : Int)) = x ∧
    ∀ k : Nat, k < 6 → GETBIT (rotate_right x 6 (d : Int)) k = GETBIT x ((k + d) % 6) := by
  refine ⟨(rotate_right_back d hd x hx).1, (rotate_right_back d hd x hx).2, ?_⟩
  intro k hk
  rw [rotate_right_bit d hd x hx k hk, Nat.add_comm]

/-- Witness of C17: `rotate_right(9, 6, 1) = 36` and rotating back by `-1` gives `9`. -/
theorem rotate_right_round_trip_witness :
    rotate_right 9 6 ((1 : Nat) : Int) = 36 ∧
    rotate_right (rotate_right 9 6 ((1 : Nat) : Int)) 6 (-((1 : Nat) : Int)) = 9 :=
  ⟨by decide, (rotate_right_round_trip 9 1 (by decide) (by decide)).1⟩

/-! ## C18: the horizontal-edge marker -/

/-- C18 (evaluation at the failing input). `divide_states` compares the horizontal-edge position
with `=` only: on the 1 x 2 grid of `dash_cfg` the cell `(0, 0)` gets its direction-0 bit from
`=` but not from `-`, the marker `print_usage` documents; the leader writes `=`, never `-`, for
a set bit in `combine_states`. -/
theorem dash_is_not_read_as_edge :
    encode_cell (dash_cfg '-').board_ascii 0 0 = 0 ∧
    encode_cell (dash_cfg '=').board_ascii 0 0 = 1 ∧
    GETBIT ((((init_world 1 (dash_cfg '-')).regions.getD 0 []).getD 0
      (ChessBoardRegion.new 0 0)).cell 0 0) 0 = 0 ∧
    GETBIT ((((init_world 1 (dash_cfg '=')).regions.getD 0 []).getD 0
      (ChessBoardRegion.new 0 0)).cell 0 0) 0 = 1 ∧
    board_char (run 1 (dash_cfg '-') 0).board_ascii 0 1 = ' ' ∧
    board_char (run 1 (dash_cfg '=') 0).board_ascii 0 1 = '=' := by
  decide

/-! ## C19: the key stays inside the table -/

/-- C19. For every sensed state returned by `get_state` on a tile whose cells hold 3-bit values
and every heading in `0..5`, the sensed state is a 6-bit value and the canonical key computed in
`query_state` is below 32, so the read and the write of `visited_state[key]` are inside a
32-entry table, also after the call. -/
theorem canonical_key_in_table (reg : ChessBoardRegion) (row col : Int) (h : Nat)
    (a : Automaton) (hbits : reg.three_bit) (hh : h < 6) (hlen : a.visited_state.length = 32) :
    reg.get_state row col < 64 ∧
    reduced_state (rotate_right (reg.get_state row col) 6 (h : Int)) < 32 ∧
    reduced_state (rotate_right (reg.get_state row col) 6 (h : Int)) < a.visited_state.length ∧
    (query_state a (rotate_right (reg.get_state row col) 6 (h : Int))).2.visited_state.length
      = 32 := by
  have h64 : reg.get_state row col < 64 :=
    (get_state_bits_aux reg row col (cell_lt_eight reg hbits row col)).2.2.2.2
  have hkey := reduced_state_lt _ (rotate_right_lt h hh _ h64)
  refine ⟨h64, hkey, by omega, ?_⟩
  rw [query_state_snd, (learn_state_frame a _).2.1, hlen]

/-- Witness of C19 on a fresh 2 x 2 tile whose cell `(0, 0)` has bit 0 set, heading 1. -/
theorem canonical_key_in_table_witness :
    reduced_state (rotate_right (((ChessBoardRegion.new 2 2).set_cell 0 0 1).get_state 0 1) 6
      ((1 : Nat) : Int)) < 32 :=
  (canonical_key_in_table ((ChessBoardRegion.new 2 2).set_cell 0 0 1) 0 1 1 (empty_table [0])
    (by decide) (by decide) (by decide)).2.1
/-! ## C13: the main loop -/

theorem game_step_false_iff (w : World) :
    (game_step w).1 = false ↔ (game_step w).2.game.worm.dir = -1 := by
  by_cases h : (List.foldl leader_step (w.game, w.auto)
      (List.map (fun rank => sense w.part w.world_size rank
        ((halo_exchange w.world_size w.regions).getD rank []) w.game.worm.row w.game.worm.col)
        (List.range w.world_size))).1.worm.dir = -1
  · rw [game_step, if_pos h]
    exact ⟨fun _ => h, fun _ => rfl⟩
  · rw [game_step, if_neg h]
    exact ⟨fun h1 => Bool.noConfusion h1, fun h1 => absurd h1 h⟩

theorem main_loop_succ (B : Nat) (w : World) :
    main_loop (B + 1) w
      = if (game_step w).1 then
          ((main_loop B (game_step w).2).1, (main_loop B (game_step w).2).2 + 1)
        else ((game_step w).2, 0) := by
  rw [main_loop]

theorem ticks_succ (k : Nat) (w : World) : ticks (k + 1) w = ticks k (game_step w).2 := by
  rw [ticks]

theorem ticks_succ_last (k : Nat) :
    ∀ w : World, ticks (k + 1) w = (game_step (ticks k w)).2 := by
  induction k with
  | zero => intro w; rw [ticks_succ, ticks, ticks]
  | succ k ih => intro w; rw [ticks_succ, ih, ticks_succ]

theorem main_loop_all_move (B : Nat) :
    ∀ w : World, (∀ k, k < B → (game_step (ticks k w)).1 = true) →
      main_loop B w = (ticks B w, B) := by
  induction B with
  | zero => intro w _; rw [main_loop, ticks]
  | succ B ih =>
    intro w h
    have h0 : (game_step w).1 = true := by
      have := h 0 (Nat.succ_pos B)
      rw [ticks] at this
      exact this
    have h1 := ih (game_step w).2 (fun k hk => by
      have := h (k + 1) (Nat.succ_lt_succ hk)
      rw [ticks_succ] at this
      exact this)
    rw [main_loop_succ, if_pos h0, h1, ticks_succ]

theorem main_loop_first_halt (B : Nat) :
    ∀ (w : World) (k : Nat), k < B → (∀ j, j < k → (game_step (ticks j w)).1 = true) →
      (game_step (ticks k w)).1 = false → main_loop B w = (ticks (k + 1) w, k) := by
  induction B with
  | zero => intro w k hk; omega
  | succ B ih =>
    intro w k hk hmove hhalt
    cases k with
    | zero =>
      rw [ticks] at hhalt
      rw [main_loop_succ, if_neg (by rw [hhalt]; decide), ticks_succ, ticks]
    | succ k =>
      have h0 : (game_step w).1 = true := by
        have := hmove 0 (Nat.succ_pos k)
        rw [ticks] at this
        exact this
      rw [ticks_succ] at hhalt
      have h1 := ih (game_step w).2 k (Nat.lt_of_succ_lt_succ hk)
        (fun j hj => by
          have := hmove (j + 1) (Nat.succ_lt_succ hj)
          rw [ticks_succ] at this
          exact this) hhalt
      rw [main_loop_succ, if_pos h0, h1, ticks_succ (k + 1)]

theorem main_loop_calls (B : Nat) :
    ∀ w : World, ∃ n, n ≤ B ∧ (main_loop B w).1 = ticks n w ∧ (main_loop B w).2 ≤ n := by
  induction B with
  | zero =>
    intro w
    refine ⟨0, Nat.le_refl 0, ?_, ?_⟩
    · rw [main_loop, ticks]
    · rw [main_loop]
  | succ B ih =>
    intro w
    by_cases h0 : (game_step w).1 = true
    · obtain ⟨n, hn, h1, h2⟩ := ih (game_step w).2
      refine ⟨n + 1, Nat.succ_le_succ hn, ?_, ?_⟩
      · rw [main_loop_succ, if_pos h0, ticks_succ]; exact h1
      · rw [main_loop_succ, if_pos h0]; exact Nat.succ_le_succ h2
    · refine ⟨1, Nat.succ_le_succ (Nat.zero_le B), ?_, ?_⟩
      · rw [main_loop_succ, if_neg h0, ticks_succ, ticks]
      · rw [main_loop_succ, if_neg h0]; exact Nat.zero_le 1

/-- C13. For every iteration budget `B`, the main loop ends in the state reached by `n ≤ B`
calls of `game_step`, and the reported count is the number of ticks that produced a move before
the first halting tick: it is `B` (after `B` calls) if no tick halts, and it is `k` (after
`k + 1` calls, with final heading `-1`) if tick `k + 1 ≤ B` is the first to halt.  Instance:
with a budget of 5, if the first tick moves and the second halts, the count is 1 and the final
heading is `-1`. -/
theorem main_loop_counts_moves (B : Nat) (w : World) :
    (∃ n, n ≤ B ∧ (main_loop B w).1 = ticks n w ∧ (main_loop B w).2 ≤ n) ∧
    ((∀ k, k < B → (game_step (ticks k w)).1 = true) → main_loop B w = (ticks B w, B)) ∧
    (∀ k, k < B → (∀ j, j < k → (game_step (ticks j w)).1 = true) →
      (game_step (ticks k w)).1 = false →
        main_loop B w = (ticks (k + 1) w, k) ∧ (ticks (k + 1) w).game.worm.dir = -1) ∧
    ((game_step (ticks 0 w)).1 = true → (game_step (ticks 1 w)).1 = false →
      main_loop 5 w = (ticks 2 w, 1) ∧ (ticks 2 w).game.worm.dir = -1) := by
  have hlast : ∀ (B k : Nat), k < B → (∀ j, j < k → (game_step (ticks j w)).1 = true) →
      (game_step (ticks k w)).1 = false →
        main_loop B w = (ticks (k + 1) w, k) ∧ (ticks (k + 1) w).game.worm.dir = -1 := by
    intro B k hk hmove hhalt
    refine ⟨main_loop_first_halt B w k hk hmove hhalt, ?_⟩
    rw [ticks_succ_last]
    exact (game_step_false_iff _).mp hhalt
  refine ⟨main_loop_calls B w, main_loop_all_move B w, hlast B, ?_⟩
  intro h0 h1
  exact hlast 5 1 (by decide) (fun j hj => by
    have : j = 0 := by omega
    subst this
    exact h0) h1

/-- Witness of C13: on `halt2_cfg` the first tick moves and the second meets the canonical
state 4, which is new and has no rule; a budget of 5 reports 1 completed tick and heading `-1`. -/
theorem main_loop_counts_moves_witness :
    ((game_step (ticks 0 (init_world 1 halt2_cfg))).1 = true ∧
      (game_step (ticks 1 (init_world 1 halt2_cfg))).1 = false) ∧
    (main_loop 5 (init_world 1 halt2_cfg) = (ticks 2 (init_world 1 halt2_cfg), 1) ∧
      (ticks 2 (init_world 1 halt2_cfg)).game.worm.dir = -1) ∧
    print_state_list (ticks 2 (init_world 1 halt2_cfg)).auto = [0, 4] ∧
    (ticks 2 (init_world 1 halt2_cfg)).auto.rule.length = 1 :=
  ⟨by decide,
    (main_loop_counts_moves 5 (init_world 1 halt2_cfg)).2.2.2 (by decide) (by decide),
    by decide, by decide⟩

/-- The end-to-end scenario of the specification (empty 2 x 2 grid, rule list `[0]`, budget 5):
the first two ticks move and the third meets the first canonical state without a rule, so the
loop reports 2 completed ticks, with the visited-state list `[0, 1]` and the heading `-1`. -/
theorem empty_grid_scenario :
    main_loop 5 (init_world 1 empty2_cfg) = (ticks 3 (init_world 1 empty2_cfg), 2) ∧
    (ticks 3 (init_world 1 empty2_cfg)).game.worm = { row := 0, col := 0, dir := -1 } ∧
    print_state_list (ticks 3 (init_world 1 empty2_cfg)).auto = [0, 1] :=
  ⟨main_loop_first_halt 5 (init_world 1 empty2_cfg) 2 (by decide)
    (fun j hj => by
      have : j = 0 ∨ j = 1 := by omega
      rcases this with h | h <;> subst h <;> decide) (by decide), by decide, by decide⟩
/-! ## Shapes and halo writes -/

theorem same_shape_refl (a : ChessBoardRegion) : same_shape a a :=
  ⟨rfl, rfl, rfl, fun _ => rfl⟩

theorem same_shape_trans (a b c : ChessBoardRegion) (h1 : same_shape a b)
    (h2 : same_shape b c) : same_shape a c :=
  ⟨h2.1.trans h1.1, h2.2.1.trans h1.2.1, h2.2.2.1.trans h1.2.2.1,
    fun i => (h2.2.2.2 i).trans (h1.2.2.2 i)⟩

theorem halo_update_refl (a : ChessBoardRegion) : halo_update a a :=
  ⟨same_shape_refl a, fun _ _ _ _ => rfl⟩

theorem halo_update_trans (a b c : ChessBoardRegion) (h1 : halo_update a b)
    (h2 : halo_update b c) : halo_update a c :=
  ⟨same_shape_trans a b c h1.1 h2.1, fun r c hr hc => (h2.2 r c hr hc).trans (h1.2 r c hr hc)⟩

theorem set_cell_same_shape (reg : ChessBoardRegion) (r c : Int) (v : Nat) :
    same_shape reg (reg.set_cell r c v) := by
  refine ⟨rfl, rfl, by simp [ChessBoardRegion.set_cell], ?_⟩
  intro i
  simp only [ChessBoardRegion.set_cell, getD_set_eq]
  split_ifs with h
  · rw [List.length_set, h.1]
  · rfl

theorem set_cell_halo_update (reg : ChessBoardRegion) (r c : Int) (v : Nat)
    (hr : -1 ≤ r) (hc : -1 ≤ c) (hh : r = -1 ∨ c = -1) :
    halo_update reg (reg.set_cell r c v) := by
  refine ⟨set_cell_same_shape reg r c v, ?_⟩
  intro r' c' hr' hc'
  exact cell_set_cell_ne reg r c r' c' v hr hc (by omega) (by omega) (by omega)

theorem well_shaped_of_same_shape (a b : ChessBoardRegion) (h : same_shape a b)
    (ha : a.well_shaped) : b.well_shaped := by
  obtain ⟨h1, h2, h3, h4⟩ := h
  obtain ⟨a1, a2⟩ := ha
  refine ⟨by rw [h3, a1, h2], ?_⟩
  intro row hrow
  obtain ⟨n, hn, rfl⟩ := List.getElem_of_mem hrow
  have hb := h4 n
  rw [List.getD_eq_getElem?_getD, List.getD_eq_getElem?_getD, List.getElem?_eq_getElem hn,
    List.getElem?_eq_getElem (by omega)] at hb
  simp only [Option.getD_some] at hb
  rw [hb, h1]
  exact a2 _ (List.getElem_mem _)

theorem region_fits_of_same_shape (a b : ChessBoardRegion) (h w : Nat)
    (hab : same_shape a b) (ha : region_fits a h w) : region_fits b h w :=
  ⟨hab.2.1.trans ha.1, hab.1.trans ha.2.1, well_shaped_of_same_shape a b hab ha.2.2⟩

theorem fill_cells_rel (Rel : ChessBoardRegion → ChessBoardRegion → Prop)
    (hrefl : ∀ a, Rel a a) (htrans : ∀ a b c, Rel a b → Rel b c → Rel a c)
    (ps : List (Int × Int)) :
    ∀ (reg : ChessBoardRegion) (data : List Nat),
      (∀ p, p ∈ ps → ∀ (r : ChessBoardRegion) (v : Nat), Rel r (r.set_cell p.1 p.2 v)) →
      Rel reg (fill_cells reg ps data).1 := by
  induction ps with
  | nil => intro reg data _; rw [fill_cells]; exact hrefl reg
  | cons p ps ih =>
    intro reg data hset
    rw [fill_cells]
    exact htrans _ _ _ (hset p (List.mem_cons_self p ps) reg _)
      (ih _ _ (fun q hq => hset q (List.mem_cons_of_mem p hq)))

theorem regions_rel_refl (Rel : ChessBoardRegion → ChessBoardRegion → Prop)
    (hrefl : ∀ a, Rel a a) (regs : List ChessBoardRegion) : regions_rel Rel regs regs :=
  ⟨rfl, fun _ => hrefl _⟩

theorem regions_rel_trans (Rel : ChessBoardRegion → ChessBoardRegion → Prop)
    (htrans : ∀ a b c, Rel a b → Rel b c → Rel a c) (x y z : List ChessBoardRegion)
    (h1 : regions_rel Rel x y) (h2 : regions_rel Rel y z) : regions_rel Rel x z :=
  ⟨h2.1.trans h1.1, fun i => htrans _ _ _ (h1.2 i) (h2.2 i)⟩

theorem world_rel_refl (Rel : ChessBoardRegion → ChessBoardRegion → Prop)
    (hrefl : ∀ a, Rel a a) (ws : List (List ChessBoardRegion)) : world_rel Rel ws ws :=
  ⟨rfl, fun _ => regions_rel_refl Rel hrefl _⟩

theorem world_rel_trans (Rel : ChessBoardRegion → ChessBoardRegion → Prop)
    (htrans : ∀ a b c, Rel a b → Rel b c → Rel a c) (x y z : List (List ChessBoardRegion))
    (h1 : world_rel Rel x y) (h2 : world_rel Rel y z) : world_rel Rel x z :=
  ⟨h2.1.trans h1.1, fun k => regions_rel_trans Rel htrans _ _ _ (h1.2 k) (h2.2 k)⟩

theorem fill_regions_rel (Rel : ChessBoardRegion → ChessBoardRegion → Prop)
    (hrefl : ∀ a, Rel a a) (htrans : ∀ a b c, Rel a b → Rel b c → Rel a c)
    (pos : ChessBoardRegion → List (Int × Int))
    (hset : ∀ (reg : ChessBoardRegion) p, p ∈ pos reg →
      ∀ (r : ChessBoardRegion) (v : Nat), Rel r (r.set_cell p.1 p.2 v))
    (regs : List ChessBoardRegion) :
    ∀ data : List Nat, regions_rel Rel regs (fill_regions pos regs data) := by
  induction regs with
  | nil => intro data; rw [fill_regions]; exact regions_rel_refl Rel hrefl []
  | cons reg rest ih =>
    intro data
    rw [fill_regions]
    obtain ⟨h1, h2⟩ := ih (fill_cells reg (pos reg) data).2
    refine ⟨by simp [h1], ?_⟩
    intro i
    cases i with
    | zero =>
      simp only [List.getD_cons_zero]
      exact fill_cells_rel Rel hrefl htrans (pos reg) reg data (hset reg)
    | succ i =>
      simp only [List.getD_cons_succ]
      exact h2 i

theorem set_regions_rel (Rel : ChessBoardRegion → ChessBoardRegion → Prop)
    (hrefl : ∀ a, Rel a a) (regs : List ChessBoardRegion) (i : Nat) (x : ChessBoardRegion)
    (h : Rel (regs.getD i (ChessBoardRegion.new 0 0)) x) :
    regions_rel Rel regs (regs.set i x) := by
  refine ⟨by simp, ?_⟩
  intro j
  rw [getD_set_eq]
  split_ifs with hij
  · rw [← hij.1]; exact h
  · exact hrefl _

theorem set_world_rel (Rel : ChessBoardRegion → ChessBoardRegion → Prop)
    (hrefl : ∀ a, Rel a a) (ws : List (List ChessBoardRegion)) (k : Nat)
    (x : List ChessBoardRegion) (h : regions_rel Rel (ws.getD k []) x) :
    world_rel Rel ws (ws.set k x) := by
  refine ⟨by simp, ?_⟩
  intro j
  rw [getD_set_eq]
  split_ifs with hkj
  · rw [← hkj.1]; exact h
  · exact regions_rel_refl Rel hrefl _

theorem foldl_rel {σ α : Type} (R : σ → σ → Prop) (hrefl : ∀ a, R a a)
    (htrans : ∀ a b c, R a b → R b c → R a c) (f : σ → α → σ)
    (hf : ∀ s x, R s (f s x)) (l : List α) : ∀ s, R s (l.foldl f s) := by
  induction l with
  | nil => intro s; exact hrefl s
  | cons x l ih => intro s; exact htrans _ _ _ (hf s x) (ih (f s x))
theorem extract_received_vertical_rel (Rel : ChessBoardRegion → ChessBoardRegion → Prop)
    (hrefl : ∀ a, Rel a a) (htrans : ∀ a b c, Rel a b → Rel b c → Rel a c)
    (hhalo : ∀ (reg : ChessBoardRegion) (r c : Int) (v : Nat), -1 ≤ r → -1 ≤ c →
      (r = -1 ∨ c = -1) → Rel reg (reg.set_cell r c v))
    (data : List Nat) (regs : List ChessBoardRegion) :
    regions_rel Rel regs (extract_received_vertical data regs) := by
  unfold extract_received_vertical
  apply fill_regions_rel Rel hrefl htrans
  intro reg p hp r v
  obtain ⟨i, -, rfl⟩ := List.mem_map.mp hp
  exact hhalo r _ _ v (by omega) (by omega) (Or.inr rfl)

theorem extract_received_horizontal_rel (Rel : ChessBoardRegion → ChessBoardRegion → Prop)
    (hrefl : ∀ a, Rel a a) (htrans : ∀ a b c, Rel a b → Rel b c → Rel a c)
    (hhalo : ∀ (reg : ChessBoardRegion) (r c : Int) (v : Nat), -1 ≤ r → -1 ≤ c →
      (r = -1 ∨ c = -1) → Rel reg (reg.set_cell r c v))
    (data : List Nat) (regs : List ChessBoardRegion) :
    regions_rel Rel regs (extract_received_horizontal data regs) := by
  unfold extract_received_horizontal
  apply fill_regions_rel Rel hrefl htrans
  intro reg p hp r v
  obtain ⟨i, -, rfl⟩ := List.mem_map.mp hp
  exact hhalo r _ _ v (by omega) (by omega) (Or.inl rfl)

theorem ring_pass_rel (Rel : ChessBoardRegion → ChessBoardRegion → Prop)
    (hrefl : ∀ a, Rel a a) (htrans : ∀ a b c, Rel a b → Rel b c → Rel a c)
    (extract : List Nat → List ChessBoardRegion → List ChessBoardRegion)
    (data : List ChessBoardRegion → List Nat)
    (hex : ∀ msg regs, regions_rel Rel regs (extract msg regs))
    (order : List Nat) (regions : List (List ChessBoardRegion)) (msg0 : List Nat) :
    world_rel Rel regions
      ((order.foldl (ring_step extract data) (regions, msg0)).1.set 0
        (extract (order.foldl (ring_step extract data) (regions, msg0)).2
          ((order.foldl (ring_step extract data) (regions, msg0)).1.getD 0 []))) := by
  have hfold : world_rel Rel regions (order.foldl (ring_step extract data) (regions, msg0)).1 :=
    foldl_rel (fun s s' : List (List ChessBoardRegion) × List Nat => world_rel Rel s.1 s'.1)
      (fun a => world_rel_refl Rel hrefl a.1)
      (fun a b c => world_rel_trans Rel htrans a.1 b.1 c.1)
      (ring_step extract data)
      (fun s k => set_world_rel Rel hrefl s.1 k _ (hex _ _)) order (regions, msg0)
  exact world_rel_trans Rel htrans _ _ _ hfold (set_world_rel Rel hrefl _ 0 _ (hex _ _))

theorem send_inner_rel (Rel : ChessBoardRegion → ChessBoardRegion → Prop)
    (hrefl : ∀ a, Rel a a) (htrans : ∀ a b c, Rel a b → Rel b c → Rel a c)
    (hhalo : ∀ (reg : ChessBoardRegion) (r c : Int) (v : Nat), -1 ≤ r → -1 ≤ c →
      (r = -1 ∨ c = -1) → Rel reg (reg.set_cell r c v))
    (world_size : Nat) (regs : List ChessBoardRegion) :
    regions_rel Rel regs (send_inner world_size regs) := by
  unfold send_inner
  apply foldl_rel (regions_rel Rel) (regions_rel_refl Rel hrefl) (regions_rel_trans Rel htrans)
  intro s _
  apply foldl_rel (regions_rel Rel) (regions_rel_refl Rel hrefl) (regions_rel_trans Rel htrans)
  intro s' cur
  exact set_regions_rel Rel hrefl s' cur _
    (hhalo _ (-1) (-1) _ (by decide) (by decide) (Or.inl rfl))

theorem map_world_rel (Rel : ChessBoardRegion → ChessBoardRegion → Prop)
    (hrefl : ∀ a, Rel a a) (f : List ChessBoardRegion → List ChessBoardRegion)
    (hf : ∀ regs, regions_rel Rel regs (f regs)) (ws : List (List ChessBoardRegion)) :
    world_rel Rel ws (ws.map f) := by
  refine ⟨by simp, ?_⟩
  intro k
  by_cases hk : k < ws.length
  · have : (ws.map f).getD k [] = f (ws.getD k []) := by
      simp [List.getD_eq_getElem?_getD, List.getElem?_map, List.getElem?_eq_getElem hk]
    rw [this]
    exact hf _
  · have h1 : ws.getD k [] = [] := List.getD_eq_default _ _ (Nat.le_of_not_lt hk)
    have h2 : (ws.map f).getD k [] = [] :=
      List.getD_eq_default _ _ (by simpa using Nat.le_of_not_lt hk)
    rw [h1, h2]
    exact regions_rel_refl Rel hrefl []

theorem halo_exchange_rel (Rel : ChessBoardRegion → ChessBoardRegion → Prop)
    (hrefl : ∀ a, Rel a a) (htrans : ∀ a b c, Rel a b → Rel b c → Rel a c)
    (hhalo : ∀ (reg : ChessBoardRegion) (r c : Int) (v : Nat), -1 ≤ r → -1 ≤ c →
      (r = -1 ∨ c = -1) → Rel reg (reg.set_cell r c v))
    (world_size : Nat) (regions : List (List ChessBoardRegion)) :
    world_rel Rel regions (halo_exchange world_size regions) := by
  unfold halo_exchange
  have hv : world_rel Rel regions (send_state_to_neighbor_vertical world_size regions) := by
    unfold send_state_to_neighbor_vertical
    exact ring_pass_rel Rel hrefl htrans _ _
      (extract_received_vertical_rel Rel hrefl htrans hhalo) _ _ _
  have hh : world_rel Rel (send_state_to_neighbor_vertical world_size regions)
      (send_state_to_neighbor_horizontal world_size
        (send_state_to_neighbor_vertical world_size regions)) := by
    unfold send_state_to_neighbor_horizontal
    exact ring_pass_rel Rel hrefl htrans _ _
      (extract_received_horizontal_rel Rel hrefl htrans hhalo) _ _ _
  exact world_rel_trans Rel htrans _ _ _ (world_rel_trans Rel htrans _ _ _ hv hh)
    (map_world_rel Rel hrefl _ (send_inner_rel Rel hrefl htrans hhalo world_size) _)

theorem halo_exchange_halo_update (world_size : Nat) (regions : List (List ChessBoardRegion)) :
    world_rel halo_update regions (halo_exchange world_size regions) :=
  halo_exchange_rel halo_update halo_update_refl halo_update_trans set_cell_halo_update
    world_size regions
/-! ## One tick of a well-formed world -/

theorem game_step_eq (w : World) :
    game_step w
      = if (tick_led w).1.worm.dir = -1 then
          (false, { w with game := (tick_led w).1, regions := (after_exchange w).regions,
                           auto := (tick_led w).2 })
        else
          (true, { w with
            game := (tick_led w).1,
            regions := (List.range w.world_size).map fun rank =>
              mark_edge w.part w.world_size rank
                (mark_edge w.part w.world_size rank ((after_exchange w).regions.getD rank [])
                  (tick_led w).1.worm.row (tick_led w).1.worm.col
                  (opposite_dir (tick_led w).1.worm.dir.toNat))
                w.game.worm.row w.game.worm.col (tick_led w).1.worm.dir.toNat,
            auto := (tick_led w).2 }) := by
  rfl

theorem leader_step_sentinel (st : GameInfo × Automaton) : leader_step st (-1) = st := by
  unfold leader_step
  rw [if_pos rfl]

theorem foldl_leader_step_single (f : Nat → Int) (rank0 : Nat) (l : List Nat) (hnd : l.Nodup)
    (hf : ∀ r, r ∈ l → r ≠ rank0 → f r = -1) :
    ∀ st, (l.map f).foldl leader_step st
      = if rank0 ∈ l then leader_step st (f rank0) else st := by
  induction l with
  | nil => intro st; simp
  | cons a t ih =>
    intro st
    have hnd' := (List.nodup_cons.mp hnd).2
    have hat := (List.nodup_cons.mp hnd).1
    have ih' := ih hnd' (fun r hr hne => hf r (List.mem_cons_of_mem a hr) hne)
    rw [List.map_cons, List.foldl_cons, ih']
    by_cases ha : a = rank0
    · subst ha
      rw [if_neg hat, if_pos (List.mem_cons_self a t)]
    · have hfa := hf a (List.mem_cons_self a t) ha
      rw [hfa, leader_step_sentinel]
      by_cases hm : rank0 ∈ t
      · rw [if_pos hm, if_pos (List.mem_cons_of_mem a hm)]
      · have : rank0 ∉ a :: t := by
          intro h
          rcases List.mem_cons.mp h with h1 | h1
          · exact ha h1.symm
          · exact hm h1
        rw [if_neg hm, if_neg this]

theorem tick_led_eq (w : World) (hwf : w.wf) :
    ∃ rank i, rank < w.world_size ∧ i < w.world_size ∧
      owned_region w.part w.world_size rank w.game.worm.row w.game.worm.col = some i ∧
      sensed w rank
        = (((((after_exchange w).regions.getD rank []).getD i (ChessBoardRegion.new 0 0)).get_state
            (local_row w.part i w.game.worm.row)
            (local_col w.part w.world_size rank i w.game.worm.col) : Nat) : Int) ∧
      (∀ rank', rank' < w.world_size → rank' ≠ rank → sensed w rank' = -1) ∧
      tick_led w
        = (move_worm w.game
            (query_state w.auto (rotate_right (sensed w rank).toNat 6 w.game.worm.dir)).1,
           (query_state w.auto (rotate_right (sensed w rank).toNat 6 w.game.worm.dir)).2) := by
  obtain ⟨hN, hp, hr0, hr1, hc0, hc1, -, -, -, -, -⟩ := hwf
  obtain ⟨rank, i, hrank, hi, hown, -, -, -, -, hothers⟩ :=
    owner_scan w.game.height w.game.width w.world_size hN _ _ hr0 hr1 hc0 hc1
  rw [← hp] at hown hothers
  have hs : sensed w rank
      = (((((after_exchange w).regions.getD rank []).getD i
            (ChessBoardRegion.new 0 0)).get_state
          (local_row w.part i w.game.worm.row)
          (local_col w.part w.world_size rank i w.game.worm.col) : Nat) : Int) := by
    simp only [sensed, sense, hown]
  have hs' : ∀ rank', rank' < w.world_size → rank' ≠ rank → sensed w rank' = -1 := by
    intro rank' h1 h2
    simp only [sensed, sense, hothers rank' h1 h2]
  refine ⟨rank, i, hrank, hi, hown, hs, hs', ?_⟩
  unfold tick_led
  rw [foldl_leader_step_single (sensed w) rank _ (List.nodup_range _)
    (fun r hr hne => hs' r (List.mem_range.mp hr) hne), if_pos (List.mem_range.mpr hrank)]
  unfold leader_step
  rw [if_neg (by rw [hs]; omega)]
/-! ## C12: a tick without a decision -/

theorem move_worm_halt (game : GameInfo) :
    move_worm game (-1) = { game with worm := { game.worm with dir := -1 } } := by
  unfold move_worm
  rw [if_pos rfl]

/-- C12. In a tick of a well-formed world in which `query_state` yields no decision for the
state the leader receives (it returns `-1`: no rule for the rule id, or the chosen edge is already
used), `game_step` returns false (on every worker, the result being broadcast), the worm's row
and column are unchanged, the heading becomes `-1`, and no stored (non-halo) cell of any tile of
any worker changes; the grid, the partition and the number and dimensions of the tiles stay. -/
theorem halting_tick_makes_no_move (w : World) (hwf : w.wf)
    (hno : ∀ rank, rank < w.world_size → sensed w rank ≠ -1 →
      (query_state w.auto (rotate_right (sensed w rank).toNat 6 w.game.worm.dir)).1 = -1) :
    (game_step w).1 = false ∧
    (game_step w).2.game.worm.row = w.game.worm.row ∧
    (game_step w).2.game.worm.col = w.game.worm.col ∧
    (game_step w).2.game.worm.dir = -1 ∧
    (game_step w).2.game.height = w.game.height ∧
    (game_step w).2.game.width = w.game.width ∧
    (game_step w).2.part = w.part ∧
    (game_step w).2.world_size = w.world_size ∧
    world_rel halo_update w.regions (game_step w).2.regions ∧
    ∀ (rank i : Nat) (r c : Int), 0 ≤ r → 0 ≤ c →
      (((game_step w).2.regions.getD rank []).getD i (ChessBoardRegion.new 0 0)).cell r c
        = ((w.regions.getD rank []).getD i (ChessBoardRegion.new 0 0)).cell r c := by
  obtain ⟨rank, i, hrank, -, -, hs, -, hled⟩ := tick_led_eq w hwf
  have hne : sensed w rank ≠ -1 := by rw [hs]; omega
  rw [hno rank hrank hne, move_worm_halt] at hled
  have hdir : (tick_led w).1.worm.dir = -1 := by rw [hled]
  have hstep := game_step_eq w
  rw [if_pos hdir] at hstep
  have hrel : world_rel halo_update w.regions (after_exchange w).regions :=
    halo_exchange_halo_update w.world_size w.regions
  rw [hstep]
  refine ⟨rfl, ?_, ?_, hdir, ?_, ?_, rfl, rfl, hrel, ?_⟩
  · show (tick_led w).1.worm.row = _
    rw [hled]
  · show (tick_led w).1.worm.col = _
    rw [hled]
  · show (tick_led w).1.height = _
    rw [hled]
  · show (tick_led w).1.width = _
    rw [hled]
  · intro rank' i' r c hr hc
    exact ((hrel.2 rank').2 i').2 r c hr hc

/-- Witness of C12: the second tick on `halt2_cfg` meets a state without a rule. -/
theorem halting_tick_makes_no_move_witness :
    (game_step (ticks 1 (init_world 1 halt2_cfg))).1 = false ∧
    (game_step (ticks 1 (init_world 1 halt2_cfg))).2.game.worm
      = { row := 0, col := 1, dir := -1 } ∧
    (ticks 1 (init_world 1 halt2_cfg)).game.worm = { row := 0, col := 1, dir := 0 } :=
  ⟨(halting_tick_makes_no_move (ticks 1 (init_world 1 halt2_cfg)) (by decide)
      (by decide)).1, by decide, by decide⟩
/-! ## Marking an edge -/

theorem upd_state_eq (reg : ChessBoardRegion) (row col : Int) (dir : Nat) (hd : dir < 6) :
    reg.upd_state row col dir
      = reg.set_cell (edge_row row dir) (edge_col col dir)
          (reg.cell (edge_row row dir) (edge_col col dir) ||| (1 <<< edge_bit dir)) := by
  by_cases h3 : dir < 3
  · have hn : ¬ dir ≥ 3 := Nat.not_le.mpr h3
    simp only [ChessBoardRegion.upd_state, ChessBoardRegion.upd_state_fuel, if_neg hn,
      Option.getD_some, edge_row, edge_col, edge_bit, if_pos h3]
  · have hp : dir ≥ 3 := Nat.le_of_not_lt h3
    have ho : opposite_dir dir = dir - 3 := by
      interval_cases dir <;> first | omega | decide
    have hn : ¬ dir - 3 ≥ 3 := by omega
    simp only [ChessBoardRegion.upd_state, ChessBoardRegion.upd_state_fuel, if_pos hp, ho,
      if_neg hn, Option.getD_some, edge_row, edge_col, edge_bit, if_neg h3]

theorem upd_state_same_shape (reg : ChessBoardRegion) (row col : Int) (dir : Nat) :
    same_shape reg (reg.upd_state row col dir) := by
  by_cases h : dir ≥ 3
  · have h3 : ¬ opposite_dir dir ≥ 3 := Nat.not_le.mpr (opposite_dir_lt dir h)
    simp only [ChessBoardRegion.upd_state, ChessBoardRegion.upd_state_fuel, if_pos h, if_neg h3,
      Option.getD_some]
    exact set_cell_same_shape _ _ _ _
  · simp only [ChessBoardRegion.upd_state, ChessBoardRegion.upd_state_fuel, if_neg h,
      Option.getD_some]
    exact set_cell_same_shape _ _ _ _

theorem edge_target_bounds (row col : Int) (dir : Nat) (hd : dir < 6)
    (hr0 : 0 ≤ row) (hc0 : 0 ≤ col) :
    -1 ≤ edge_row row dir ∧ edge_row row dir ≤ row ∧
    -1 ≤ edge_col col dir ∧ edge_col col dir ≤ col := by
  unfold edge_row edge_col
  interval_cases dir <;> simp [dr, dc] <;> omega

theorem upd_state_sets (reg : ChessBoardRegion) (row col : Int) (dir : Nat)
    (hs : reg.well_shaped) (hr0 : 0 ≤ row) (hr1 : row < (reg.height : Int))
    (hc0 : 0 ≤ col) (hc1 : col < (reg.width : Int)) (hd : dir < 6) :
    GETBIT ((reg.upd_state row col dir).cell (edge_row row dir) (edge_col col dir))
      (edge_bit dir) = 1 := by
  obtain ⟨b1, b2, b3, b4⟩ := edge_target_bounds row col dir hd hr0 hc0
  rw [upd_state_eq reg row col dir hd,
    cell_set_cell_eq reg _ _ _ hs (by omega) (by omega)]
  exact GETBIT_or_bit_self _ _

theorem upd_state_cell_mono (reg : ChessBoardRegion) (row col : Int) (dir : Nat)
    (hs : reg.well_shaped) (hr0 : 0 ≤ row) (hr1 : row < (reg.height : Int))
    (hc0 : 0 ≤ col) (hc1 : col < (reg.width : Int)) (hd : dir < 6)
    (r c : Int) (k : Nat) (hr : -1 ≤ r) (hc : -1 ≤ c) (hbit : GETBIT (reg.cell r c) k = 1) :
    GETBIT ((reg.upd_state row col dir).cell r c) k = 1 := by
  obtain ⟨b1, b2, b3, b4⟩ := edge_target_bounds row col dir hd hr0 hc0
  rw [upd_state_eq reg row col dir hd]
  by_cases h : r = edge_row row dir ∧ c = edge_col col dir
  · rw [h.1, h.2, cell_set_cell_eq reg _ _ _ hs (by omega) (by omega)]
    rw [h.1, h.2] at hbit
    exact GETBIT_or_mono _ _ _ hbit
  · rw [cell_set_cell_ne reg _ _ r c _ b1 b3 hr hc h]
    exact hbit

theorem GETBIT_ite_or_mono (p : Prop) [Decidable p] (x y k : Nat) (h : GETBIT x k = 1) :
    GETBIT (if p then x ||| y else x) k = 1 := by
  split_ifs
  · exact GETBIT_or_mono x y k h
  · exact h

theorem get_state_has_bit (reg : ChessBoardRegion) (row col : Int) (dir : Nat) (hd : dir < 6)
    (hbit : GETBIT (reg.cell (edge_row row dir) (edge_col col dir)) (edge_bit dir) = 1) :
    GETBIT (reg.get_state row col) dir = 1 := by
  unfold ChessBoardRegion.get_state
  simp only
  by_cases h3 : dir < 3
  · simp only [edge_row, edge_col, edge_bit, if_pos h3] at hbit
    exact GETBIT_ite_or_mono _ _ _ _ (GETBIT_ite_or_mono _ _ _ _
      (GETBIT_ite_or_mono _ _ _ _ hbit))
  · have hcases : dir = 3 ∨ dir = 4 ∨ dir = 5 := by omega
    rcases hcases with h | h | h
    · subst h
      have hb : GETBIT (reg.cell row (col - 1)) 0 = 1 := by
        simpa [edge_row, edge_col, edge_bit, dr, dc, Int.sub_eq_add_neg] using hbit
      rw [if_pos (by rw [hb]; decide : GETBIT (reg.cell row (col - 1)) 0 ≠ 0)]
      exact GETBIT_ite_or_mono _ _ _ _ (GETBIT_ite_or_mono _ _ _ _ (GETBIT_or_bit_self _ _))
    · subst h
      have hb : GETBIT (reg.cell (row - 1) (col - 1)) 1 = 1 := by
        simpa [edge_row, edge_col, edge_bit, dr, dc, Int.sub_eq_add_neg] using hbit
      rw [if_pos (by rw [hb]; decide : GETBIT (reg.cell (row - 1) (col - 1)) 1 ≠ 0)]
      exact GETBIT_ite_or_mono _ _ _ _ (GETBIT_or_bit_self _ _)
    · subst h
      have hb : GETBIT (reg.cell (row - 1) col) 2 = 1 := by
        simpa [edge_row, edge_col, edge_bit, dr, dc, Int.sub_eq_add_neg] using hbit
      rw [if_pos (by rw [hb]; decide : GETBIT (reg.cell (row - 1) col) 2 ≠ 0)]
      exact GETBIT_or_bit_self _ _

theorem owned_region_some (p : Partition) (world_size rank : Nat) (row col : Int) (i : Nat)
    (h : owned_region p world_size rank row col = some i) :
    i < world_size ∧
    0 ≤ local_row p i row ∧ local_row p i row < (p.row_size.getD i 0 : Int) ∧
    0 ≤ local_col p world_size rank i col ∧
    local_col p world_size rank i col
      < (p.col_size.getD (col_band world_size rank i) 0 : Int) := by
  unfold owned_region at h
  have hm := List.mem_of_find?_eq_some h
  have hp := List.find?_some h
  simp only [owns_cell, Bool.and_eq_true, Bool.not_eq_true', decide_eq_false_iff_not, gt_iff_lt,
    not_lt, not_le] at hp
  refine ⟨List.mem_range.mp hm, ?_, ?_, ?_, ?_⟩ <;> simp only [local_row, local_col] <;> omega

theorem mark_edge_getD (p : Partition) (world_size rank : Nat) (regs : List ChessBoardRegion)
    (row col : Int) (dir i : Nat) (hi : i < regs.length) :
    (mark_edge p world_size rank regs row col dir).getD i (ChessBoardRegion.new 0 0)
      = if owned_region p world_size rank row col = some i then
          (regs.getD i (ChessBoardRegion.new 0 0)).upd_state (local_row p i row)
            (local_col p world_size rank i col) dir
        else regs.getD i (ChessBoardRegion.new 0 0) := by
  unfold mark_edge
  cases h : owned_region p world_size rank row col with
  | none => simp
  | some j =>
    simp only [getD_set_eq, Option.some.injEq]
    by_cases hji : j = i
    · subst hji
      rw [if_pos ⟨rfl, hi⟩, if_pos rfl]
    · rw [if_neg (fun h => hji h.1), if_neg hji]

theorem mark_edge_same_shape (p : Partition) (world_size rank : Nat)
    (regs : List ChessBoardRegion) (row col : Int) (dir : Nat) :
    regions_rel same_shape regs (mark_edge p world_size rank regs row col dir) := by
  unfold mark_edge
  cases h : owned_region p world_size rank row col with
  | none => exact regions_rel_refl same_shape same_shape_refl regs
  | some j =>
    show regions_rel same_shape regs (regs.set j _)
    exact set_regions_rel same_shape same_shape_refl regs j _ (upd_state_same_shape _ _ _ _)
theorem regions_rel_mono (R S : ChessBoardRegion → ChessBoardRegion → Prop)
    (hRS : ∀ a b, R a b → S a b) (x y : List ChessBoardRegion) (h : regions_rel R x y) :
    regions_rel S x y :=
  ⟨h.1, fun i => hRS _ _ (h.2 i)⟩

theorem regions_fit_of_rel (p : Partition) (world_size rank : Nat)
    (regs regs' : List ChessBoardRegion) (hfit : regions_fit p world_size rank regs)
    (hrel : regions_rel same_shape regs regs') : regions_fit p world_size rank regs' :=
  ⟨hrel.1.trans hfit.1,
    fun i hi => region_fits_of_same_shape _ _ _ _ (hrel.2 i) (hfit.2 i hi)⟩

theorem getD_map_range {α : Type} (n i : Nat) (f : Nat → α) (d : α) (hi : i < n) :
    ((List.range n).map f).getD i d = f i := by
  simp [List.getD_eq_getElem?_getD, List.getElem?_map, List.getElem?_range hi]

theorem two_marks_new (p : Partition) (world_size rank : Nat) (regs : List ChessBoardRegion)
    (hfit : regions_fit p world_size rank regs) (rowN colN rowO colO : Int) (e1 e2 i : Nat)
    (he1 : e1 < 6) (he2 : e2 < 6)
    (hown : owned_region p world_size rank rowN colN = some i) :
    GETBIT (((mark_edge p world_size rank (mark_edge p world_size rank regs rowN colN e1)
        rowO colO e2).getD i (ChessBoardRegion.new 0 0)).get_state (local_row p i rowN)
        (local_col p world_size rank i colN)) e1 = 1 := by
  obtain ⟨hi, l1, l2, l3, l4⟩ := owned_region_some p world_size rank rowN colN i hown
  obtain ⟨fh, fw, fs⟩ := hfit.2 i hi
  have hA := mark_edge_same_shape p world_size rank regs rowN colN e1
  have hAi := mark_edge_getD p world_size rank regs rowN colN e1 i (by rw [hfit.1]; exact hi)
  rw [if_pos hown] at hAi
  have hsh := upd_state_same_shape (regs.getD i (ChessBoardRegion.new 0 0))
    (local_row p i rowN) (local_col p world_size rank i colN) e1
  have hbit := upd_state_sets (regs.getD i (ChessBoardRegion.new 0 0))
    (local_row p i rowN) (local_col p world_size rank i colN) e1 fs l1 (by rw [fh]; exact l2)
    l3 (by rw [fw]; exact l4) he1
  obtain ⟨t1, -, t3, -⟩ := edge_target_bounds (local_row p i rowN)
    (local_col p world_size rank i colN) e1 he1 l1 l3
  apply get_state_has_bit _ _ _ _ he1
  rw [mark_edge_getD p world_size rank _ rowO colO e2 i (by rw [hA.1, hfit.1]; exact hi), hAi]
  split_ifs with hO
  · obtain ⟨-, o1, o2, o3, o4⟩ := owned_region_some p world_size rank rowO colO i hO
    exact upd_state_cell_mono _ _ _ _ (well_shaped_of_same_shape _ _ hsh fs) o1
      (by rw [hsh.2.1, fh]; exact o2) o3 (by rw [hsh.1, fw]; exact o4) he2 _ _ _ t1 t3 hbit
  · exact hbit

theorem two_marks_old (p : Partition) (world_size rank : Nat) (regs : List ChessBoardRegion)
    (hfit : regions_fit p world_size rank regs) (rowN colN rowO colO : Int) (e1 e2 i : Nat)
    (he2 : e2 < 6)
    (hown : owned_region p world_size rank rowO colO = some i) :
    GETBIT (((mark_edge p world_size rank (mark_edge p world_size rank regs rowN colN e1)
        rowO colO e2).getD i (ChessBoardRegion.new 0 0)).get_state (local_row p i rowO)
        (local_col p world_size rank i colO)) e2 = 1 := by
  obtain ⟨hi, l1, l2, l3, l4⟩ := owned_region_some p world_size rank rowO colO i hown
  have hA := mark_edge_same_shape p world_size rank regs rowN colN e1
  obtain ⟨fh, fw, fs⟩ := (regions_fit_of_rel p world_size rank _ _ hfit hA).2 i hi
  apply get_state_has_bit _ _ _ _ he2
  rw [mark_edge_getD p world_size rank _ rowO colO e2 i (by rw [hA.1, hfit.1]; exact hi),
    if_pos hown]
  exact upd_state_sets _ _ _ _ fs l1 (by rw [fh]; exact l2) l3 (by rw [fw]; exact l4) he2

theorem query_state_choice (a : Automaton) (x : Nat) (hrule : ∀ c, c ∈ a.rule → c < 6) :
    (query_state a x).1 = -1 ∨ ∃ c : Nat, c < 6 ∧ (query_state a x).1 = (c : Int) := by
  have hr : (learn_state a (reduced_state x)).rule = a.rule :=
    (learn_state_frame a (reduced_state x)).1
  unfold query_state
  simp only
  split_ifs with h1 h2
  · exact Or.inl rfl
  · exact Or.inl rfl
  · refine Or.inr ⟨_, ?_, rfl⟩
    rw [hr, List.getD_eq_getElem?_getD]
    cases hg : a.rule[((learn_state a (reduced_state x)).visited_state.getD
        (reduced_state x) (-1)).toNat]? with
    | none => simp
    | some c => simpa using hrule c (List.getElem?_mem hg)
theorem after_exchange_fit (w : World) (hwf : w.wf) (rank : Nat) (hrank : rank < w.world_size) :
    regions_fit w.part w.world_size rank ((after_exchange w).regions.getD rank []) :=
  regions_fit_of_rel _ _ _ _ _ (hwf.2.2.2.2.2.2.2.2.2.2 rank hrank)
    (regions_rel_mono halo_update same_shape (fun _ _ h => h.1) _ _
      ((halo_exchange_halo_update w.world_size w.regions).2 rank))

theorem moving_tick (w : World) (hwf : w.wf) (hmove : (game_step w).1 = true) :
    ∃ c : Nat, c < 6 ∧ (tick_led w).1 = move_worm w.game (c : Int) ∧
      (tick_led w).1.worm.dir ≠ -1 := by
  obtain ⟨rank, i, -, -, -, -, -, hled⟩ := tick_led_eq w hwf
  have hstep := game_step_eq w
  have hdir : (tick_led w).1.worm.dir ≠ -1 := by
    intro h
    rw [hstep, if_pos h] at hmove
    exact Bool.noConfusion hmove
  rcases query_state_choice w.auto
    (rotate_right (sensed w rank).toNat 6 w.game.worm.dir) hwf.2.2.2.2.2.2.2.2.1 with hq | hq
  · exfalso
    apply hdir
    rw [hled, hq, move_worm_halt]
  · obtain ⟨c, hc, hq⟩ := hq
    exact ⟨c, hc, by rw [hled, hq], hdir⟩

/-! ## C11: the traversed edge is marked on both endpoints -/

/-- C11. For every tick of a well-formed world in which the leader obtains a decision
(`game_step` returns true), after `game_step` and without any further exchange the traversed
edge is marked on both endpoints: the heading `newDir` is in `0..5`, the new cell is on the grid
and has an owner `(rank_new, i_new)` whose `get_state` at the new cell has the bit
`opposite_dir[newDir]` set, and the old cell has an owner `(rank_old, i_old)` whose `get_state`
at the old cell has the bit `newDir` set. -/
theorem moving_tick_marks_edge (w : World) (hwf : w.wf) (hmove : (game_step w).1 = true) :
    0 ≤ (game_step w).2.game.worm.dir ∧ (game_step w).2.game.worm.dir < 6 ∧
    ∃ rank_new i_new rank_old i_old,
      owned_region w.part w.world_size rank_new (game_step w).2.game.worm.row
        (game_step w).2.game.worm.col = some i_new ∧
      GETBIT ((((game_step w).2.regions.getD rank_new []).getD i_new
          (ChessBoardRegion.new 0 0)).get_state
          (local_row w.part i_new (game_step w).2.game.worm.row)
          (local_col w.part w.world_size rank_new i_new (game_step w).2.game.worm.col))
        (opposite_dir (game_step w).2.game.worm.dir.toNat) = 1 ∧
      owned_region w.part w.world_size rank_old w.game.worm.row w.game.worm.col
        = some i_old ∧
      GETBIT ((((game_step w).2.regions.getD rank_old []).getD i_old
          (ChessBoardRegion.new 0 0)).get_state
          (local_row w.part i_old w.game.worm.row)
          (local_col w.part w.world_size rank_old i_old w.game.worm.col))
        (game_step w).2.game.worm.dir.toNat = 1 := by
  obtain ⟨c, hc, hled, hdir⟩ := moving_tick w hwf hmove
  have hstep := game_step_eq w
  rw [if_neg hdir] at hstep
  have hfit := after_exchange_fit w hwf
  obtain ⟨hN, hp, hr0, hr1, hc0, hc1, hd0, hd1, -, -, -⟩ := hwf
  obtain ⟨m1, -, -, m4, m5, m6, m7, m8, m9⟩ := move_worm_spec w.game c (by omega) (by omega)
    hr0 hr1 hc0 hc1 hd0 hd1 hc
  rw [← hled] at m1 m4 m5 m6 m7 m8 m9
  have hnd0 : 0 ≤ (tick_led w).1.worm.dir := by rw [m1]; omega
  have hnd1 : (tick_led w).1.worm.dir < 6 := by rw [m1]; omega
  have hnat : (tick_led w).1.worm.dir.toNat < 6 := by omega
  have hopp : opposite_dir (tick_led w).1.worm.dir.toNat < 6 := by
    have : ∀ k : Nat, k < 6 → opposite_dir k < 6 := by decide
    exact this _ hnat
  obtain ⟨rn, iN, hrn, -, hownN, -, -, -, -, -⟩ :=
    owner_scan w.game.height w.game.width w.world_size hN _ _ m4 m5 m6 m7
  obtain ⟨ro, iO, hro, -, hownO, -, -, -, -, -⟩ :=
    owner_scan w.game.height w.game.width w.world_size hN _ _ hr0 hr1 hc0 hc1
  rw [← hp] at hownN hownO
  rw [hstep]
  refine ⟨hnd0, hnd1, rn, iN, ro, iO, hownN, ?_, hownO, ?_⟩
  · show GETBIT (((((List.range w.world_size).map _).getD rn []).getD iN
      (ChessBoardRegion.new 0 0)).get_state _ _) _ = 1
    rw [getD_map_range _ _ _ _ hrn]
    exact two_marks_new w.part w.world_size rn _ (hfit rn hrn) _ _ _ _ _ _ _
      hopp hnat hownN
  · show GETBIT (((((List.range w.world_size).map _).getD ro []).getD iO
      (ChessBoardRegion.new 0 0)).get_state _ _) _ = 1
    rw [getD_map_range _ _ _ _ hro]
    exact two_marks_old w.part w.world_size ro _ (hfit ro hro) _ _ _ _ _ _ _
      hnat hownO
/-- Witness of C11, the end-to-end scenario: empty 2 x 2 grid, one worker, worm on `(0, 0)`
heading 0, rule list `[0]`, no pre-seeded state, one tick: the worm is on `(0, 1)` heading 0,
the edge between `(0, 0)` and `(0, 1)` is set as seen from both cells (bit 0 at `(0, 0)`, bit 3
at `(0, 1)`), the visited-state count is 1 and one tick is completed. -/
theorem moving_tick_marks_edge_witness :
    (∃ rank_new i_new rank_old i_old,
      owned_region (init_world 1 empty2_cfg).part 1 rank_new
        (game_step (init_world 1 empty2_cfg)).2.game.worm.row
        (game_step (init_world 1 empty2_cfg)).2.game.worm.col = some i_new ∧
      GETBIT ((((game_step (init_world 1 empty2_cfg)).2.regions.getD rank_new []).getD i_new
          (ChessBoardRegion.new 0 0)).get_state
          (local_row (init_world 1 empty2_cfg).part i_new
            (game_step (init_world 1 empty2_cfg)).2.game.worm.row)
          (local_col (init_world 1 empty2_cfg).part 1 rank_new i_new
            (game_step (init_world 1 empty2_cfg)).2.game.worm.col))
        (opposite_dir (game_step (init_world 1 empty2_cfg)).2.game.worm.dir.toNat) = 1 ∧
      owned_region (init_world 1 empty2_cfg).part 1 rank_old
        (init_world 1 empty2_cfg).game.worm.row (init_world 1 empty2_cfg).game.worm.col
        = some i_old ∧
      GETBIT ((((game_step (init_world 1 empty2_cfg)).2.regions.getD rank_old []).getD i_old
          (ChessBoardRegion.new 0 0)).get_state
          (local_row (init_world 1 empty2_cfg).part i_old
            (init_world 1 empty2_cfg).game.worm.row)
          (local_col (init_world 1 empty2_cfg).part 1 rank_old i_old
            (init_world 1 empty2_cfg).game.worm.col))
        (game_step (init_world 1 empty2_cfg)).2.game.worm.dir.toNat = 1) ∧
    (game_step (init_world 1 empty2_cfg)).2.game.worm = { row := 0, col := 1, dir := 0 } ∧
    GETBIT ((((game_step (init_world 1 empty2_cfg)).2.regions.getD 0 []).getD 0
      (ChessBoardRegion.new 0 0)).get_state 0 0) 0 = 1 ∧
    GETBIT ((((game_step (init_world 1 empty2_cfg)).2.regions.getD 0 []).getD 0
      (ChessBoardRegion.new 0 0)).get_state 0 1) 3 = 1 ∧
    (game_step (init_world 1 empty2_cfg)).2.auto.total_visited_state = 1 ∧
    (main_loop 1 (init_world 1 empty2_cfg)).2 = 1 :=
  ⟨(moving_tick_marks_edge (init_world 1 empty2_cfg) (by decide) (by decide)).2.2,
    by decide, by decide, by decide, by decide, by decide⟩

/-! ## Well-formed worlds are the reachable ones -/

theorem new_well_shaped (h w : Nat) : (ChessBoardRegion.new h w).well_shaped := by
  refine ⟨by simp [ChessBoardRegion.new], ?_⟩
  intro row hrow
  simp only [ChessBoardRegion.new] at hrow
  rw [List.eq_of_mem_replicate hrow]
  simp [ChessBoardRegion.new]

theorem divide_regions_regions_fit (p : Partition) (world_size rank : Nat) :
    regions_fit p world_size rank (divide_regions_regions p world_size rank) := by
  refine ⟨by simp [divide_regions_regions], ?_⟩
  intro i hi
  unfold divide_regions_regions
  rw [getD_map_range _ _ _ _ hi]
  exact ⟨rfl, rfl, new_well_shaped _ _⟩

theorem divide_states_recv_same_shape (regs : List ChessBoardRegion) (data : List Nat) :
    regions_rel same_shape regs (divide_states_recv regs data) :=
  fill_regions_rel same_shape same_shape_refl same_shape_trans inner_cells
    (fun _ _ _ r v => set_cell_same_shape r _ _ v) regs data

theorem init_world_wf (world_size : Nat) (cfg : Config) (hN : 1 ≤ world_size)
    (hr0 : 0 ≤ cfg.worm.row) (hr1 : cfg.worm.row < (cfg.height : Int))
    (hc0 : 0 ≤ cfg.worm.col) (hc1 : cfg.worm.col < (cfg.width : Int))
    (hd0 : 0 ≤ cfg.worm.dir) (hd1 : cfg.worm.dir < 6)
    (hrule : ∀ c, c ∈ cfg.rule → c < 6) : (init_world world_size cfg).wf := by
  refine ⟨hN, rfl, hr0, hr1, hc0, hc1, hd0, hd1, hrule, by simp [init_world], ?_⟩
  intro rank hrank
  have hrank' : rank < world_size := hrank
  show regions_fit _ world_size rank (((List.range world_size).map _).getD rank [])
  rw [getD_map_range _ _ _ _ hrank']
  exact regions_fit_of_rel _ _ _ _ _ (divide_regions_regions_fit _ world_size rank)
    (divide_states_recv_same_shape _ _)

theorem game_step_wf (w : World) (hwf : w.wf) (hmove : (game_step w).1 = true) :
    (game_step w).2.wf := by
  obtain ⟨c, hc, hled, hdir⟩ := moving_tick w hwf hmove
  obtain ⟨rank, -, -, -, -, -, -, hled2⟩ := tick_led_eq w hwf
  have hstep := game_step_eq w
  rw [if_neg hdir] at hstep
  have hfit := after_exchange_fit w hwf
  obtain ⟨hN, hp, hr0, hr1, hc0, hc1, hd0, hd1, hrule, -, -⟩ := hwf
  obtain ⟨m1, -, -, m4, m5, m6, m7, m8, m9⟩ := move_worm_spec w.game c (by omega) (by omega)
    hr0 hr1 hc0 hc1 hd0 hd1 hc
  rw [← hled] at m1 m4 m5 m6 m7 m8 m9
  have hrule' : (tick_led w).2.rule = w.auto.rule := by
    rw [hled2, query_state_snd]
    exact (learn_state_frame _ _).1
  rw [hstep]
  refine ⟨hN, ?_, m4, ?_, m6, ?_, ?_, ?_, ?_, by simp, ?_⟩
  · show w.part = divide_regions_tables (tick_led w).1.height (tick_led w).1.width w.world_size
    rw [m8, m9]; exact hp
  · show (tick_led w).1.worm.row < ((tick_led w).1.height : Int)
    rw [m8]; exact m5
  · show (tick_led w).1.worm.col < ((tick_led w).1.width : Int)
    rw [m9]; exact m7
  · show 0 ≤ (tick_led w).1.worm.dir
    rw [m1]; omega
  · show (tick_led w).1.worm.dir < 6
    rw [m1]; omega
  · show ∀ c, c ∈ (tick_led w).2.rule → c < 6
    rw [hrule']; exact hrule
  · intro r hr
    show regions_fit w.part w.world_size r (((List.range w.world_size).map _).getD r [])
    rw [getD_map_range _ _ _ _ hr]
    exact regions_fit_of_rel _ _ _ _ _
      (regions_fit_of_rel _ _ _ _ _ (hfit r hr) (mark_edge_same_shape _ _ _ _ _ _ _))
      (mark_edge_same_shape _ _ _ _ _ _ _)
/-! ## Filling regions and reading them back -/

theorem fill_cells_snd (ps : List (Int × Int)) :
    ∀ (reg : ChessBoardRegion) (data : List Nat),
      (fill_cells reg ps data).2 = data.drop ps.length := by
  induction ps with
  | nil => intro reg data; rw [fill_cells]; rfl
  | cons p ps ih =>
    intro reg data
    rw [fill_cells, ih]
    cases data with
    | nil => simp
    | cons x t => simp

theorem fill_cells_cell_notin (ps : List (Int × Int)) :
    ∀ (reg : ChessBoardRegion) (data : List Nat) (r c : Int),
      (∀ p, p ∈ ps → -1 ≤ p.1 ∧ -1 ≤ p.2) → -1 ≤ r → -1 ≤ c → (r, c) ∉ ps →
      (fill_cells reg ps data).1.cell r c = reg.cell r c := by
  induction ps with
  | nil => intro reg data r c _ _ _ _; rw [fill_cells]
  | cons p ps ih =>
    intro reg data r c hps hr hc hnot
    rw [fill_cells, ih _ _ r c (fun q hq => hps q (List.mem_cons_of_mem p hq)) hr hc
      (fun h => hnot (List.mem_cons_of_mem p h))]
    have hp := hps p (List.mem_cons_self p ps)
    apply cell_set_cell_ne _ _ _ _ _ _ hp.1 hp.2 hr hc
    intro h
    apply hnot
    rw [h.1, h.2]
    exact List.mem_cons_self _ _

theorem fill_cells_read (ps : List (Int × Int)) :
    ∀ (reg : ChessBoardRegion) (data : List Nat), reg.well_shaped → ps.Nodup →
      (∀ p, p ∈ ps → -1 ≤ p.1 ∧ p.1 < (reg.height : Int) ∧ -1 ≤ p.2 ∧ p.2 < (reg.width : Int)) →
      ps.length ≤ data.length →
      ps.map (fun x => (fill_cells reg ps data).1.cell x.1 x.2) = data.take ps.length := by
  induction ps with
  | nil => intro reg data _ _ _ _; simp
  | cons p ps ih =>
    intro reg data hs hnd hps hlen
    obtain ⟨hp1, hp2, hp3, hp4⟩ := hps p (List.mem_cons_self p ps)
    have hnd' := (List.nodup_cons.mp hnd).2
    have hnot := (List.nodup_cons.mp hnd).1
    cases data with
    | nil => simp at hlen
    | cons x t =>
      have hlen' : ps.length ≤ t.length := by simpa using hlen
      have hps' : ∀ q, q ∈ ps → -1 ≤ q.1 ∧ -1 ≤ q.2 :=
        fun q hq => ⟨(hps q (List.mem_cons_of_mem p hq)).1,
          (hps q (List.mem_cons_of_mem p hq)).2.2.1⟩
      have hih := ih (reg.set_cell p.1 p.2 x) t (set_cell_well_shaped reg _ _ _ hs) hnd'
        (fun q hq => hps q (List.mem_cons_of_mem p hq)) hlen'
      rw [List.map_cons, fill_cells]
      simp only [List.headD_cons, List.tail_cons, List.length_cons, List.take_succ_cons]
      rw [hih, fill_cells_cell_notin ps _ t p.1 p.2 hps' hp1 hp3 hnot,
        cell_set_cell_eq reg p.1 p.2 x hs hp2 hp4]

theorem fill_cells_same_shape (reg : ChessBoardRegion) (ps : List (Int × Int))
    (data : List Nat) : same_shape reg (fill_cells reg ps data).1 :=
  fill_cells_rel same_shape same_shape_refl same_shape_trans ps reg data
    (fun _ _ r v => set_cell_same_shape r _ _ v)

theorem mem_inner_cells (reg : ChessBoardRegion) (p : Int × Int) (hp : p ∈ inner_cells reg) :
    0 ≤ p.1 ∧ p.1 < (reg.height : Int) ∧ 0 ≤ p.2 ∧ p.2 < (reg.width : Int) := by
  unfold inner_cells at hp
  obtain ⟨r, hr, hp⟩ := List.mem_flatMap.mp hp
  obtain ⟨c, hc, rfl⟩ := List.mem_map.mp hp
  have := List.mem_range.mp hr
  have := List.mem_range.mp hc
  simp only
  omega

theorem nodup_inner_cells (reg : ChessBoardRegion) : (inner_cells reg).Nodup := by
  unfold inner_cells
  rw [List.nodup_flatMap]
  constructor
  · intro r _
    apply List.Nodup.map _ (List.nodup_range _)
    intro a b h
    simp only [Prod.mk.injEq, true_and] at h
    exact_mod_cast h
  · apply (List.nodup_range _).pairwise_of_forall_ne
    intro a _ b _ hab
    simp only [Function.onFun]
    rw [List.disjoint_left]
    intro x hx hx'
    obtain ⟨c, -, rfl⟩ := List.mem_map.mp hx
    obtain ⟨c', -, h⟩ := List.mem_map.mp hx'
    simp only [Prod.mk.injEq] at h
    apply hab
    exact_mod_cast h.1.symm

theorem inner_cells_of_dims (a b : ChessBoardRegion) (hh : b.height = a.height)
    (hw : b.width = a.width) : inner_cells b = inner_cells a := by
  unfold inner_cells
  rw [hh, hw]

theorem combine_fill_regions (regs : List ChessBoardRegion) :
    ∀ data : List Nat, (∀ reg, reg ∈ regs → reg.well_shaped) →
      (regs.map fun reg => (inner_cells reg).length).sum ≤ data.length →
      combine_states_data (fill_regions inner_cells regs data)
        = data.take (regs.map fun reg => (inner_cells reg).length).sum := by
  induction regs with
  | nil => intro data _ _; simp [fill_regions, combine_states_data]
  | cons reg rest ih =>
    intro data hs hlen
    simp only [List.map_cons, List.sum_cons] at hlen ⊢
    have hsh := fill_cells_same_shape reg (inner_cells reg) data
    have hread := fill_cells_read (inner_cells reg) reg data
      (hs reg (List.mem_cons_self reg rest)) (nodup_inner_cells reg)
      (fun p hp => by
        have := mem_inner_cells reg p hp
        omega) (by omega)
    have hrest := ih (fill_cells reg (inner_cells reg) data).2
      (fun r hr => hs r (List.mem_cons_of_mem reg hr))
      (by rw [fill_cells_snd, List.length_drop]; omega)
    rw [fill_regions]
    unfold combine_states_data at hrest ⊢
    rw [List.flatMap_cons, hrest, inner_cells_of_dims reg _ hsh.2.1 hsh.1, hread,
      fill_cells_snd, List.take_add]
theorem divide_states_data_eq (p : Partition) (world_size other : Nat)
    (board : List (List Char)) :
    divide_states_data p world_size other board
      = (ascii_positions p world_size other).map fun pos => encode_cell board pos.1 pos.2 := by
  unfold divide_states_data ascii_positions
  simp only [List.map_flatMap, List.map_map]
  rfl

theorem length_inner_cells (reg : ChessBoardRegion) :
    (inner_cells reg).length = reg.height * reg.width := by
  unfold inner_cells
  rw [List.length_flatMap]
  have : (List.length ∘ fun r : Nat =>
      (List.range reg.width).map fun c : Nat => ((r : Int), (c : Int)))
      = fun _ => reg.width := by
    funext r
    simp
  rw [this]
  simp

theorem length_ascii_positions (p : Partition) (world_size other : Nat) :
    (ascii_positions p world_size other).length
      = ((List.range world_size).map fun i =>
          p.row_size.getD i 0 * p.col_size.getD (col_band world_size other i) 0).sum := by
  unfold ascii_positions
  rw [List.length_flatMap]
  congr 1
  apply List.map_congr_left
  intro i _
  simp only [Function.comp]
  rw [List.length_flatMap]
  have : (List.length ∘ fun r : Nat =>
      (List.range (p.col_size.getD (col_band world_size other i) 0)).map fun c : Nat =>
        ((r + p.row_pos.getD i 0) * 2, (c + p.col_pos.getD (col_band world_size other i) 0) * 2))
      = fun _ => p.col_size.getD (col_band world_size other i) 0 := by
    funext r
    simp
  rw [this]
  simp

theorem area_divide_regions_regions (p : Partition) (world_size other : Nat) :
    ((divide_regions_regions p world_size other).map fun reg => (inner_cells reg).length).sum
      = ((List.range world_size).map fun i =>
          p.row_size.getD i 0 * p.col_size.getD (col_band world_size other i) 0).sum := by
  unfold divide_regions_regions
  rw [List.map_map]
  congr 1
  apply List.map_congr_left
  intro i _
  simp only [Function.comp, length_inner_cells, ChessBoardRegion.new]

theorem combine_after_divide (world_size other : Nat) (cfg : Config)
    (hother : other < world_size) :
    combine_states_data ((init_world world_size cfg).regions.getD other [])
      = (ascii_positions (init_world world_size cfg).part world_size other).map
          fun pos => encode_cell cfg.board_ascii pos.1 pos.2 := by
  show combine_states_data (((List.range world_size).map _).getD other []) = _
  rw [getD_map_range _ _ _ _ hother]
  unfold divide_states_recv
  have hlen : ((divide_regions_regions (divide_regions_tables cfg.height cfg.width world_size)
      world_size other).map fun reg => (inner_cells reg).length).sum
      = (divide_states_data (divide_regions_tables cfg.height cfg.width world_size) world_size
          other cfg.board_ascii).length := by
    rw [area_divide_regions_regions, divide_states_data_eq, List.length_map,
      length_ascii_positions]
  rw [combine_fill_regions _ _ (fun reg hreg => by
      unfold divide_regions_regions at hreg
      obtain ⟨i, -, rfl⟩ := List.mem_map.mp hreg
      exact new_well_shaped _ _) (Nat.le_of_eq hlen), hlen, List.take_length,
    divide_states_data_eq]
  rfl
/-! ## The ASCII board -/

theorem board_char_set_eq (board : List (List Char)) (r c : Nat) (ch : Char)
    (hr : r < board.length) (hc : c < (board.getD r []).length) :
    board_char (set_board_char board r c ch) r c = ch := by
  simp only [board_char, set_board_char, getD_set_eq, hr, hc, and_self, if_true]

theorem board_char_set_ne (board : List (List Char)) (r c r' c' : Nat) (ch : Char)
    (hne : ¬ (r' = r ∧ c' = c)) :
    board_char (set_board_char board r c ch) r' c' = board_char board r' c' := by
  simp only [board_char, set_board_char, getD_set_eq]
  by_cases hrr : r = r' ∧ r < board.length
  · rw [if_pos hrr, getD_set_eq]
    have hcc : ¬ (c = c' ∧ c < (board.getD r []).length) := by
      intro h
      exact hne ⟨hrr.1.symm, h.1.symm⟩
    rw [if_neg hcc, hrr.1]
  · rw [if_neg hrr]

theorem set_board_char_ok (board : List (List Char)) (r c : Nat) (ch : Char)
    (height width : Nat) (h : board_ok board height width) :
    board_ok (set_board_char board r c ch) height width := by
  obtain ⟨h1, h2⟩ := h
  refine ⟨by simpa [set_board_char] using h1, ?_⟩
  intro i hi
  simp only [set_board_char, getD_set_eq]
  split_ifs with hri
  · rw [List.length_set, hri.1]; exact h2 i hi
  · exact h2 i hi

theorem write_cell_ok (board : List (List Char)) (a c cur height width : Nat)
    (h : board_ok board height width) : board_ok (write_cell board a c cur) height width := by
  unfold write_cell
  exact set_board_char_ok _ _ _ _ _ _ (set_board_char_ok _ _ _ _ _ _
    (set_board_char_ok _ _ _ _ _ _ (set_board_char_ok _ _ _ _ _ _ h)))

theorem write_cell_read (board : List (List Char)) (a c cur height width : Nat)
    (h : board_ok board height width) (ha : a + 1 < 2 * height) (hc : c + 1 < 2 * width) :
    board_char (write_cell board a c cur) a c = '*' ∧
    board_char (write_cell board a c cur) (a + 1) c = (if GETBIT cur 2 ≠ 0 then '|' else ' ') ∧
    board_char (write_cell board a c cur) (a + 1) (c + 1)
      = (if GETBIT cur 1 ≠ 0 then backslash else ' ') ∧
    board_char (write_cell board a c cur) a (c + 1) = (if GETBIT cur 0 ≠ 0 then '=' else ' ') := by
  have k1 := set_board_char_ok board a c '*' height width h
  have k2 := set_board_char_ok _ (a + 1) c (if GETBIT cur 2 ≠ 0 then '|' else ' ') height width k1
  have k3 := set_board_char_ok _ (a + 1) (c + 1) (if GETBIT cur 1 ≠ 0 then backslash else ' ')
    height width k2
  unfold write_cell
  refine ⟨?_, ?_, ?_, ?_⟩
  · rw [board_char_set_ne _ _ _ _ _ _ (by omega), board_char_set_ne _ _ _ _ _ _ (by omega),
      board_char_set_ne _ _ _ _ _ _ (by omega)]
    exact board_char_set_eq _ _ _ _ (by have := h.1; omega) (by have := h.2 a (by omega); omega)
  · rw [board_char_set_ne _ _ _ _ _ _ (by omega), board_char_set_ne _ _ _ _ _ _ (by omega)]
    exact board_char_set_eq _ _ _ _ (by have := k1.1; omega)
      (by have := k1.2 (a + 1) (by omega); omega)
  · rw [board_char_set_ne _ _ _ _ _ _ (by omega)]
    exact board_char_set_eq _ _ _ _ (by have := k2.1; omega)
      (by have := k2.2 (a + 1) (by omega); omega)
  · exact board_char_set_eq _ _ _ _ (by have := k3.1; omega)
      (by have := k3.2 a (by omega); omega)

theorem write_cell_other (board : List (List Char)) (a c cur x y : Nat)
    (h1 : ¬ (x = a ∧ y = c)) (h2 : ¬ (x = a + 1 ∧ y = c)) (h3 : ¬ (x = a + 1 ∧ y = c + 1))
    (h4 : ¬ (x = a ∧ y = c + 1)) :
    board_char (write_cell board a c cur) x y = board_char board x y := by
  unfold write_cell
  rw [board_char_set_ne _ _ _ _ _ _ h4, board_char_set_ne _ _ _ _ _ _ h3,
    board_char_set_ne _ _ _ _ _ _ h2, board_char_set_ne _ _ _ _ _ _ h1]

theorem encode_cell_bits (board : List (List Char)) (a c : Nat) :
    (GETBIT (encode_cell board a c) 0 ≠ 0 ↔ board_char board a (c + 1) = '=') ∧
    (GETBIT (encode_cell board a c) 1 ≠ 0 ↔ board_char board (a + 1) (c + 1) = backslash) ∧
    (GETBIT (encode_cell board a c) 2 ≠ 0 ↔ board_char board (a + 1) c = '|') ∧
    encode_cell board a c < 8 := by
  unfold encode_cell
  simp only
  by_cases h0 : board_char board a (c + 1) = '=' <;>
  by_cases h1 : board_char board (a + 1) (c + 1) = backslash <;>
  by_cases h2 : board_char board (a + 1) c = '|' <;>
  simp only [h0, h1, h2, if_true, if_false] <;> decide

theorem rewrite_cells_ok (board0 : List (List Char)) (height width : Nat)
    (l : List (Nat × Nat)) :
    ∀ board, board_ok board height width →
      board_ok (l.foldl (rewrite_cell board0) board) height width := by
  induction l with
  | nil => intro board h; exact h
  | cons p l ih =>
    intro board h
    exact ih _ (write_cell_ok _ _ _ _ _ _ h)

theorem rewrite_cells_untouched (board0 : List (List Char)) (l : List (Nat × Nat))
    (x y : Nat)
    (hl : ∀ p, p ∈ l → ¬ (x = p.1 ∧ y = p.2) ∧ ¬ (x = p.1 + 1 ∧ y = p.2) ∧
      ¬ (x = p.1 + 1 ∧ y = p.2 + 1) ∧ ¬ (x = p.1 ∧ y = p.2 + 1)) :
    ∀ board, board_char (l.foldl (rewrite_cell board0) board) x y = board_char board x y := by
  induction l with
  | nil => intro board; rfl
  | cons p l ih =>
    intro board
    obtain ⟨h1, h2, h3, h4⟩ := hl p (List.mem_cons_self p l)
    rw [List.foldl_cons, ih (fun q hq => hl q (List.mem_cons_of_mem p hq))]
    exact write_cell_other _ _ _ _ _ _ h1 h2 h3 h4

theorem rewrite_cells_read (board0 : List (List Char)) (height width : Nat)
    (l : List (Nat × Nat)) (r c : Nat) (hr : r < height) (hc : c < width)
    (hl : ∀ p, p ∈ l → ∃ r' c', p = (r' * 2, c' * 2)) :
    ∀ board, board_ok board height width → (r * 2, c * 2) ∈ l →
      board_char (l.foldl (rewrite_cell board0) board) (r * 2) (c * 2) = '*' ∧
      board_char (l.foldl (rewrite_cell board0) board) (r * 2 + 1) (c * 2)
        = (if GETBIT (encode_cell board0 (r * 2) (c * 2)) 2 ≠ 0 then '|' else ' ') ∧
      board_char (l.foldl (rewrite_cell board0) board) (r * 2 + 1) (c * 2 + 1)
        = (if GETBIT (encode_cell board0 (r * 2) (c * 2)) 1 ≠ 0 then backslash else ' ') ∧
      board_char (l.foldl (rewrite_cell board0) board) (r * 2) (c * 2 + 1)
        = (if GETBIT (encode_cell board0 (r * 2) (c * 2)) 0 ≠ 0 then '=' else ' ') := by
  induction l with
  | nil => intro board _ hm; simp at hm
  | cons p l ih =>
    intro board hok hm
    have hl' : ∀ q, q ∈ l → ∃ r' c', q = (r' * 2, c' * 2) :=
      fun q hq => hl q (List.mem_cons_of_mem p hq)
    rw [List.foldl_cons]
    by_cases hin : (r * 2, c * 2) ∈ l
    · exact ih hl' _ (write_cell_ok _ _ _ _ _ _ hok) hin
    · have hp : p = (r * 2, c * 2) := by
        rcases List.mem_cons.mp hm with h | h
        · exact h.symm
        · exact absurd h hin
      have hun : ∀ x y : Nat, (x = r * 2 ∨ x = r * 2 + 1) → (y = c * 2 ∨ y = c * 2 + 1) →
          ∀ q, q ∈ l → ¬ (x = q.1 ∧ y = q.2) ∧ ¬ (x = q.1 + 1 ∧ y = q.2) ∧
            ¬ (x = q.1 + 1 ∧ y = q.2 + 1) ∧ ¬ (x = q.1 ∧ y = q.2 + 1) := by
        intro x y hx hy q hq
        obtain ⟨r', c', rfl⟩ := hl' q hq
        have hne : ¬ (r' = r ∧ c' = c) := by
          intro h
          apply hin
          rw [← h.1, ← h.2]
          exact hq
        simp only
        omega
      rw [rewrite_cells_untouched board0 l _ _ (hun _ _ (Or.inl rfl) (Or.inl rfl)),
        rewrite_cells_untouched board0 l _ _ (hun _ _ (Or.inr rfl) (Or.inl rfl)),
        rewrite_cells_untouched board0 l _ _ (hun _ _ (Or.inr rfl) (Or.inr rfl)),
        rewrite_cells_untouched board0 l _ _ (hun _ _ (Or.inl rfl) (Or.inr rfl))]
      subst hp
      exact write_cell_read board (r * 2) (c * 2) _ height width hok (by omega) (by omega)
/-! ## The positions the leader visits -/

theorem foldl_flatMap_eq {α β γ : Type} (f : γ → β → γ) (g : α → List β) (l : List α) :
    ∀ b : γ, (l.flatMap g).foldl f b = l.foldl (fun b a => (g a).foldl f b) b := by
  induction l with
  | nil => intro b; rfl
  | cons a l ih =>
    intro b
    rw [List.flatMap_cons, List.foldl_append, List.foldl_cons, ih]

theorem mem_ascii_positions (p : Partition) (world_size other a b : Nat) :
    (a, b) ∈ ascii_positions p world_size other ↔
      ∃ reg, reg < world_size ∧ ∃ r, r < p.row_size.getD reg 0 ∧
        ∃ c, c < p.col_size.getD (col_band world_size other reg) 0 ∧
          a = (r + p.row_pos.getD reg 0) * 2 ∧
          b = (c + p.col_pos.getD (col_band world_size other reg) 0) * 2 := by
  unfold ascii_positions
  simp only [List.mem_flatMap, List.mem_map, List.mem_range, Prod.mk.injEq]
  constructor
  · rintro ⟨reg, hreg, r, hr, c, hc, h1, h2⟩
    exact ⟨reg, hreg, r, hr, c, hc, h1.symm, h2.symm⟩
  · rintro ⟨reg, hreg, r, hr, c, hc, h1, h2⟩
    exact ⟨reg, hreg, r, hr, c, hc, h1.symm, h2.symm⟩

theorem ascii_positions_even (p : Partition) (world_size other : Nat) (q : Nat × Nat)
    (hq : q ∈ ascii_positions p world_size other) : ∃ r c, q = (r * 2, c * 2) := by
  obtain ⟨a, b⟩ := q
  obtain ⟨reg, -, r, -, c, -, h1, h2⟩ := (mem_ascii_positions p world_size other a b).mp hq
  exact ⟨_, _, by rw [h1, h2]⟩

theorem cell_visited_by_one_worker (height width world_size r c : Nat) (hN : 1 ≤ world_size)
    (hr : r < height) (hc : c < width) :
    ∃ other, (other < world_size ∧
        (r * 2, c * 2) ∈ ascii_positions (divide_regions_tables height width world_size)
          world_size other) ∧
      ∀ other', other' < world_size ∧
        (r * 2, c * 2) ∈ ascii_positions (divide_regions_tables height width world_size)
          world_size other' → other' = other := by
  obtain ⟨-, -, -, -, hinv⟩ := tables_inv_final height width world_size
  obtain ⟨i, hi, hi1, hi2⟩ := exists_band height world_size r world_size
    (by rw [sum_band_size_all height world_size hN]; exact hr)
  obtain ⟨j, hj, hj1, hj2⟩ := exists_band width world_size c world_size
    (by rw [sum_band_size_all width world_size hN]; exact hc)
  obtain ⟨other, ⟨ho, hband⟩, huniq⟩ := col_band_unique_worker world_size i j hi hj
  refine ⟨other, ⟨ho, ?_⟩, ?_⟩
  · rw [mem_ascii_positions]
    obtain ⟨e1, -, e3, -⟩ := hinv i hi
    obtain ⟨-, e2, -, e4⟩ := hinv j hj
    refine ⟨i, hi, r - ((List.range i).map (band_size height world_size)).sum, ?_,
      c - ((List.range j).map (band_size width world_size)).sum, ?_, ?_, ?_⟩
    · rw [e1]; omega
    · rw [hband, e2]; omega
    · rw [e3]; omega
    · rw [hband, e4]; omega
  · rintro other' ⟨ho', hmem⟩
    rw [mem_ascii_positions] at hmem
    obtain ⟨reg, hreg, r', hr', c', hc', h1, h2⟩ := hmem
    have hjb : col_band world_size other' reg < world_size := Nat.mod_lt _ (by omega)
    obtain ⟨e1, -, e3, -⟩ := hinv reg hreg
    obtain ⟨-, e2, -, e4⟩ := hinv _ hjb
    rw [e1] at hr'
    rw [e2] at hc'
    rw [e3] at h1
    rw [e4] at h2
    have hreg_eq : reg = i :=
      band_unique height world_size r reg i (by omega) (by omega) hi1 hi2
    have hcol_eq : col_band world_size other' reg = j :=
      band_unique width world_size c _ j (by omega) (by omega) hj1 hj2
    subst hreg_eq
    exact huniq other' ⟨ho', hcol_eq⟩

theorem write_worker_after_divide (world_size other : Nat) (cfg : Config)
    (hother : other < world_size) (board : List (List Char)) :
    write_worker (init_world world_size cfg).part world_size board other
        (combine_states_data ((init_world world_size cfg).regions.getD other []))
      = (ascii_positions (divide_regions_tables cfg.height cfg.width world_size)
          world_size other).foldl (rewrite_cell cfg.board_ascii) board := by
  rw [combine_after_divide world_size other cfg hother]
  unfold write_worker
  show ((ascii_positions (divide_regions_tables cfg.height cfg.width world_size)
      world_size other).zip ((ascii_positions (divide_regions_tables cfg.height cfg.width
        world_size) world_size other).map _)).foldl _ board = _
  rw [← List.map_prod_left_eq_zip, List.foldl_map]
  rfl

theorem combine_states_init (world_size : Nat) (cfg : Config) :
    combine_states (init_world world_size cfg)
      = ((List.range world_size).flatMap
          (ascii_positions (divide_regions_tables cfg.height cfg.width world_size)
            world_size)).foldl (rewrite_cell cfg.board_ascii) cfg.board_ascii := by
  rw [foldl_flatMap_eq]
  unfold combine_states
  show (List.range world_size).foldl _ cfg.board_ascii = _
  apply List.foldl_ext
  intro b other hother
  exact write_worker_after_divide world_size other cfg (List.mem_range.mp hother) b
/-! ## C14: zero ticks -/

theorem encode_cell_congr (b1 b2 : List (List Char)) (a c : Nat)
    (h0 : board_char b1 a (c + 1) = '=' ↔ board_char b2 a (c + 1) = '=')
    (h1 : board_char b1 (a + 1) (c + 1) = backslash ↔ board_char b2 (a + 1) (c + 1) = backslash)
    (h2 : board_char b1 (a + 1) c = '|' ↔ board_char b2 (a + 1) c = '|') :
    encode_cell b1 a c = encode_cell b2 a c := by
  unfold encode_cell
  simp only [h0, h1, h2]

theorem marker_iff (bit : Nat) (m : Char) (hm : m ≠ ' ') :
    (if bit ≠ 0 then m else ' ') = m ↔ bit ≠ 0 := by
  constructor
  · intro e hb
    rw [if_neg (not_not.mpr hb)] at e
    exact hm e.symm
  · intro hb
    rw [if_pos hb]

/-- C14. For every `world_size ≥ 1` and every configuration whose board has the `2 * height`
rows of `2 * width` characters that `parse_state` reads, running zero ticks changes nothing:
the step count is `0`, the worm, the grid dimensions, the rule and the number of visited states
are those of the input; every worker returns in `combine_states` exactly the message it received
in `divide_states`; and for every global cell `(r, c)` exactly one worker visits the ASCII
position `(2r, 2c)`, and afterwards the board has `*` there, `=` to the right iff bit 0 of the
parsed cell is set, the backslash below right iff bit 1 is set and `|` below iff bit 2 is set,
so that parsing the written board again gives the same three bits. -/
theorem zero_ticks_identity (world_size : Nat) (cfg : Config) (hN : 1 ≤ world_size)
    (hboard : board_ok cfg.board_ascii cfg.height cfg.width) :
    (run world_size cfg 0).step_count = 0 ∧
    (run world_size cfg 0).game.worm = cfg.worm ∧
    (run world_size cfg 0).game.height = cfg.height ∧
    (run world_size cfg 0).game.width = cfg.width ∧
    (run world_size cfg 0).rule = cfg.rule ∧
    (run world_size cfg 0).total_visited_state = cfg.visited.length ∧
    (∀ other, other < world_size →
      combine_states_data ((init_world world_size cfg).regions.getD other [])
        = divide_states_data (init_world world_size cfg).part world_size other
            cfg.board_ascii) ∧
    ∀ r c, r < cfg.height → c < cfg.width →
      (∃ other, (other < world_size ∧
          (r * 2, c * 2) ∈ ascii_positions (init_world world_size cfg).part world_size other) ∧
        ∀ other', other' < world_size ∧
          (r * 2, c * 2) ∈ ascii_positions (init_world world_size cfg).part world_size other' →
          other' = other) ∧
      board_char (run world_size cfg 0).board_ascii (r * 2) (c * 2) = '*' ∧
      (board_char (run world_size cfg 0).board_ascii (r * 2) (c * 2 + 1) = '=' ↔
        GETBIT (encode_cell cfg.board_ascii (r * 2) (c * 2)) 0 ≠ 0) ∧
      (board_char (run world_size cfg 0).board_ascii (r * 2 + 1) (c * 2 + 1) = backslash ↔
        GETBIT (encode_cell cfg.board_ascii (r * 2) (c * 2)) 1 ≠ 0) ∧
      (board_char (run world_size cfg 0).board_ascii (r * 2 + 1) (c * 2) = '|' ↔
        GETBIT (encode_cell cfg.board_ascii (r * 2) (c * 2)) 2 ≠ 0) ∧
      encode_cell (run world_size cfg 0).board_ascii (r * 2) (c * 2)
        = encode_cell cfg.board_ascii (r * 2) (c * 2) := by
  refine ⟨rfl, rfl, rfl, rfl, rfl, rfl, ?_, ?_⟩
  · intro other hother
    rw [combine_after_divide world_size other cfg hother, divide_states_data_eq]
  · intro r c hr hc
    have hone := cell_visited_by_one_worker cfg.height cfg.width world_size r c hN hr hc
    refine ⟨hone, ?_⟩
    obtain ⟨other, ⟨ho, hmem⟩, -⟩ := hone
    have hout : (run world_size cfg 0).board_ascii
        = ((List.range world_size).flatMap
            (ascii_positions (divide_regions_tables cfg.height cfg.width world_size)
              world_size)).foldl (rewrite_cell cfg.board_ascii) cfg.board_ascii :=
      combine_states_init world_size cfg
    rw [hout]
    obtain ⟨k0, k2, k1, kk0⟩ := rewrite_cells_read cfg.board_ascii cfg.height cfg.width
      ((List.range world_size).flatMap
        (ascii_positions (divide_regions_tables cfg.height cfg.width world_size) world_size))
      r c hr hc
      (fun q hq => by
        obtain ⟨o, -, hq⟩ := List.mem_flatMap.mp hq
        exact ascii_positions_even _ _ _ q hq)
      cfg.board_ascii hboard
      (List.mem_flatMap.mpr ⟨other, List.mem_range.mpr ho, hmem⟩)
    obtain ⟨b0, b1, b2, -⟩ := encode_cell_bits cfg.board_ascii (r * 2) (c * 2)
    have e0 := marker_iff (GETBIT (encode_cell cfg.board_ascii (r * 2) (c * 2)) 0) '='
      (by decide)
    have e1 := marker_iff (GETBIT (encode_cell cfg.board_ascii (r * 2) (c * 2)) 1) backslash
      (by decide)
    have e2 := marker_iff (GETBIT (encode_cell cfg.board_ascii (r * 2) (c * 2)) 2) '|'
      (by decide)
    refine ⟨k0, ?_, ?_, ?_, ?_⟩
    · rw [kk0]; exact e0
    · rw [k1]; exact e1
    · rw [k2]; exact e2
    · apply encode_cell_congr
      · rw [kk0]; exact e0.trans b0
      · rw [k1]; exact e1.trans b1
      · rw [k2]; exact e2.trans b2

theorem zero_ticks_identity_witness :
    (1 ≤ 2 ∧ board_ok (dash_cfg '=').board_ascii (dash_cfg '=').height (dash_cfg '=').width) ∧
    (run 2 (dash_cfg '=') 0).step_count = 0 ∧
    (run 2 (dash_cfg '=') 0).game.worm = (dash_cfg '=').worm ∧
    combine_states_data ((init_world 2 (dash_cfg '=')).regions.getD 1 [])
      = divide_states_data (init_world 2 (dash_cfg '=')).part 2 1 (dash_cfg '=').board_ascii ∧
    board_char (run 2 (dash_cfg '=') 0).board_ascii 0 0 = '*' :=
  have h := zero_ticks_identity 2 (dash_cfg '=') (by decide) (by decide)
  ⟨⟨by decide, by decide⟩, h.1, h.2.1, h.2.2.2.2.2.2.1 1 (by decide),
    (h.2.2.2.2.2.2.2 0 0 (by decide) (by decide)).2.1⟩
/-! ## C20: the order of the blocking calls -/

theorem succ_mod_eq (n r : Nat) (h : r < n) : (r + 1) % n = if r + 1 = n then 0 else r + 1 := by
  split_ifs with h1
  · rw [h1, Nat.mod_self]
  · exact Nat.mod_eq_of_lt (by omega)

theorem pred_mod_eq (n r : Nat) (h : r < n) :
    (r + n - 1) % n = if r = 0 then n - 1 else r - 1 := by
  split_ifs with h1
  · subst h1
    rw [Nat.zero_add]
    exact Nat.mod_eq_of_lt (by omega)
  · have : r + n - 1 = (r - 1) + n := by omega
    rw [this, Nat.add_mod_right]
    exact Nat.mod_eq_of_lt (by omega)

theorem pass_calls_zero (world_size : Nat) (hN : 2 ≤ world_size) :
    pass_calls world_size 0
      = [Call.send 1, Call.recv (world_size - 1), Call.send (world_size - 1), Call.recv 1] := by
  have h1 : 1 % world_size = 1 := Nat.mod_eq_of_lt (by omega)
  have h2 : (world_size - 1 + world_size) % world_size = world_size - 1 := by
    rw [Nat.add_mod_right]
    exact Nat.mod_eq_of_lt (by omega)
  have h3 : (0 + world_size - 1) % world_size = world_size - 1 := by
    rw [Nat.zero_add]
    exact Nat.mod_eq_of_lt (by omega)
  simp only [pass_calls, vertical_calls, horizontal_calls, ne_eq, not_true_eq_false, if_false,
    if_true, Nat.zero_add, h1, h2, List.nil_append, List.cons_append, List.singleton_append]
  rw [Nat.zero_add] at h3
  rw [h3]

theorem pass_calls_pos (world_size r : Nat) (hr0 : 0 < r) (hr : r < world_size) :
    pass_calls world_size r
      = [Call.recv (r - 1), Call.send ((r + 1) % world_size),
          Call.recv ((r + 1) % world_size), Call.send (r - 1)] := by
  have h0 : r ≠ 0 := by omega
  have h3 : (r + world_size - 1) % world_size = r - 1 := by
    rw [pred_mod_eq world_size r hr, if_neg h0]
  simp only [pass_calls, vertical_calls, horizontal_calls, ne_eq, h0, not_false_eq_true, if_true,
    if_false, h3, List.nil_append, List.cons_append, List.singleton_append, List.append_nil]
theorem pass_calls_pos_cases (world_size r : Nat) (hr0 : 0 < r) (hr : r < world_size) :
    pass_calls world_size r
      = [Call.recv (r - 1), Call.send (if r + 1 = world_size then 0 else r + 1),
          Call.recv (if r + 1 = world_size then 0 else r + 1), Call.send (r - 1)] := by
  rw [pass_calls_pos world_size r hr0 hr, succ_mod_eq world_size r hr]

theorem length_pass_calls (world_size r : Nat) : (pass_calls world_size r).length = 4 := by
  by_cases h : r = 0
  · subst h
    simp [pass_calls, vertical_calls, horizontal_calls]
  · simp [pass_calls, vertical_calls, horizontal_calls, h]

theorem progress_worker_zero (world_size k : Nat) (hN : 2 ≤ world_size) :
    progress world_size k 0
      = if k = 0 then 0 else if k < world_size then 1 else if k = world_size then 2
        else if k < 2 * world_size then 3 else 4 := by
  unfold progress
  rw [if_pos rfl]
  by_cases h1 : k = 0
  · rw [if_pos h1, if_neg (by omega), if_neg (by omega), if_neg (by omega), if_neg (by omega)]
  · rw [if_neg h1, if_pos (by omega)]
    by_cases h2 : k < world_size
    · rw [if_pos h2, if_neg (by omega), if_neg (by omega), if_neg (by omega)]
    · rw [if_neg h2, if_pos (by omega)]
      by_cases h3 : k = world_size
      · rw [if_pos h3, if_neg (by omega), if_neg (by omega)]
      · rw [if_neg h3, if_pos (by omega)]
        by_cases h4 : k < 2 * world_size
        · rw [if_pos h4, if_neg (by omega)]
        · rw [if_neg h4, if_pos (by omega)]

theorem progress_worker_pos (world_size k r : Nat) (hr0 : 0 < r) (hr : r < world_size) :
    progress world_size k r
      = if k < r then 0 else if k = r then 1 else if k < 2 * world_size - r then 2
        else if k = 2 * world_size - r then 3 else 4 := by
  unfold progress
  rw [if_neg (by omega)]
  by_cases h1 : k < r
  · rw [if_pos h1, if_neg (by omega), if_neg (by omega), if_neg (by omega), if_neg (by omega)]
  · rw [if_neg h1, if_pos (by omega)]
    by_cases h2 : k = r
    · rw [if_pos h2, if_neg (by omega), if_neg (by omega), if_neg (by omega)]
    · rw [if_neg h2, if_pos (by omega)]
      by_cases h3 : k < 2 * world_size - r
      · rw [if_pos h3, if_neg (by omega), if_neg (by omega)]
      · rw [if_neg h3, if_pos (by omega)]
        by_cases h4 : k = 2 * world_size - r
        · rw [if_pos h4, if_neg (by omega)]
        · rw [if_neg h4, if_pos (by omega)]

theorem progress_le (world_size k r : Nat) : progress world_size k r ≤ 4 := by
  unfold progress
  split_ifs <;> omega

theorem progress_zero (world_size r : Nat) (hr : r < world_size) :
    progress world_size 0 r = 0 := by
  unfold progress
  split_ifs <;> omega

theorem progress_final (world_size r : Nat) (hr : r < world_size) :
    progress world_size (2 * world_size) r = 4 := by
  unfold progress
  split_ifs <;> omega
theorem getElem_four {α : Type} (a b c d : α) (i : Nat) :
    [a, b, c, d][i]? = if i = 0 then some a else if i = 1 then some b else if i = 2 then some c
      else if i = 3 then some d else none := by
  match i with
  | 0 => rfl
  | 1 => rfl
  | 2 => rfl
  | 3 => rfl
  | n + 4 => simp

theorem call_worker_zero (world_size k : Nat) (hN : 2 ≤ world_size) (pc : Nat → Nat)
    (hpc : pc 0 = progress world_size k 0) :
    next_call world_size pc 0
      = if k = 0 then some (Call.send 1)
        else if k < world_size then some (Call.recv (world_size - 1))
        else if k = world_size then some (Call.send (world_size - 1))
        else if k < 2 * world_size then some (Call.recv 1) else none := by
  unfold next_call
  rw [pass_calls_zero world_size hN, getElem_four, hpc, progress_worker_zero world_size k hN]
  by_cases h1 : k = 0
  · rw [if_pos h1, if_pos h1, if_pos rfl]
  · rw [if_neg h1, if_neg h1]
    by_cases h2 : k < world_size
    · rw [if_pos h2, if_pos h2]
      rfl
    · rw [if_neg h2, if_neg h2]
      by_cases h3 : k = world_size
      · rw [if_pos h3, if_pos h3]
        rfl
      · rw [if_neg h3, if_neg h3]
        by_cases h4 : k < 2 * world_size
        · rw [if_pos h4, if_pos h4]
          rfl
        · rw [if_neg h4, if_neg h4]
          rfl

theorem call_worker_pos (world_size k r : Nat) (hr0 : 0 < r) (hr : r < world_size)
    (pc : Nat → Nat) (hpc : pc r = progress world_size k r) :
    next_call world_size pc r
      = if k < r then some (Call.recv (r - 1))
        else if k = r then some (Call.send (if r + 1 = world_size then 0 else r + 1))
        else if k < 2 * world_size - r then
          some (Call.recv (if r + 1 = world_size then 0 else r + 1))
        else if k = 2 * world_size - r then some (Call.send (r - 1)) else none := by
  unfold next_call
  rw [pass_calls_pos_cases world_size r hr0 hr, getElem_four, hpc,
    progress_worker_pos world_size k r hr0 hr]
  by_cases h1 : k < r
  · rw [if_pos h1, if_pos h1]
    rfl
  · rw [if_neg h1, if_neg h1]
    by_cases h2 : k = r
    · rw [if_pos h2, if_pos h2]
      rfl
    · rw [if_neg h2, if_neg h2]
      by_cases h3 : k < 2 * world_size - r
      · rw [if_pos h3, if_pos h3]
        rfl
      · rw [if_neg h3, if_neg h3]
        by_cases h4 : k = 2 * world_size - r
        · rw [if_pos h4, if_pos h4]
          rfl
        · rw [if_neg h4, if_neg h4]
          rfl

theorem sender_receiver_cases (world_size k : Nat) (hk : k < 2 * world_size) :
    (k + 1 < world_size ∧ sender world_size k = k ∧ receiver world_size k = k + 1) ∨
    (k + 1 = world_size ∧ sender world_size k = k ∧ receiver world_size k = 0) ∨
    (k = world_size ∧ sender world_size k = 0 ∧ receiver world_size k = world_size - 1) ∨
    (world_size < k ∧ sender world_size k = 2 * world_size - k ∧
      receiver world_size k = 2 * world_size - k - 1) := by
  unfold sender receiver
  by_cases h1 : k + 1 < world_size
  · left
    exact ⟨h1, by rw [if_pos (by omega)], by rw [if_pos h1]⟩
  · by_cases h2 : k + 1 = world_size
    · right; left
      exact ⟨h2, by rw [if_pos (by omega)], by rw [if_neg h1, if_pos (by omega)]⟩
    · by_cases h3 : k = world_size
      · right; right; left
        exact ⟨h3, by rw [if_neg (by omega), if_pos h3],
          by rw [if_neg h1, if_neg (by omega)]; omega⟩
      · right; right; right
        exact ⟨by omega, by rw [if_neg (by omega), if_neg h3],
          by rw [if_neg h1, if_neg (by omega)]⟩

theorem progress_zero_cases (world_size k : Nat) (hN : 2 ≤ world_size) :
    (k = 0 ∧ progress world_size k 0 = 0) ∨
    (0 < k ∧ k < world_size ∧ progress world_size k 0 = 1) ∨
    (k = world_size ∧ progress world_size k 0 = 2) ∨
    (world_size < k ∧ k < 2 * world_size ∧ progress world_size k 0 = 3) ∨
    (2 * world_size ≤ k ∧ progress world_size k 0 = 4) := by
  rw [progress_worker_zero world_size k hN]
  by_cases h1 : k = 0
  · exact Or.inl ⟨h1, if_pos h1⟩
  · rw [if_neg h1]
    by_cases h2 : k < world_size
    · exact Or.inr (Or.inl ⟨by omega, h2, if_pos h2⟩)
    · rw [if_neg h2]
      by_cases h3 : k = world_size
      · exact Or.inr (Or.inr (Or.inl ⟨h3, if_pos h3⟩))
      · rw [if_neg h3]
        by_cases h4 : k < 2 * world_size
        · exact Or.inr (Or.inr (Or.inr (Or.inl ⟨by omega, h4, if_pos h4⟩)))
        · exact Or.inr (Or.inr (Or.inr (Or.inr ⟨by omega, if_neg h4⟩)))

theorem progress_pos_cases (world_size k r : Nat) (hr0 : 0 < r) (hr : r < world_size) :
    (k < r ∧ progress world_size k r = 0) ∨
    (k = r ∧ progress world_size k r = 1) ∨
    (r < k ∧ k < 2 * world_size - r ∧ progress world_size k r = 2) ∨
    (k = 2 * world_size - r ∧ progress world_size k r = 3) ∨
    (2 * world_size - r < k ∧ progress world_size k r = 4) := by
  rw [progress_worker_pos world_size k r hr0 hr]
  by_cases h1 : k < r
  · exact Or.inl ⟨h1, if_pos h1⟩
  · rw [if_neg h1]
    by_cases h2 : k = r
    · exact Or.inr (Or.inl ⟨h2, if_pos h2⟩)
    · rw [if_neg h2]
      by_cases h3 : k < 2 * world_size - r
      · exact Or.inr (Or.inr (Or.inl ⟨by omega, h3, if_pos h3⟩))
      · rw [if_neg h3]
        by_cases h4 : k = 2 * world_size - r
        · exact Or.inr (Or.inr (Or.inr (Or.inl ⟨h4, if_pos h4⟩)))
        · exact Or.inr (Or.inr (Or.inr (Or.inr ⟨by omega, if_neg h4⟩)))

theorem progress_succ_zero (world_size k : Nat) (hN : 2 ≤ world_size)
    (hk : k < 2 * world_size) :
    progress world_size (k + 1) 0
      = progress world_size k 0 + (if 0 = sender world_size k then 1 else 0)
          + (if 0 = receiver world_size k then 1 else 0) := by
  rcases progress_zero_cases world_size k hN with ⟨h1, hp⟩ | ⟨h1, h2, hp⟩ | ⟨h1, hp⟩ |
    ⟨h1, h2, hp⟩ | ⟨h1, hp⟩ <;>
  rcases progress_zero_cases world_size (k + 1) hN with ⟨g1, gp⟩ | ⟨g1, g2, gp⟩ | ⟨g1, gp⟩ |
    ⟨g1, g2, gp⟩ | ⟨g1, gp⟩ <;>
  first
  | omega
  | (rw [hp, gp]
     rcases sender_receiver_cases world_size k hk with ⟨h, hs, hd⟩ | ⟨h, hs, hd⟩ |
       ⟨h, hs, hd⟩ | ⟨h, hs, hd⟩ <;>
     first
     | omega
     | (rw [hs, hd]; split_ifs <;> first | omega | contradiction))

theorem progress_succ_pos (world_size k r : Nat) (hr0 : 0 < r) (hr : r < world_size)
    (hk : k < 2 * world_size) :
    progress world_size (k + 1) r
      = progress world_size k r + (if r = sender world_size k then 1 else 0)
          + (if r = receiver world_size k then 1 else 0) := by
  rcases progress_pos_cases world_size k r hr0 hr with ⟨h1, hp⟩ | ⟨h1, hp⟩ | ⟨h1, h2, hp⟩ |
    ⟨h1, hp⟩ | ⟨h1, hp⟩ <;>
  rcases progress_pos_cases world_size (k + 1) r hr0 hr with ⟨g1, gp⟩ | ⟨g1, gp⟩ |
    ⟨g1, g2, gp⟩ | ⟨g1, gp⟩ | ⟨g1, gp⟩ <;>
  first
  | omega
  | (rw [hp, gp]
     rcases sender_receiver_cases world_size k hk with ⟨h, hs, hd⟩ | ⟨h, hs, hd⟩ |
       ⟨h, hs, hd⟩ | ⟨h, hs, hd⟩ <;>
     first
     | omega
     | (rw [hs, hd]; split_ifs <;> omega))
theorem sender_lt (world_size k : Nat) (hN : 2 ≤ world_size) (hk : k < 2 * world_size) :
    sender world_size k < world_size := by
  rcases sender_receiver_cases world_size k hk with ⟨g, gs, gd⟩ | ⟨g, gs, gd⟩ |
    ⟨g, gs, gd⟩ | ⟨g, gs, gd⟩ <;> omega

theorem receiver_lt (world_size k : Nat) (hN : 2 ≤ world_size) (hk : k < 2 * world_size) :
    receiver world_size k < world_size := by
  rcases sender_receiver_cases world_size k hk with ⟨g, gs, gd⟩ | ⟨g, gs, gd⟩ |
    ⟨g, gs, gd⟩ | ⟨g, gs, gd⟩ <;> omega

theorem sender_ne_receiver (world_size k : Nat) (hN : 2 ≤ world_size)
    (hk : k < 2 * world_size) : sender world_size k ≠ receiver world_size k := by
  rcases sender_receiver_cases world_size k hk with ⟨g, gs, gd⟩ | ⟨g, gs, gd⟩ |
    ⟨g, gs, gd⟩ | ⟨g, gs, gd⟩ <;> omega

theorem send_determined (world_size k s d : Nat) (hN : 2 ≤ world_size)
    (hk : k ≤ 2 * world_size) (hs : s < world_size) (pc : Nat → Nat)
    (hpc : pc s = progress world_size k s)
    (h : next_call world_size pc s = some (Call.send d)) :
    k < 2 * world_size ∧ s = sender world_size k ∧ d = receiver world_size k := by
  by_cases hs0 : s = 0
  · subst hs0
    rw [call_worker_zero world_size k hN pc hpc] at h
    split_ifs at h with h1 h2 h3 h4 <;> simp at h
    all_goals
      have hk1 : k < 2 * world_size := by omega
      refine ⟨hk1, ?_⟩
      rcases sender_receiver_cases world_size k hk1 with ⟨g, gs, gd⟩ | ⟨g, gs, gd⟩ |
        ⟨g, gs, gd⟩ | ⟨g, gs, gd⟩ <;> omega
  · rw [call_worker_pos world_size k s (by omega) hs pc hpc] at h
    split_ifs at h with h1 h2 h3 h4 h5 h6 <;> simp at h
    all_goals
      have hk1 : k < 2 * world_size := by omega
      refine ⟨hk1, ?_⟩
      rcases sender_receiver_cases world_size k hk1 with ⟨g, gs, gd⟩ | ⟨g, gs, gd⟩ |
        ⟨g, gs, gd⟩ | ⟨g, gs, gd⟩ <;> omega

theorem send_enabled (world_size k : Nat) (hN : 2 ≤ world_size) (hk : k < 2 * world_size)
    (pc : Nat → Nat)
    (hpc : pc (sender world_size k) = progress world_size k (sender world_size k)) :
    next_call world_size pc (sender world_size k) = some (Call.send (receiver world_size k)) := by
  rcases sender_receiver_cases world_size k hk with ⟨g, gs, gd⟩ | ⟨g, gs, gd⟩ |
    ⟨g, gs, gd⟩ | ⟨g, gs, gd⟩
  · rw [gs] at hpc ⊢
    rw [gd]
    by_cases hk0 : k = 0
    · subst hk0
      rw [call_worker_zero world_size 0 hN pc hpc, if_pos rfl]
    · rw [call_worker_pos world_size k k (by omega) (by omega) pc hpc, if_neg (by omega),
        if_pos rfl, if_neg (by omega)]
  · rw [gs] at hpc ⊢
    rw [gd]
    rw [call_worker_pos world_size k k (by omega) (by omega) pc hpc, if_neg (by omega),
      if_pos rfl, if_pos g]
  · rw [gs] at hpc ⊢
    rw [gd]
    rw [call_worker_zero world_size k hN pc hpc, if_neg (by omega), if_neg (by omega), if_pos g]
  · rw [gs] at hpc ⊢
    rw [gd]
    rw [call_worker_pos world_size k (2 * world_size - k) (by omega) (by omega) pc hpc,
      if_neg (by omega), if_neg (by omega), if_neg (by omega), if_pos (by omega)]

theorem recv_enabled (world_size k : Nat) (hN : 2 ≤ world_size) (hk : k < 2 * world_size)
    (pc : Nat → Nat)
    (hpc : pc (receiver world_size k) = progress world_size k (receiver world_size k)) :
    next_call world_size pc (receiver world_size k)
      = some (Call.recv (sender world_size k)) := by
  rcases sender_receiver_cases world_size k hk with ⟨g, gs, gd⟩ | ⟨g, gs, gd⟩ |
    ⟨g, gs, gd⟩ | ⟨g, gs, gd⟩
  · rw [gd] at hpc ⊢
    rw [gs]
    rw [call_worker_pos world_size k (k + 1) (by omega) (by omega) pc hpc, if_pos (by omega)]
    rfl
  · rw [gd] at hpc ⊢
    rw [gs]
    rw [call_worker_zero world_size k hN pc hpc, if_neg (by omega), if_pos (by omega)]
    exact congrArg (fun x => some (Call.recv x)) (by omega)
  · rw [gd] at hpc ⊢
    rw [gs]
    rw [call_worker_pos world_size k (world_size - 1) (by omega) (by omega) pc hpc,
      if_neg (by omega), if_neg (by omega), if_pos (by omega), if_pos (by omega)]
  · rw [gd] at hpc ⊢
    rw [gs]
    by_cases hd0 : 2 * world_size - k - 1 = 0
    · rw [hd0] at hpc ⊢
      rw [call_worker_zero world_size k hN pc hpc, if_neg (by omega), if_neg (by omega),
        if_neg (by omega), if_pos (by omega)]
      exact congrArg (fun x => some (Call.recv x)) (by omega)
    · rw [call_worker_pos world_size k (2 * world_size - k - 1) (by omega) (by omega) pc hpc,
        if_neg (by omega), if_neg (by omega), if_pos (by omega), if_neg (by omega)]
      exact congrArg (fun x => some (Call.recv x)) (by omega)

theorem count_take_succ (l : List Call) (i : Nat) (a b : Call) (h : l[i]? = some a) :
    (l.take (i + 1)).count b = (l.take i).count b + (if a = b then 1 else 0) := by
  rw [List.take_succ, h, List.count_append]
  by_cases hab : a = b
  · rw [if_pos hab, hab]
    simp
  · rw [if_neg hab]
    simp [List.count_cons, hab]


theorem recv_ne_send (a b : Nat) (h : some (Call.recv a) = some (Call.send b)) : False := by
  cases h

theorem pass_calls_alternate (world_size r p : Nat) (a b : Nat)
    (h1 : (pass_calls world_size r)[p]? = some (Call.send a))
    (h2 : (pass_calls world_size r)[p + 1]? = some (Call.send b)) : False := by
  by_cases hr : r = 0
  · subst hr
    simp only [pass_calls, vertical_calls, horizontal_calls, ne_eq, not_true_eq_false, if_false,
      if_true, List.nil_append, List.cons_append, List.singleton_append] at h1 h2
    rw [getElem_four] at h1 h2
    split_ifs at h1 h2 <;> (first | omega | contradiction | exact recv_ne_send _ _ h2 |
      exact recv_ne_send _ _ h1)
  · simp only [pass_calls, vertical_calls, horizontal_calls, ne_eq, hr, not_false_eq_true,
      if_true, if_false, List.nil_append, List.cons_append, List.singleton_append,
      List.append_nil] at h1 h2
    rw [getElem_four] at h1 h2
    split_ifs at h1 h2 <;> (first | omega | contradiction | exact recv_ne_send _ _ h2 |
      exact recv_ne_send _ _ h1)

theorem buffered_call_send (world_size : Nat) (st : Buffered) (r d : Nat)
    (h : next_call world_size st.pc r = some (Call.send d)) :
    buffered_call world_size st r = some
      { pc := fun i => if i = r then st.pc i + 1 else st.pc i,
        in_flight := fun a b => if a = r ∧ b = d then st.in_flight a b + 1
          else st.in_flight a b } := by
  unfold buffered_call
  rw [h]

theorem buffered_call_recv (world_size : Nat) (st : Buffered) (r s : Nat)
    (h : next_call world_size st.pc r = some (Call.recv s)) :
    buffered_call world_size st r =
      if 0 < st.in_flight s r then some
        { pc := fun i => if i = r then st.pc i + 1 else st.pc i,
          in_flight := fun a b => if a = s ∧ b = r then st.in_flight a b - 1
            else st.in_flight a b }
      else none := by
  unfold buffered_call
  rw [h]

theorem buffered_call_none (world_size : Nat) (st : Buffered) (r : Nat)
    (h : next_call world_size st.pc r = none) : buffered_call world_size st r = none := by
  unfold buffered_call
  rw [h]

theorem buffered_call_cases (world_size : Nat) (st st1 : Buffered) (r : Nat)
    (h : buffered_call world_size st r = some st1) :
    (∃ d, next_call world_size st.pc r = some (Call.send d) ∧
      st1.pc = (fun i => if i = r then st.pc i + 1 else st.pc i) ∧
      st1.in_flight = fun a b => if a = r ∧ b = d then st.in_flight a b + 1
        else st.in_flight a b) ∨
    (∃ s, next_call world_size st.pc r = some (Call.recv s) ∧ 0 < st.in_flight s r ∧
      st1.pc = (fun i => if i = r then st.pc i + 1 else st.pc i) ∧
      st1.in_flight = fun a b => if a = s ∧ b = r then st.in_flight a b - 1
        else st.in_flight a b) := by
  cases hc : next_call world_size st.pc r with
  | none =>
    rw [buffered_call_none world_size st r hc] at h
    cases h
  | some c =>
    cases c with
    | send d =>
      rw [buffered_call_send world_size st r d hc] at h
      left
      refine ⟨d, rfl, ?_, ?_⟩
      · rw [← Option.some.inj h]
      · rw [← Option.some.inj h]
    | recv s =>
      rw [buffered_call_recv world_size st r s hc] at h
      right
      by_cases hfl : 0 < st.in_flight s r
      · rw [if_pos hfl] at h
        refine ⟨s, rfl, hfl, ?_, ?_⟩
        · rw [← Option.some.inj h]
        · rw [← Option.some.inj h]
      · rw [if_neg hfl] at h
        cases h

theorem progress_succ (world_size h r : Nat) (hN : 2 ≤ world_size) (hh : h < 2 * world_size)
    (hr : r < world_size) :
    progress world_size (h + 1) r
      = progress world_size h r + (if r = sender world_size h then 1 else 0)
          + (if r = receiver world_size h then 1 else 0) := by
  by_cases hr0 : r = 0
  · subst hr0
    exact progress_succ_zero world_size h hN hh
  · exact progress_succ_pos world_size h r (by omega) hr hh

theorem chain_state_start (world_size : Nat) : chain_state world_size 0 buffered_start := by
  refine ⟨Nat.zero_le _, ?_, ?_⟩
  · intro r hr
    show 0 = returned world_size 0 r
    unfold returned
    rw [show 0 / 2 = 0 from rfl, progress_zero world_size r hr,
      if_neg (fun e => absurd e.1 (by decide))]
  · intro s d
    show 0 = _
    rw [if_neg (fun e => absurd e.1 (by decide))]

theorem chain_state_even (world_size k : Nat) (st : Buffered)
    (h : chain_state world_size k st) (hpar : k % 2 = 0) :
    (∀ r, r < world_size → st.pc r = progress world_size (k / 2) r) ∧
    ∀ s d, st.in_flight s d = 0 := by
  obtain ⟨-, hpc, hfl⟩ := h
  constructor
  · intro r hr
    rw [hpc r hr]
    unfold returned
    have h0 : (if k % 2 = 1 ∧ r = sender world_size (k / 2) then 1 else 0) = 0 :=
      if_neg (fun e => by omega)
    rw [h0, Nat.add_zero]
  · intro s d
    rw [hfl s d]
    exact if_neg (fun e => by omega)

theorem chain_state_odd (world_size k : Nat) (st : Buffered)
    (h : chain_state world_size k st) (hpar : k % 2 = 1) :
    (∀ r, r < world_size →
      st.pc r = progress world_size (k / 2) r
        + (if r = sender world_size (k / 2) then 1 else 0)) ∧
    ∀ s d, st.in_flight s d
      = if s = sender world_size (k / 2) ∧ d = receiver world_size (k / 2) then 1 else 0 := by
  obtain ⟨-, hpc, hfl⟩ := h
  constructor
  · intro r hr
    rw [hpc r hr]
    unfold returned
    by_cases hrs : r = sender world_size (k / 2)
    · rw [if_pos ⟨hpar, hrs⟩, if_pos hrs]
    · rw [if_neg (fun e => hrs e.2), if_neg hrs]
  · intro s d
    rw [hfl s d]
    by_cases hsd : s = sender world_size (k / 2) ∧ d = receiver world_size (k / 2)
    · rw [if_pos ⟨hpar, hsd⟩, if_pos hsd]
    · rw [if_neg (fun e => hsd e.2), if_neg hsd]

theorem chain_state_of_even (world_size k : Nat) (st : Buffered) (hk : k ≤ 4 * world_size)
    (hpar : k % 2 = 0)
    (hpc : ∀ r, r < world_size → st.pc r = progress world_size (k / 2) r)
    (hfl : ∀ s d, st.in_flight s d = 0) : chain_state world_size k st := by
  refine ⟨hk, ?_, ?_⟩
  · intro r hr
    rw [hpc r hr]
    unfold returned
    have h0 : (if k % 2 = 1 ∧ r = sender world_size (k / 2) then 1 else 0) = 0 :=
      if_neg (fun e => by omega)
    rw [h0, Nat.add_zero]
  · intro s d
    rw [hfl s d]
    exact (if_neg (fun e => by omega)).symm

theorem chain_state_of_odd (world_size k : Nat) (st : Buffered) (hk : k ≤ 4 * world_size)
    (hpar : k % 2 = 1)
    (hpc : ∀ r, r < world_size →
      st.pc r = progress world_size (k / 2) r
        + (if r = sender world_size (k / 2) then 1 else 0))
    (hfl : ∀ s d, st.in_flight s d
      = if s = sender world_size (k / 2) ∧ d = receiver world_size (k / 2) then 1 else 0) :
    chain_state world_size k st := by
  refine ⟨hk, ?_, ?_⟩
  · intro r hr
    rw [hpc r hr]
    unfold returned
    by_cases hrs : r = sender world_size (k / 2)
    · rw [if_pos hrs, if_pos (⟨hpar, hrs⟩ : k % 2 = 1 ∧ r = sender world_size (k / 2))]
    · rw [if_neg hrs,
        if_neg (fun e : k % 2 = 1 ∧ r = sender world_size (k / 2) => hrs e.2)]
  · intro s d
    rw [hfl s d]
    by_cases hsd : s = sender world_size (k / 2) ∧ d = receiver world_size (k / 2)
    · rw [if_pos hsd, if_pos (⟨hpar, hsd⟩ :
        k % 2 = 1 ∧ s = sender world_size (k / 2) ∧ d = receiver world_size (k / 2))]
    · rw [if_neg hsd, if_neg (fun e :
        k % 2 = 1 ∧ s = sender world_size (k / 2) ∧ d = receiver world_size (k / 2) => hsd e.2)]

theorem chain_state_step (world_size : Nat) (hN : 2 ≤ world_size) (k : Nat)
    (st st1 : Buffered) (r : Nat) (hst : chain_state world_size k st) (hr : r < world_size)
    (hcall : buffered_call world_size st r = some st1) :
    chain_state world_size (k + 1) st1 := by
  have hk := hst.1
  rcases Nat.mod_two_eq_zero_or_one k with hpar | hpar
  · -- an even number of calls: no message is in flight, only the next sender can return
    obtain ⟨hpc, hfl⟩ := chain_state_even world_size k st hst hpar
    have hdiv : (k + 1) / 2 = k / 2 := by omega
    rcases buffered_call_cases world_size st st1 r hcall with
      ⟨d, hnext, e1, e2⟩ | ⟨s, hnext, hpos, e1, e2⟩
    · obtain ⟨hh, es, ed⟩ := send_determined world_size (k / 2) r d hN (by omega) hr st.pc
        (hpc r hr) hnext
      apply chain_state_of_odd world_size (k + 1) st1 (by omega) (by omega)
      · intro r' hr'
        rw [e1, hdiv, ← es]
        simp only
        rw [hpc r' hr']
        split_ifs <;> omega
      · intro a b
        rw [e2, hdiv, ← es, ← ed]
        simp only
        rw [hfl a b]
    · have := hfl s r
      omega
  · -- an odd number of calls: only the addressee of the message in flight can return
    obtain ⟨hpc, hfl⟩ := chain_state_odd world_size k st hst hpar
    have hh : k / 2 < 2 * world_size := by omega
    have hdiv : (k + 1) / 2 = k / 2 + 1 := by omega
    have hne := sender_ne_receiver world_size (k / 2) hN hh
    rcases buffered_call_cases world_size st st1 r hcall with
      ⟨d, hnext, e1, e2⟩ | ⟨s, hnext, hpos, e1, e2⟩
    · exfalso
      by_cases hrs : r = sender world_size (k / 2)
      · have hp : st.pc r = progress world_size (k / 2) r + 1 := by
          rw [hpc r hr, if_pos hrs]
        have hsend := send_enabled world_size (k / 2) hN hh
          (fun i => progress world_size (k / 2) i) rfl
        rw [← hrs] at hsend
        unfold next_call at hnext hsend
        rw [hp] at hnext
        exact pass_calls_alternate world_size r _ _ _ hsend hnext
      · have hp : st.pc r = progress world_size (k / 2) r := by
          rw [hpc r hr, if_neg hrs, Nat.add_zero]
        exact hrs (send_determined world_size (k / 2) r d hN (by omega) hr st.pc hp hnext).2.1
    · have hone := hfl s r
      by_cases hc : s = sender world_size (k / 2) ∧ r = receiver world_size (k / 2)
      · obtain ⟨es, er⟩ := hc
        apply chain_state_of_even world_size (k + 1) st1 (by omega) (by omega)
        · intro r' hr'
          rw [e1, hdiv, progress_succ world_size (k / 2) r' hN hh hr', ← er]
          simp only
          rw [hpc r' hr']
          split_ifs <;> omega
        · intro a b
          rw [e2]
          simp only
          rw [hfl a b, ← es, ← er]
          split_ifs <;> omega
      · rw [if_neg hc] at hone
        omega

theorem chain_state_live (world_size : Nat) (hN : 2 ≤ world_size) (k : Nat) (st : Buffered)
    (hst : chain_state world_size k st) (hk : k < 4 * world_size) :
    ∃ r, r < world_size ∧ ∃ st1, buffered_call world_size st r = some st1 := by
  have hh : k / 2 < 2 * world_size := by omega
  have hs := sender_lt world_size (k / 2) hN hh
  have hd := receiver_lt world_size (k / 2) hN hh
  have hne := sender_ne_receiver world_size (k / 2) hN hh
  rcases Nat.mod_two_eq_zero_or_one k with hpar | hpar
  · obtain ⟨hpc, -⟩ := chain_state_even world_size k st hst hpar
    exact ⟨sender world_size (k / 2), hs, _, buffered_call_send world_size st _ _
      (send_enabled world_size (k / 2) hN hh st.pc (hpc _ hs))⟩
  · obtain ⟨hpc, hfl⟩ := chain_state_odd world_size k st hst hpar
    refine ⟨receiver world_size (k / 2), hd, ?_⟩
    have hp : st.pc (receiver world_size (k / 2))
        = progress world_size (k / 2) (receiver world_size (k / 2)) := by
      rw [hpc _ hd, if_neg (fun e => hne e.symm), Nat.add_zero]
    have hcall := buffered_call_recv world_size st _ _
      (recv_enabled world_size (k / 2) hN hh st.pc hp)
    rw [if_pos (by rw [hfl, if_pos ⟨rfl, rfl⟩]; exact Nat.one_pos)] at hcall
    exact ⟨_, hcall⟩

theorem one_worker_chain :
    ∀ k, k ≤ 4 → returned 1 k 0 = k ∧ sender 1 (k / 2) = 0 ∧ receiver 1 (k / 2) = 0 := by
  decide

theorem one_worker_next (pc : Nat → Nat) :
    next_call 1 pc 0
      = if pc 0 = 0 then some (Call.send 0) else if pc 0 = 1 then some (Call.recv 0)
        else if pc 0 = 2 then some (Call.send 0) else if pc 0 = 3 then some (Call.recv 0)
        else none := by
  unfold next_call
  rw [show pass_calls 1 0 = [Call.send 0, Call.recv 0, Call.send 0, Call.recv 0] by decide,
    getElem_four]

theorem chain_state_step_one (k : Nat) (st st1 : Buffered) (r : Nat)
    (hst : chain_state 1 k st) (hr : r < 1) (hcall : buffered_call 1 st r = some st1) :
    chain_state 1 (k + 1) st1 := by
  obtain ⟨hk, hpc, hfl⟩ := hst
  have hr0 : r = 0 := by omega
  subst hr0
  have hp : st.pc 0 = k := by
    rw [hpc 0 (by decide)]
    exact (one_worker_chain k (by omega)).1
  have hfl0 : ∀ s d, st.in_flight s d = if k % 2 = 1 ∧ s = 0 ∧ d = 0 then 1 else 0 := by
    intro s d
    rw [hfl s d, (one_worker_chain k (by omega)).2.1, (one_worker_chain k (by omega)).2.2]
  have hgoal : ∀ kk : Nat, kk = k + 1 → kk ≤ 4 →
      (∀ s d, st1.in_flight s d = if kk % 2 = 1 ∧ s = 0 ∧ d = 0 then 1 else 0) →
      st1.pc 0 = kk → chain_state 1 kk st1 := by
    intro kk _ hkk h1 h2
    refine ⟨by omega, ?_, ?_⟩
    · intro r' hr'
      have hr0 : r' = 0 := by omega
      subst hr0
      rw [h2]
      exact (one_worker_chain kk hkk).1.symm
    · intro s d
      rw [h1 s d, (one_worker_chain kk hkk).2.1, (one_worker_chain kk hkk).2.2]
  rcases buffered_call_cases 1 st st1 0 hcall with
    ⟨d, hnext, e1, e2⟩ | ⟨s, hnext, hpos, e1, e2⟩
  · rw [one_worker_next, hp] at hnext
    have hkd : (k = 0 ∨ k = 2) ∧ d = 0 := by
      split_ifs at hnext with h0 h1 h2 h3
      · exact ⟨Or.inl h0, (Call.send.inj (Option.some.inj hnext)).symm⟩
      · cases hnext
      · exact ⟨Or.inr h2, (Call.send.inj (Option.some.inj hnext)).symm⟩
      · cases hnext
    apply hgoal (k + 1) rfl (by omega)
    · intro a b
      rw [e2]
      simp only
      rw [hfl0 a b]
      split_ifs <;> omega
    · rw [e1]
      show (if (0 : Nat) = 0 then st.pc 0 + 1 else st.pc 0) = k + 1
      rw [if_pos rfl, hp]
  · rw [one_worker_next, hp] at hnext
    have hks : (k = 1 ∨ k = 3) ∧ s = 0 := by
      split_ifs at hnext with h0 h1 h2 h3
      · cases hnext
      · exact ⟨Or.inl h1, (Call.recv.inj (Option.some.inj hnext)).symm⟩
      · cases hnext
      · exact ⟨Or.inr h3, (Call.recv.inj (Option.some.inj hnext)).symm⟩
    apply hgoal (k + 1) rfl (by omega)
    · intro a b
      rw [e2]
      simp only
      rw [hfl0 a b]
      split_ifs <;> omega
    · rw [e1]
      show (if (0 : Nat) = 0 then st.pc 0 + 1 else st.pc 0) = k + 1
      rw [if_pos rfl, hp]

theorem chain_state_live_one (k : Nat) (st : Buffered) (hst : chain_state 1 k st)
    (hk : k < 4) : ∃ r, r < 1 ∧ ∃ st1, buffered_call 1 st r = some st1 := by
  obtain ⟨-, hpc, hfl⟩ := hst
  have hp : st.pc 0 = k := by
    rw [hpc 0 (by decide)]
    exact (one_worker_chain k (by omega)).1
  have hfl0 : st.in_flight 0 0 = if k % 2 = 1 ∧ 0 = 0 ∧ 0 = 0 then 1 else 0 := by
    rw [hfl 0 0, (one_worker_chain k (by omega)).2.1, (one_worker_chain k (by omega)).2.2]
  refine ⟨0, by decide, ?_⟩
  have hnext := one_worker_next st.pc
  rw [hp] at hnext
  rcases Nat.mod_two_eq_zero_or_one k with hpar | hpar
  · have hsend : next_call 1 st.pc 0 = some (Call.send 0) := by
      rw [hnext]
      split_ifs <;> first | rfl | omega
    exact ⟨_, buffered_call_send 1 st 0 0 hsend⟩
  · have hrecv : next_call 1 st.pc 0 = some (Call.recv 0) := by
      rw [hnext]
      split_ifs <;> first | rfl | omega
    have hcall := buffered_call_recv 1 st 0 0 hrecv
    rw [if_pos (by rw [hfl0, if_pos ⟨hpar, rfl, rfl⟩]; exact Nat.one_pos)] at hcall
    exact ⟨_, hcall⟩

theorem buffered_reach_chain (world_size : Nat) (hN : 1 ≤ world_size) (k : Nat)
    (st : Buffered) (h : buffered_reach world_size k st) : chain_state world_size k st := by
  induction h with
  | start => exact chain_state_start world_size
  | step k st st1 r _ hr hcall ih =>
    by_cases h1 : world_size = 1
    · subst h1
      exact chain_state_step_one k st st1 r ih hr hcall
    · exact chain_state_step world_size (by omega) k st st1 r ih hr hcall

theorem buffered_reach_live (world_size : Nat) (hN : 1 ≤ world_size) (k : Nat)
    (st : Buffered) (h : buffered_reach world_size k st) (hk : k < 4 * world_size) :
    ∃ r, r < world_size ∧ ∃ st1, buffered_call world_size st r = some st1 := by
  have hst := buffered_reach_chain world_size hN k st h
  by_cases h1 : world_size = 1
  · subst h1
    exact chain_state_live_one k st hst (by omega)
  · exact chain_state_live world_size (by omega) k st hst hk

theorem buffered_reach_exists (world_size : Nat) (hN : 1 ≤ world_size) :
    ∀ k, k ≤ 4 * world_size → ∃ st, buffered_reach world_size k st := by
  intro k
  induction k with
  | zero => exact fun _ => ⟨_, buffered_reach.start⟩
  | succ k ih =>
    intro hk
    obtain ⟨st, hst⟩ := ih (by omega)
    obtain ⟨r, hr, st1, hcall⟩ := buffered_reach_live world_size hN k st hst (by omega)
    exact ⟨st1, buffered_reach.step k st st1 r hst hr hcall⟩

theorem chain_state_finished (world_size : Nat) (st : Buffered)
    (h : chain_state world_size (4 * world_size) st) :
    finished world_size st.pc ∧ ∀ s d, st.in_flight s d = 0 := by
  obtain ⟨hpc, hfl⟩ := chain_state_even world_size (4 * world_size) st h (by omega)
  refine ⟨?_, hfl⟩
  intro r hr
  rw [hpc r hr, length_pass_calls, show 4 * world_size / 2 = 2 * world_size by omega]
  exact progress_final world_size r hr

theorem count_after_call (world_size : Nat) (pc : Nat → Nat) (r : Nat) (c b : Call)
    (hnext : next_call world_size pc r = some c) (w : Nat) :
    ((pass_calls world_size w).take (if w = r then pc w + 1 else pc w)).count b
      = ((pass_calls world_size w).take (pc w)).count b
        + (if w = r ∧ c = b then 1 else 0) := by
  by_cases hw : w = r
  · subst hw
    rw [if_pos rfl, count_take_succ _ _ c b hnext]
    by_cases hcb : c = b
    · rw [if_pos hcb, if_pos ⟨rfl, hcb⟩]
    · rw [if_neg hcb, if_neg (fun e => hcb e.2)]
  · rw [if_neg hw, if_neg (fun e => hw e.1)]
    exact (Nat.add_zero _).symm

theorem buffered_reach_matched (world_size k : Nat) (st : Buffered)
    (h : buffered_reach world_size k st) (s d : Nat) :
    st.in_flight s d + recvs_done world_size st.pc d s = sends_done world_size st.pc s d := by
  induction h with
  | start => rfl
  | step k st st1 r _ _ hcall ih =>
    unfold recvs_done sends_done at ih ⊢
    rcases buffered_call_cases world_size st st1 r hcall with
      ⟨d0, hnext, e1, e2⟩ | ⟨s0, hnext, hpos, e1, e2⟩
    · rw [e1, e2]
      simp only
      rw [count_after_call world_size st.pc r _ _ hnext d,
        count_after_call world_size st.pc r _ _ hnext s]
      have h1 : (if d = r ∧ Call.send d0 = Call.recv s then 1 else 0) = 0 :=
        if_neg (fun e => Call.noConfusion e.2)
      have h2 : (if s = r ∧ Call.send d0 = Call.send d then 1 else 0)
          = if s = r ∧ d = d0 then 1 else 0 := by
        by_cases hc : s = r ∧ d = d0
        · rw [if_pos hc, if_pos ⟨hc.1, by rw [hc.2]⟩]
        · rw [if_neg hc, if_neg (fun e => hc ⟨e.1, (Call.send.inj e.2).symm⟩)]
      rw [h1, h2]
      split_ifs <;> omega
    · rw [e1, e2]
      simp only
      rw [count_after_call world_size st.pc r _ _ hnext d,
        count_after_call world_size st.pc r _ _ hnext s]
      have h1 : (if s = r ∧ Call.recv s0 = Call.send d then 1 else 0) = 0 :=
        if_neg (fun e => Call.noConfusion e.2)
      have h2 : (if d = r ∧ Call.recv s0 = Call.recv s then 1 else 0)
          = if s = s0 ∧ d = r then 1 else 0 := by
        by_cases hc : s = s0 ∧ d = r
        · rw [if_pos hc, if_pos ⟨hc.2, by rw [hc.1]⟩]
        · rw [if_neg hc, if_neg (fun e => hc ⟨(Call.recv.inj e.2).symm, e.1⟩)]
      rw [h1, h2]
      by_cases hc : s = s0 ∧ d = r
      · rw [if_pos hc, if_pos hc]
        rw [hc.1, hc.2] at ih ⊢
        omega
      · rw [if_neg hc, if_neg hc]
        omega

/-- C20. For every `world_size ≥ 1`, when all workers run the vertical and then the horizontal
pass with the blocking calls of the source, no circular wait arises. `MPI_Send` is the
standard-mode send, which returns once the message is buffered (the program sends to its own
rank before it receives in `divide_states`, `game_step` and `combine_states`, so it runs only
where sends are buffered), and `MPI_Recv` returns once a message of the named sender has
arrived. Worker 0 sends before it receives in both passes and every other worker receives
before it sends. In every state reached after `k` calls have returned, `k ≤ 4 * world_size`,
the messages in flight from `s` to `d` are exactly the sends of `s` to `d` not yet matched by
a receive of `d` from `s`, and as long as `k < 4 * world_size` some worker can return from its
current call; after `4 * world_size` calls every worker has returned from all its calls of
both passes, no message is left in flight and every send is matched by a receive. Such a
state is reached. -/
theorem ring_passes_complete (world_size : Nat) (hN : 1 ≤ world_size) :
    (vertical_calls world_size 0
        = [Call.send ((0 + 1) % world_size),
            Call.recv ((world_size - 1 + world_size) % world_size)] ∧
      horizontal_calls world_size 0
        = [Call.send ((0 + world_size - 1) % world_size), Call.recv (1 % world_size)]) ∧
    (∀ r, 0 < r → r < world_size →
      vertical_calls world_size r
        = [Call.recv (r - 1), Call.send ((r + 1) % world_size)] ∧
      horizontal_calls world_size r
        = [Call.recv ((r + 1) % world_size), Call.send ((r + world_size - 1) % world_size)] ∧
      (r + world_size - 1) % world_size = r - 1) ∧
    (∀ k st, buffered_reach world_size k st →
      k ≤ 4 * world_size ∧
      (∀ s d, st.in_flight s d + recvs_done world_size st.pc d s
        = sends_done world_size st.pc s d) ∧
      (k < 4 * world_size →
        ∃ r, r < world_size ∧ ∃ st1, buffered_call world_size st r = some st1) ∧
      (k = 4 * world_size →
        finished world_size st.pc ∧
        ∀ s d, st.in_flight s d = 0 ∧
          sends_done world_size st.pc s d = recvs_done world_size st.pc d s)) ∧
    ∃ st, buffered_reach world_size (4 * world_size) st ∧ finished world_size st.pc := by
  refine ⟨⟨rfl, rfl⟩, ?_, ?_, ?_⟩
  · intro r hr0 hr
    have h0 : r ≠ 0 := by omega
    refine ⟨?_, ?_, ?_⟩
    · simp only [vertical_calls, ne_eq, h0, not_false_eq_true, if_true, if_false,
        List.singleton_append, List.append_nil, List.cons_append, List.nil_append]
    · simp only [horizontal_calls, ne_eq, h0, not_false_eq_true, if_true, if_false,
        List.singleton_append, List.append_nil, List.cons_append, List.nil_append]
    · rw [pred_mod_eq world_size r hr, if_neg h0]
  · intro k st h
    have hst := buffered_reach_chain world_size hN k st h
    have hm := buffered_reach_matched world_size k st h
    refine ⟨hst.1, hm, buffered_reach_live world_size hN k st h, ?_⟩
    intro hk
    subst hk
    obtain ⟨hfin, hfl⟩ := chain_state_finished world_size st hst
    refine ⟨hfin, fun s d => ⟨hfl s d, ?_⟩⟩
    have := hm s d
    rw [hfl s d] at this
    omega
  · obtain ⟨st, hst⟩ := buffered_reach_exists world_size hN (4 * world_size) (Nat.le_refl _)
    exact ⟨st, hst,
      (chain_state_finished world_size st (buffered_reach_chain world_size hN _ st hst)).1⟩

theorem ring_passes_complete_witness :
    1 ≤ 1 ∧
    (vertical_calls 1 0 = [Call.send 0, Call.recv 0] ∧
      horizontal_calls 1 0 = [Call.send 0, Call.recv 0]) ∧
    (∃ r, r < 1 ∧ ∃ st1, buffered_call 1 buffered_start r = some st1) ∧
    (∃ st, buffered_reach 1 4 st ∧ finished 1 st.pc) ∧
    ((buffered_schedule 1 [0, 0, 0, 0] buffered_start).map
      fun st => (st.pc 0, st.in_flight 0 0)) = some (4, 0) ∧
    ((buffered_schedule 2 [0, 1, 1, 0, 0, 1, 1, 0] buffered_start).map
      fun st => (st.pc 0, st.pc 1, st.in_flight 0 1, st.in_flight 1 0)) = some (4, 4, 0, 0) ∧
    (buffered_schedule 2 [1] buffered_start).isSome = false ∧
    (buffered_schedule 2 [0, 0] buffered_start).isSome = false :=
  have h := ring_passes_complete 1 (by decide)
  ⟨by decide, h.1, (h.2.2.1 0 _ buffered_reach.start).2.2.1 (by decide), h.2.2.2,
    by decide, by decide, by decide, by decide⟩

/-! ## C21: the corner pass on non-empty tiles -/

theorem send_inner_two_rounds (world_size : Nat) (regions : List ChessBoardRegion) :
    send_inner world_size regions
      = send_inner_round world_size (send_inner_round world_size regions) := rfl

theorem prv_index_lt (world_size i : Nat) (hi : i < world_size) :
    prv_index world_size i < world_size := by
  unfold prv_index
  split_ifs <;> omega

theorem prv_index_mod (world_size i : Nat) (hi : i < world_size) :
    prv_index world_size i = (i + world_size - 1) % world_size := by
  rw [pred_mod_eq world_size i hi]
  rfl

theorem col_band_prv (world_size world_rank i : Nat) (hi : i < world_size) :
    col_band world_size world_rank (prv_index world_size i)
      = (col_band world_size world_rank i + world_size - 1) % world_size := by
  unfold col_band prv_index
  have h1 : (i + world_rank) % world_size + world_size - 1
      = (i + world_rank) % world_size + (world_size - 1) := by omega
  rw [h1, Nat.mod_add_mod]
  split_ifs with h0
  · subst h0
    rw [Nat.zero_add, Nat.add_comm]
  · have h2 : i + world_rank + (world_size - 1) = (i - 1 + world_rank) + world_size := by omega
    rw [h2, Nat.add_mod_right]

theorem bottom_right_of_halo_update (a b : ChessBoardRegion) (h : halo_update a b)
    (hh : 1 ≤ a.height) (hw : 1 ≤ a.width) : bottom_right b = bottom_right a := by
  unfold bottom_right ChessBoardRegion.get_height ChessBoardRegion.get_width
  rw [h.1.1, h.1.2.1]
  exact h.2 _ _ (by omega) (by omega)

theorem send_inner_round_corner (world_size : Nat) (regs0 regs : List ChessBoardRegion)
    (hlen : regs0.length = world_size)
    (hshape : ∀ i, i < world_size →
      (regs0.getD i (ChessBoardRegion.new 0 0)).well_shaped ∧
      1 ≤ (regs0.getD i (ChessBoardRegion.new 0 0)).height ∧
      1 ≤ (regs0.getD i (ChessBoardRegion.new 0 0)).width)
    (hrel : regions_rel halo_update regs0 regs) :
    ∀ k, k ≤ world_size →
      regions_rel halo_update regs0 ((List.range k).foldl (send_inner_step world_size) regs) ∧
      ∀ cur, cur < k →
        ((((List.range k).foldl (send_inner_step world_size) regs).getD cur
          (ChessBoardRegion.new 0 0)).cell (-1) (-1)
          = bottom_right (regs0.getD (prv_index world_size cur) (ChessBoardRegion.new 0 0))) := by
  intro k
  induction k with
  | zero =>
    intro _
    exact ⟨hrel, fun cur hcur => absurd hcur (Nat.not_lt_zero _)⟩
  | succ k ih =>
    intro hk
    obtain ⟨hr, hc⟩ := ih (by omega)
    rw [List.range_succ, List.foldl_append]
    simp only [List.foldl_cons, List.foldl_nil]
    generalize (List.range k).foldl (send_inner_step world_size) regs = out at hr hc
    have hklt : k < world_size := by omega
    have hprv := prv_index_lt world_size k hklt
    have hstep : regions_rel halo_update out (send_inner_step world_size out k) :=
      set_regions_rel halo_update halo_update_refl out k _
        (set_cell_halo_update _ (-1) (-1) _ (by decide) (by decide) (Or.inl rfl))
    refine ⟨regions_rel_trans halo_update halo_update_trans _ _ _ hr hstep, ?_⟩
    intro cur hcur
    unfold send_inner_step
    simp only
    rw [getD_set_eq]
    by_cases hck : cur = k
    · subst hck
      rw [if_pos ⟨rfl, by rw [hr.1, hlen]; exact hklt⟩]
      have hws : (out.getD cur (ChessBoardRegion.new 0 0)).well_shaped :=
        well_shaped_of_same_shape _ _ (hr.2 cur).1 (hshape cur hklt).1
      rw [cell_set_cell_eq _ _ _ _ hws (by omega) (by omega)]
      exact bottom_right_of_halo_update _ _ (hr.2 _) (hshape _ hprv).2.1 (hshape _ hprv).2.2
    · rw [if_neg (fun h => hck h.1.symm)]
      exact hc cur (by omega)

theorem send_inner_corner (world_size : Nat) (regs : List ChessBoardRegion)
    (hlen : regs.length = world_size)
    (hshape : ∀ i, i < world_size →
      (regs.getD i (ChessBoardRegion.new 0 0)).well_shaped ∧
      1 ≤ (regs.getD i (ChessBoardRegion.new 0 0)).height ∧
      1 ≤ (regs.getD i (ChessBoardRegion.new 0 0)).width) :
    regions_rel halo_update regs (send_inner world_size regs) ∧
    ∀ cur, cur < world_size →
      ((send_inner world_size regs).getD cur (ChessBoardRegion.new 0 0)).cell (-1) (-1)
        = bottom_right (regs.getD (prv_index world_size cur) (ChessBoardRegion.new 0 0)) := by
  rw [send_inner_two_rounds]
  have h1 := send_inner_round_corner world_size regs regs hlen hshape
    (regions_rel_refl halo_update halo_update_refl regs) world_size (Nat.le_refl _)
  exact send_inner_round_corner world_size regs (send_inner_round world_size regs) hlen hshape
    h1.1 world_size (Nat.le_refl _)

/-- C21. For every worker `world_rank` of `world_size ≥ 1` workers whose `world_size` tiles have
the sizes of a partition in which every row band and every column band has at least one cell,
after `send_inner` the halo corner `(-1, -1)` of its region `i`, the tile (row band `i`, column
band `(i + world_rank) % world_size`), holds the bottom-right cell of its own region
`(i - 1) mod world_size`, which is the tile (row band `(i - 1) mod world_size`, column band
`(j - 1) mod world_size`) for `j` the column band of region `i`; `send_inner` changes halo cells
only, so this is the bottom-right cell before and after the pass, and no message is involved. -/
theorem send_inner_fills_corner (p : Partition) (world_size world_rank : Nat)
    (regs : List ChessBoardRegion) (hfit : regions_fit p world_size world_rank regs)
    (hrow : ∀ i, i < world_size → 1 ≤ p.row_size.getD i 0)
    (hcol : ∀ j, j < world_size → 1 ≤ p.col_size.getD j 0)
    (i : Nat) (hi : i < world_size) :
    prv_index world_size i = (i + world_size - 1) % world_size ∧
    prv_index world_size i < world_size ∧
    col_band world_size world_rank (prv_index world_size i)
      = (col_band world_size world_rank i + world_size - 1) % world_size ∧
    ((send_inner world_size regs).getD i (ChessBoardRegion.new 0 0)).cell (-1) (-1)
      = (regs.getD (prv_index world_size i) (ChessBoardRegion.new 0 0)).cell
          ((p.row_size.getD (prv_index world_size i) 0 : Int) - 1)
          ((p.col_size.getD (col_band world_size world_rank (prv_index world_size i)) 0 : Int)
            - 1) ∧
    ((send_inner world_size regs).getD (prv_index world_size i) (ChessBoardRegion.new 0 0)).cell
        ((p.row_size.getD (prv_index world_size i) 0 : Int) - 1)
        ((p.col_size.getD (col_band world_size world_rank (prv_index world_size i)) 0 : Int) - 1)
      = (regs.getD (prv_index world_size i) (ChessBoardRegion.new 0 0)).cell
          ((p.row_size.getD (prv_index world_size i) 0 : Int) - 1)
          ((p.col_size.getD (col_band world_size world_rank (prv_index world_size i)) 0 : Int)
            - 1) ∧
    regions_fit p world_size world_rank (send_inner world_size regs) := by
  have hN : 0 < world_size := by omega
  have hprv := prv_index_lt world_size i hi
  have hshape : ∀ k, k < world_size →
      (regs.getD k (ChessBoardRegion.new 0 0)).well_shaped ∧
      1 ≤ (regs.getD k (ChessBoardRegion.new 0 0)).height ∧
      1 ≤ (regs.getD k (ChessBoardRegion.new 0 0)).width := by
    intro k hk
    obtain ⟨e1, e2, e3⟩ := hfit.2 k hk
    exact ⟨e3, by rw [e1]; exact hrow k hk,
      by rw [e2]; exact hcol _ (Nat.mod_lt _ hN)⟩
  obtain ⟨hrel, hcorner⟩ := send_inner_corner world_size regs hfit.1 hshape
  obtain ⟨e1, e2, -⟩ := hfit.2 _ hprv
  have hbr : bottom_right (regs.getD (prv_index world_size i) (ChessBoardRegion.new 0 0))
      = (regs.getD (prv_index world_size i) (ChessBoardRegion.new 0 0)).cell
          ((p.row_size.getD (prv_index world_size i) 0 : Int) - 1)
          ((p.col_size.getD (col_band world_size world_rank (prv_index world_size i)) 0 : Int)
            - 1) := by
    unfold bottom_right ChessBoardRegion.get_height ChessBoardRegion.get_width
    rw [e1, e2]
  refine ⟨prv_index_mod world_size i hi, hprv, col_band_prv world_size world_rank i hi, ?_, ?_,
    ?_⟩
  · rw [hcorner i hi, hbr]
  · have h1 := hrow _ hprv
    have h2 := hcol (col_band world_size world_rank (prv_index world_size i))
      (Nat.mod_lt _ hN)
    exact (hrel.2 (prv_index world_size i)).2 _ _ (by omega) (by omega)
  · exact regions_fit_of_rel _ _ _ _ _ hfit
      (regions_rel_mono halo_update same_shape (fun _ _ h => h.1) _ _ hrel)

theorem send_inner_fills_corner_witness :
    (regions_fit (init_world 2 corner_cfg).part 2 0 ((init_world 2 corner_cfg).regions.getD 0 []) ∧
      (∀ i, i < 2 → 1 ≤ (init_world 2 corner_cfg).part.row_size.getD i 0) ∧
      (∀ j, j < 2 → 1 ≤ (init_world 2 corner_cfg).part.col_size.getD j 0)) ∧
    prv_index 2 0 = 1 ∧ col_band 2 0 (prv_index 2 0) = 1 ∧
    ((send_inner 2 ((init_world 2 corner_cfg).regions.getD 0 [])).getD 0
      (ChessBoardRegion.new 0 0)).cell (-1) (-1) = 5 :=
  have h := send_inner_fills_corner (init_world 2 corner_cfg).part 2 0
    ((init_world 2 corner_cfg).regions.getD 0 []) (by decide) (by decide) (by decide) 0
    (by decide)
  ⟨⟨by decide, by decide, by decide⟩, h.1, h.2.2.1, h.2.2.2.1.trans (by decide)⟩
/-! ## C22: the table of visited states is a bijection -/

theorem ids_bijective_set (vs : List Int) (n key : Nat) (h : ids_bijective vs n)
    (hkey : key < 32) (hnew : vs.getD key (-1) = -1) :
    ids_bijective (vs.set key (n : Int)) (n + 1) := by
  obtain ⟨hlen, hrange, hinj, hsurj⟩ := h
  have hk : key < vs.length := by omega
  refine ⟨by simp [hlen], ?_, ?_, ?_⟩
  · intro k hk32
    rw [getD_set_eq]
    by_cases hkk : key = k ∧ key < vs.length
    · rw [if_pos hkk]
      intro _
      omega
    · rw [if_neg hkk]
      intro hne
      have := hrange k hk32 hne
      omega
  · intro k1 hk1 k2 hk2
    rw [getD_set_eq, getD_set_eq]
    by_cases h1 : key = k1
    · by_cases h2 : key = k2
      · intro _ _
        omega
      · rw [if_pos ⟨h1, hk⟩, if_neg (fun e => h2 e.1)]
        intro _ e
        have hne : vs.getD k2 (-1) ≠ -1 := by omega
        have := hrange k2 hk2 hne
        omega
    · rw [if_neg (fun e => h1 e.1)]
      by_cases h2 : key = k2
      · rw [if_pos ⟨h2, hk⟩]
        intro hne e
        have := hrange k1 hk1 hne
        omega
      · rw [if_neg (fun e => h2 e.1)]
        exact hinj k1 hk1 k2 hk2
  · intro id hid
    by_cases hidn : id = n
    · refine ⟨key, hkey, ?_⟩
      rw [getD_set_eq, if_pos ⟨rfl, hk⟩, hidn]
    · obtain ⟨k, hk32, hkv⟩ := hsurj id (by omega)
      refine ⟨k, hk32, ?_⟩
      rw [getD_set_eq, if_neg, hkv]
      rintro ⟨e, -⟩
      rw [← e, hnew] at hkv
      omega

theorem parse_visited_append (l : List Nat) (v : Nat) :
    parse_visited (l ++ [v]) = (parse_visited l).set v (l.length : Int) := by
  unfold parse_visited
  rw [List.enum_append, List.foldl_append, List.enumFrom_singleton]
  rfl

theorem parse_visited_spec (l : List Nat) :
    l.Nodup → (∀ v, v ∈ l → v < 32) →
      ids_bijective (parse_visited l) l.length ∧
      ∀ key, key < 32 → ((parse_visited l).getD key (-1) ≠ -1 ↔ key ∈ l) := by
  induction l using List.reverseRecOn with
  | nil =>
    intro _ _
    have hget : ∀ key, key < 32 → (parse_visited []).getD key (-1) = -1 := by
      intro key hkey
      show (List.replicate 32 (-1 : Int)).getD key (-1) = -1
      rw [List.getD_eq_getElem?_getD, List.getElem?_replicate]
      simp [hkey]
    refine ⟨⟨by simp [parse_visited], ?_, ?_, ?_⟩, ?_⟩
    · intro key hkey hne
      exact absurd (hget key hkey) hne
    · intro k1 hk1 k2 _ hne
      exact absurd (hget k1 hk1) hne
    · intro id hid
      simp at hid
    · intro key hkey
      constructor
      · intro hne
        exact absurd (hget key hkey) hne
      · intro hmem
        exact absurd hmem (List.not_mem_nil key)
  | append_singleton l v ih =>
    intro hnd hrange
    have hnd' : l.Nodup ∧ v ∉ l := by
      rw [List.nodup_append] at hnd
      refine ⟨hnd.1, fun hv => ?_⟩
      exact hnd.2.2 hv (List.mem_singleton_self v)
    obtain ⟨hbij, hmem⟩ := ih hnd'.1 (fun x hx => hrange x (List.mem_append_left _ hx))
    have hv32 : v < 32 := hrange v (List.mem_append_right _ (List.mem_singleton_self v))
    have hvnew : (parse_visited l).getD v (-1) = -1 := by
      by_contra hne
      exact hnd'.2 ((hmem v hv32).mp hne)
    rw [parse_visited_append, List.length_append, List.length_singleton]
    refine ⟨ids_bijective_set _ _ _ hbij hv32 hvnew, ?_⟩
    intro key hkey
    rw [getD_set_eq, List.mem_append, List.mem_singleton]
    by_cases hkv : v = key
    · rw [if_pos ⟨hkv, by rw [hbij.1]; exact hv32⟩]
      constructor
      · intro _
        exact Or.inr hkv.symm
      · intro _
        omega
    · rw [if_neg (fun e => hkv e.1), hmem key hkey]
      constructor
      · intro h
        exact Or.inl h
      · rintro (h | h)
        · exact h
        · exact absurd h.symm hkv

theorem learn_state_bijective (a : Automaton) (key : Nat) (hkey : key < 32)
    (h : table_bijective a) : table_bijective (learn_state a key) := by
  unfold learn_state
  split_ifs with hnew
  · exact ids_bijective_set _ _ _ h hkey hnew
  · exact h

theorem replay_bijective (xs : List Nat) :
    ∀ a : Automaton, (∀ x, x ∈ xs → x < 64) → table_bijective a →
      table_bijective (replay a xs) := by
  induction xs with
  | nil => intro a _ h; exact h
  | cons x xs ih =>
    intro a hxs h
    have h1 : table_bijective (query_state a x).2 := by
      rw [query_state_snd]
      exact learn_state_bijective a _
        (reduced_state_lt x (hxs x (List.mem_cons_self x xs))) h
    exact ih (query_state a x).2 (fun y hy => hxs y (List.mem_cons_of_mem x hy)) h1

theorem print_state_loop_spec (a : Automaton) (h : table_bijective a) :
    ∀ k, k ≤ 32 →
      (print_state_loop a k).length = a.total_visited_state ∧
      ∀ i, i < k → a.visited_state.getD i (-1) ≠ -1 →
        (print_state_loop a k).getD (a.visited_state.getD i (-1)).toNat 0 = i := by
  obtain ⟨hlen, hrange, hinj, -⟩ := h
  intro k
  induction k with
  | zero =>
    intro _
    exact ⟨by simp [print_state_loop], fun i hi => absurd hi (Nat.not_lt_zero _)⟩
  | succ k ih =>
    intro hk
    obtain ⟨h1, h2⟩ := ih (by omega)
    have hstep : print_state_loop a (k + 1)
        = if a.visited_state.getD k (-1) = -1 then print_state_loop a k
          else (print_state_loop a k).set (a.visited_state.getD k (-1)).toNat k := by
      unfold print_state_loop
      rw [List.range_succ, List.foldl_append]
      rfl
    rw [hstep]
    by_cases hkv : a.visited_state.getD k (-1) = -1
    · rw [if_pos hkv]
      refine ⟨h1, ?_⟩
      intro i hi hne
      have hik : i ≠ k := by
        intro e
        rw [e] at hne
        exact hne hkv
      exact h2 i (by omega) hne
    · rw [if_neg hkv]
      refine ⟨by rw [List.length_set]; exact h1, ?_⟩
      intro i hi hne
      rw [getD_set_eq]
      have hkr := hrange k (by omega) hkv
      by_cases hik : i = k
      · subst hik
        rw [if_pos ⟨rfl, by rw [h1]; omega⟩]
      · have hir := hrange i (by omega) hne
        have hdiff : a.visited_state.getD i (-1) ≠ a.visited_state.getD k (-1) :=
          fun e => hik (hinj i (by omega) k (by omega) hne e)
        rw [if_neg (by intro e; apply hdiff; omega)]
        exact h2 i (by omega) hne

theorem print_state_list_eq (a : Automaton) : print_state_list a = print_state_loop a 32 := rfl

theorem ids_bijective_le (vs : List Int) (n : Nat) (h : ids_bijective vs n) : n ≤ 32 := by
  obtain ⟨-, -, -, hsurj⟩ := h
  have hex : ∀ id : Fin n, ∃ key : Fin 32, vs.getD key.val (-1) = (id.val : Int) := by
    intro id
    obtain ⟨key, hkey, hv⟩ := hsurj id.val id.isLt
    exact ⟨⟨key, hkey⟩, hv⟩
  choose f hf using hex
  have hinj : Function.Injective f := by
    intro x y hxy
    have hx := hf x
    rw [hxy, hf y] at hx
    exact Fin.ext (by omega)
  simpa using Fintype.card_le_of_injective f hinj

/-- C22. If the pre-seeded visited states of the state file are pairwise distinct values below
32, then after `parse_state` and after any further sequence `xs` of `query_state` calls (on
6-bit states, as `get_state` and `rotate_right` produce them) the map from the seen canonical
states to their rule ids is a bijection onto `[0, total_visited_state)`: every entry of
`visited_state` other than `-1` is an id below the counter, no two canonical states share an id
and no id is skipped; the counter is at most 32. Hence every write
`state[visited_state[i]] = i` of `print_state` is inside the vector of `total_visited_state`
entries, and every slot `id` of the printed list holds the canonical state whose id is `id`. -/
theorem table_stays_bijective (cfg : Config) (xs : List Nat)
    (hdistinct : cfg.visited.Nodup) (hrange : ∀ v, v ∈ cfg.visited → v < 32)
    (hxs : ∀ x, x ∈ xs → x < 64) :
    table_bijective (parse_state cfg) ∧
    table_bijective (replay (parse_state cfg) xs) ∧
    (replay (parse_state cfg) xs).total_visited_state ≤ 32 ∧
    (print_state_list (replay (parse_state cfg) xs)).length
      = (replay (parse_state cfg) xs).total_visited_state ∧
    (∀ i, i < 32 → (replay (parse_state cfg) xs).visited_state.getD i (-1) ≠ -1 →
      ((replay (parse_state cfg) xs).visited_state.getD i (-1)).toNat
        < (print_state_list (replay (parse_state cfg) xs)).length ∧
      (print_state_list (replay (parse_state cfg) xs)).getD
        ((replay (parse_state cfg) xs).visited_state.getD i (-1)).toNat 0 = i) ∧
    ∀ id, id < (replay (parse_state cfg) xs).total_visited_state →
      (print_state_list (replay (parse_state cfg) xs)).getD id 0 < 32 ∧
      (replay (parse_state cfg) xs).visited_state.getD
        ((print_state_list (replay (parse_state cfg) xs)).getD id 0) (-1) = (id : Int) := by
  have h0 : table_bijective (parse_state cfg) := (parse_visited_spec cfg.visited hdistinct hrange).1
  have h1 := replay_bijective xs (parse_state cfg) hxs h0
  generalize replay (parse_state cfg) xs = a at h1
  obtain ⟨hlen, hslot⟩ := print_state_loop_spec a h1 32 (Nat.le_refl _)
  rw [← print_state_list_eq] at hlen hslot
  refine ⟨h0, h1, ids_bijective_le _ _ h1, hlen, ?_, ?_⟩
  · intro i hi hne
    have hr := h1.2.1 i hi hne
    exact ⟨by rw [hlen]; omega, hslot i hi hne⟩
  · intro id hid
    obtain ⟨key, hkey, hv⟩ := h1.2.2.2 id hid
    have hne : a.visited_state.getD key (-1) ≠ -1 := by omega
    have hs := hslot key hkey hne
    rw [hv, Int.toNat_ofNat] at hs
    rw [hs]
    exact ⟨hkey, hv⟩

theorem table_stays_bijective_witness :
    (seeded_cfg.visited.Nodup ∧ (∀ v, v ∈ seeded_cfg.visited → v < 32) ∧
      ∀ x, x ∈ [0, 8, 9] → x < 64) ∧
    table_bijective (replay (parse_state seeded_cfg) [0, 8, 9]) ∧
    (replay (parse_state seeded_cfg) [0, 8, 9]).total_visited_state = 4 ∧
    print_state_list (replay (parse_state seeded_cfg) [0, 8, 9]) = [3, 17, 0, 1] :=
  ⟨⟨by decide, by decide, by decide⟩,
    (table_stays_bijective seeded_cfg [0, 8, 9] (by decide) (by decide) (by decide)).2.1,
    by decide, by decide⟩

end WormSim
